import Mathlib

/-!
Verification of the treego library (B+ tree and R-tree components) against its
specification.  The Go source is shallowly embedded: pointer-mutating code is
rendered as pure functions on inductive trees, `float64` coordinates become
exact rationals, and `math.Sqrt` in the nearest-neighbor distance is replaced
by the squared distance (the square root is strictly monotone on nonnegative
reals, so every comparison performed by the algorithms is unchanged).
-/

namespace Treego

/-! ## R-tree geometry (rtree.go: Rectangle, Point and their methods) -/

structure Rect where
  minX : ℚ
  minY : ℚ
  maxX : ℚ
  maxY : ℚ
deriving DecidableEq, Repr

structure Pt where
  x : ℚ
  y : ℚ
deriving DecidableEq, Repr

/-- `Area` -/
def Rect.area (r : Rect) : ℚ := (r.maxX - r.minX) * (r.maxY - r.minY)

/-- `Margin` -/
def Rect.margin (r : Rect) : ℚ := (r.maxX - r.minX) + (r.maxY - r.minY)

/-- `Intersects` (closed rectangles: edge touching counts) -/
def Rect.intersects (r o : Rect) : Prop :=
  r.minX ≤ o.maxX ∧ o.minX ≤ r.maxX ∧ r.minY ≤ o.maxY ∧ o.minY ≤ r.maxY

instance (r o : Rect) : Decidable (r.intersects o) := by
  unfold Rect.intersects; infer_instance

/-- `ContainsPoint` (inclusive on all four sides) -/
def Rect.containsPoint (r : Rect) (p : Pt) : Prop :=
  r.minX ≤ p.x ∧ p.x ≤ r.maxX ∧ r.minY ≤ p.y ∧ p.y ≤ r.maxY

instance (r : Rect) (p : Pt) : Decidable (r.containsPoint p) := by
  unfold Rect.containsPoint; infer_instance

/-- `Union` (also the net effect of `Expand`) -/
def Rect.union (r o : Rect) : Rect :=
  ⟨min r.minX o.minX, min r.minY o.minY, max r.maxX o.maxX, max r.maxY o.maxY⟩

/-- `EnlargementNeeded` -/
def Rect.enlargementNeeded (r o : Rect) : ℚ := (r.union o).area - r.area

/-- Squared point-to-rectangle distance.  The source computes
`math.Sqrt(dx*dx+dy*dy)`; we keep `dx*dx+dy*dy`, which induces the same order
on distances. -/
def Rect.distSq (r : Rect) (p : Pt) : ℚ :=
  let dx := max 0 (max (r.minX - p.x) (p.x - r.maxX))
  let dy := max 0 (max (r.minY - p.y) (p.y - r.maxY))
  dx * dx + dy * dy

/-- `a` is contained in `b` (the relation maintained between an entry and the
bounding box of the node holding it). -/
def Rect.subsetR (a b : Rect) : Prop :=
  b.minX ≤ a.minX ∧ a.maxX ≤ b.maxX ∧ b.minY ≤ a.minY ∧ a.maxY ≤ b.maxY

theorem Rect.subsetR_union_left (a b : Rect) : a.subsetR (a.union b) := by
  refine ⟨min_le_left _ _, le_max_left _ _, min_le_left _ _, le_max_left _ _⟩

theorem Rect.subsetR_union_right (a b : Rect) : b.subsetR (a.union b) := by
  refine ⟨min_le_right _ _, le_max_right _ _, min_le_right _ _, le_max_right _ _⟩

theorem Rect.subsetR_refl (a : Rect) : a.subsetR a :=
  ⟨le_refl _, le_refl _, le_refl _, le_refl _⟩

theorem Rect.subsetR_trans {a b c : Rect} (h1 : a.subsetR b) (h2 : b.subsetR c) :
    a.subsetR c := by
  obtain ⟨x1, x2, x3, x4⟩ := h1
  obtain ⟨y1, y2, y3, y4⟩ := h2
  exact ⟨le_trans y1 x1, le_trans x2 y2, le_trans y3 x3, le_trans x4 y4⟩

theorem Rect.union_subsetR {a b c : Rect} (h1 : a.subsetR c) (h2 : b.subsetR c) :
    (a.union b).subsetR c := by
  obtain ⟨x1, x2, x3, x4⟩ := h1
  obtain ⟨y1, y2, y3, y4⟩ := h2
  exact ⟨le_min x1 y1, max_le x2 y2, le_min x3 y3, max_le x4 y4⟩

/-- Intersection is monotone in a containing box: a box containing `a`
intersects anything that `a` intersects. -/
theorem Rect.intersects_of_subsetR {a b w : Rect} (hs : a.subsetR b)
    (hi : a.intersects w) : b.intersects w := by
  obtain ⟨s1, s2, s3, s4⟩ := hs
  obtain ⟨i1, i2, i3, i4⟩ := hi
  exact ⟨le_trans s1 i1, le_trans i2 s2, le_trans s3 i3, le_trans i4 s4⟩

/-- The squared distance to a containing box is no larger than the squared
distance to the contained box. -/
theorem Rect.distSq_le_of_subsetR {a b : Rect} (p : Pt) (hs : a.subsetR b) :
    b.distSq p ≤ a.distSq p := by
  obtain ⟨s1, s2, s3, s4⟩ := hs
  dsimp only [Rect.distSq]
  have hx : max 0 (max (b.minX - p.x) (p.x - b.maxX)) ≤
      max 0 (max (a.minX - p.x) (p.x - a.maxX)) := by
    apply max_le (le_max_left _ _)
    apply max_le
    · exact le_max_of_le_right (le_max_left _ _) |>.trans' (by linarith)
    · exact le_max_of_le_right (le_max_right _ _) |>.trans' (by linarith)
  have hy : max 0 (max (b.minY - p.y) (p.y - b.maxY)) ≤
      max 0 (max (a.minY - p.y) (p.y - a.maxY)) := by
    apply max_le (le_max_left _ _)
    apply max_le
    · exact le_max_of_le_right (le_max_left _ _) |>.trans' (by linarith)
    · exact le_max_of_le_right (le_max_right _ _) |>.trans' (by linarith)
  have hx0 : (0 : ℚ) ≤ max 0 (max (b.minX - p.x) (p.x - b.maxX)) := le_max_left _ _
  have hy0 : (0 : ℚ) ≤ max 0 (max (b.minY - p.y) (p.y - b.maxY)) := le_max_left _ _
  have := mul_le_mul hx hx hx0 (hx0.trans hx)
  have := mul_le_mul hy hy hy0 (hy0.trans hy)
  linarith

/-! ## R-tree data model (rtree.go: Item, Node, RTree) -/

/-- `Item` (the opaque `Data interface{}` payload becomes a type parameter). -/
structure Item (α : Type) where
  bounds : Rect
  data : α
deriving DecidableEq, Repr

/-- `Node`: a leaf holds items, an internal node holds children; both cache a
`bounds` rectangle.  Parent back-links are implicit in the functional
embedding. -/
inductive RNode (α : Type) where
  | leaf (bounds : Rect) (items : List (Item α))
  | inner (bounds : Rect) (children : List (RNode α))
deriving Repr

/-- `RTree` -/
structure RTree (α : Type) where
  root : RNode α
  minEntries : Nat
  maxEntries : Nat
  size : Nat

def RNode.bounds {α : Type} : RNode α → Rect
  | .leaf b _ => b
  | .inner b _ => b

/-- `NewRTree` with its clamping of `minEntries`. -/
def newRTree (α : Type) (minE maxE : Nat) : RTree α :=
  let m := if minE < 1 ∨ minE > maxE / 2 then maxE / 2 else minE
  ⟨.leaf ⟨0, 0, 0, 0⟩ [], m, maxE, 0⟩

/-- Fold of `Expand` starting from a first rectangle, as performed by
`updateBounds`. -/
def mbr1 (b : Rect) (rs : List Rect) : Rect := rs.foldl Rect.union b

/-- Minimum bounding rectangle of a list of rectangles; on `[]` (never reached
by `updateBounds`, which returns early) a degenerate default is used. -/
def mbrOf : List Rect → Rect
  | [] => ⟨0, 0, 0, 0⟩
  | r :: rs => mbr1 r rs

/-- The cached-entry rectangles of a node (what `updateBounds` folds over). -/
def RNode.entryBounds {α : Type} : RNode α → List Rect
  | .leaf _ its => its.map Item.bounds
  | .inner _ cs => cs.map RNode.bounds

/-- `updateBounds` restricted to one node: recompute the cached bounds from
the current entries (no-op on an empty node, mirroring the early return).
Propagation to ancestors is performed by the callers in this embedding. -/
def recompute {α : Type} (n : RNode α) : RNode α :=
  match n with
  | .leaf b its => if its.isEmpty then .leaf b its else .leaf (mbrOf (its.map Item.bounds)) its
  | .inner b cs => if cs.isEmpty then .inner b cs else .inner (mbrOf (cs.map RNode.bounds)) cs

theorem mbr1_subsetR {b c : Rect} {rs : List Rect} (h : b.subsetR c)
    (hall : ∀ r ∈ rs, r.subsetR c) : (mbr1 b rs).subsetR c := by
  induction rs generalizing b with
  | nil => exact h
  | cons r rs ih =>
    exact ih (Rect.union_subsetR h (hall r (List.mem_cons_self _ _)))
      (fun x hx => hall x (List.mem_cons_of_mem _ hx))

theorem subsetR_mbr1_head (b : Rect) (rs : List Rect) : b.subsetR (mbr1 b rs) := by
  induction rs generalizing b with
  | nil => exact Rect.subsetR_refl b
  | cons r rs ih => exact Rect.subsetR_trans (Rect.subsetR_union_left b r) (ih _)

theorem subsetR_mbr1_mem {r : Rect} {rs : List Rect} (b : Rect) (h : r ∈ rs) :
    r.subsetR (mbr1 b rs) := by
  induction rs generalizing b with
  | nil => cases h
  | cons x rs ih =>
    rcases List.mem_cons.1 h with rfl | h
    · exact Rect.subsetR_trans (Rect.subsetR_union_right b r) (subsetR_mbr1_head _ _)
    · exact ih _ h

theorem subsetR_mbrOf {r : Rect} {rs : List Rect} (h : r ∈ rs) : r.subsetR (mbrOf rs) := by
  cases rs with
  | nil => cases h
  | cons x rs =>
    rcases List.mem_cons.1 h with rfl | h
    · exact subsetR_mbr1_head _ _
    · exact subsetR_mbr1_mem _ h

theorem mbrOf_subsetR {rs : List Rect} {c : Rect} (hne : rs ≠ [])
    (hall : ∀ r ∈ rs, r.subsetR c) : (mbrOf rs).subsetR c := by
  cases rs with
  | nil => exact absurd rfl hne
  | cons x rs =>
    exact mbr1_subsetR (hall x (List.mem_cons_self _ _))
      (fun r hr => hall r (List.mem_cons_of_mem _ hr))

/-! ## R-tree quadratic exchange sort (sortItemsByMinX etc.)

The source sorts with a double loop that swaps `a[i], a[j]` whenever
`key a[i] > key a[j]`.  One inner pass starting at position `i` moves the
minimum of the suffix into position `i`, scattering the displaced former heads
into the slots where smaller elements were found; `exchPass` reproduces that
pass and `sortExch` iterates it. -/

def exchPass {β : Type} (key : β → ℚ) : β → List β → β × List β
  | h, [] => (h, [])
  | h, y :: ys =>
    if key h > key y then
      let p := exchPass key y ys
      (p.1, h :: p.2)
    else
      let p := exchPass key h ys
      (p.1, y :: p.2)

def sortExchAux {β : Type} (key : β → ℚ) : Nat → List β → List β
  | _, [] => []
  | 0, l => l
  | n + 1, h :: t =>
    let p := exchPass key h t
    p.1 :: sortExchAux key n p.2

def sortExch {β : Type} (key : β → ℚ) (l : List β) : List β :=
  sortExchAux key l.length l

theorem exchPass_perm {β : Type} (key : β → ℚ) (h : β) (t : List β) :
    ((exchPass key h t).1 :: (exchPass key h t).2).Perm (h :: t) := by
  induction t generalizing h with
  | nil => simp [exchPass]
  | cons y ys ih =>
    by_cases hc : key h > key y
    · simp only [exchPass, if_pos hc]
      exact (List.Perm.swap h (exchPass key y ys).1 (exchPass key y ys).2).trans
        ((ih y).cons h)
    · simp only [exchPass, if_neg hc]
      exact ((List.Perm.swap y (exchPass key h ys).1 (exchPass key h ys).2).trans
        ((ih h).cons y)).trans (List.Perm.swap h y ys)

theorem exchPass_length {β : Type} (key : β → ℚ) (h : β) (t : List β) :
    (exchPass key h t).2.length = t.length := by
  induction t generalizing h with
  | nil => simp [exchPass]
  | cons y ys ih =>
    by_cases hc : key h > key y
    · simp [exchPass, if_pos hc, ih]
    · simp [exchPass, if_neg hc, ih]

theorem sortExchAux_perm {β : Type} (key : β → ℚ) (n : Nat) (l : List β) :
    (sortExchAux key n l).Perm l := by
  induction n generalizing l with
  | zero => cases l <;> simp [sortExchAux]
  | succ n ih =>
    cases l with
    | nil => simp [sortExchAux]
    | cons h t =>
      simp only [sortExchAux]
      exact ((ih _).cons _).trans (exchPass_perm key h t)

theorem sortExch_perm {β : Type} (key : β → ℚ) (l : List β) :
    (sortExch key l).Perm l := sortExchAux_perm key l.length l

theorem sortExch_length {β : Type} (key : β → ℚ) (l : List β) :
    (sortExch key l).length = l.length := (sortExch_perm key l).length_eq

/-! ## R-tree split (chooseSplitAxis, calculateMarginSum, chooseSplitIndex) -/

/-- `calculateMarginSum`: sum, over every valid distribution position
`i ∈ [minEntries, count - minEntries]`, of the margins of the two group
MBRs. -/
def marginSumList (minE : Nat) (rs : List Rect) : ℚ :=
  ((List.range' minE (rs.length + 1 - 2 * minE)).map fun i =>
    (mbrOf (rs.take i)).margin + (mbrOf (rs.drop i)).margin).sum

/-- Margin sum along the X axis: entries are first sorted by `MinX`. -/
def marginSumX {β : Type} (minE : Nat) (bf : β → Rect) (es : List β) : ℚ :=
  marginSumList minE ((sortExch (fun e => (bf e).minX) es).map bf)

/-- Margin sum along the Y axis.  In the source `chooseSplitAxis` sorts the
same slice by `MinX` and then by `MinY`, so the Y-margin is computed on the
re-sort of the X-sorted slice. -/
def marginSumY {β : Type} (minE : Nat) (bf : β → Rect) (es : List β) : ℚ :=
  marginSumList minE
    ((sortExch (fun e => (bf e).minY) (sortExch (fun e => (bf e).minX) es)).map bf)

/-- `chooseSplitAxis`: 0 for X, 1 for Y; note `if xMargin < yMargin` in the
source, so a tie yields the Y axis. -/
def chooseSplitAxis {β : Type} (minE : Nat) (bf : β → Rect) (es : List β) : Nat :=
  if marginSumX minE bf es < marginSumY minE bf es then 0 else 1

/-- The entry order left behind by `chooseSplitAxis` (its last sort is by
`MinY`). -/
def afterAxisSort {β : Type} (bf : β → Rect) (es : List β) : List β :=
  sortExch (fun e => (bf e).minY) (sortExch (fun e => (bf e).minX) es)

/-- First-occurrence argmin over candidate indices, ordered lexicographically
by (overlap, area) with strict improvement, as in `chooseSplitIndex`. -/
def argminLex (score : Nat → ℚ × ℚ) : Nat → ℚ × ℚ → List Nat → Nat
  | best, _, [] => best
  | best, bv, j :: js =>
    let sj := score j
    if sj.1 < bv.1 ∨ (sj.1 = bv.1 ∧ sj.2 < bv.2) then argminLex score j sj js
    else argminLex score best bv js

/-- The (overlap, area-sum) score of splitting `rs` before position `i`. -/
def splitScore (rs : List Rect) (i : Nat) : ℚ × ℚ :=
  let r1 := mbrOf (rs.take i)
  let r2 := mbrOf (rs.drop i)
  let overlap :=
    if r1.intersects r2 then
      (min r1.maxX r2.maxX - max r1.minX r2.minX) *
        (min r1.maxY r2.maxY - max r1.minY r2.minY)
    else 0
  (overlap, r1.area + r2.area)

/-- `chooseSplitIndex` on a slice already sorted along the chosen axis.
The Go loop starts with `bestIndex = minEntries` and an infinite sentinel
score, so the first candidate always becomes the initial champion. -/
def chooseSplitIndexSorted (minE : Nat) (rs : List Rect) : Nat :=
  match List.range' minE (rs.length + 1 - 2 * minE) with
  | [] => minE
  | j :: js => argminLex (splitScore rs) j (splitScore rs j) js

/-- The full split pipeline on a list of entries: choose the axis, re-sort by
it (starting, as the source does, from the Y-sorted order that
`chooseSplitAxis` left behind), choose the index, and partition. -/
def splitEntries {β : Type} (minE : Nat) (bf : β → Rect) (es : List β) :
    List β × List β :=
  let axis := chooseSplitAxis minE bf es
  let es1 := afterAxisSort bf es
  let es2 :=
    if axis = 0 then sortExch (fun e => (bf e).minX) es1
    else sortExch (fun e => (bf e).minY) es1
  let idx := chooseSplitIndexSorted minE (es2.map bf)
  (es2.take idx, es2.drop idx)

theorem splitEntries_perm {β : Type} (minE : Nat) (bf : β → Rect) (es : List β) :
    ((splitEntries minE bf es).1 ++ (splitEntries minE bf es).2).Perm es := by
  simp only [splitEntries, afterAxisSort]
  by_cases h : chooseSplitAxis minE bf es = 0
  · rw [if_pos h, List.take_append_drop]
    exact (sortExch_perm _ _).trans ((sortExch_perm _ _).trans (sortExch_perm _ _))
  · rw [if_neg h, List.take_append_drop]
    exact (sortExch_perm _ _).trans ((sortExch_perm _ _).trans (sortExch_perm _ _))

/-! ## R-tree insertion (Insert, chooseLeaf, splitNode) -/

/-- The champion loop of `chooseLeaf`: the running best child is replaced
whenever a child needs strictly less enlargement, or equal enlargement with
strictly smaller area.  The Go loop starts from an infinite sentinel, so the
first child always becomes the initial champion. -/
def chooseChildAux {α : Type} (b : Rect) :
    Nat → ℚ → ℚ → Nat → List (RNode α) → Nat
  | best, _, _, _, [] => best
  | best, bestE, bestA, i, c :: cs =>
    let e := (RNode.bounds c).enlargementNeeded b
    let a := (RNode.bounds c).area
    if e < bestE ∨ (e = bestE ∧ a < bestA) then chooseChildAux b i e a (i + 1) cs
    else chooseChildAux b best bestE bestA (i + 1) cs

/-- Index of the child selected by `chooseLeaf` at one internal node. -/
def chooseChildIdx {α : Type} (b : Rect) : List (RNode α) → Nat
  | [] => 0
  | c :: cs =>
    chooseChildAux b 0 ((RNode.bounds c).enlargementNeeded b) ((RNode.bounds c).area) 1 cs

theorem chooseChildAux_lt {α : Type} (b : Rect) (best : Nat) (bestE bestA : ℚ)
    (i : Nat) (cs : List (RNode α)) (k : Nat) (hbest : best < k) (hi : i = k) :
    chooseChildAux b best bestE bestA i cs < k + cs.length := by
  induction cs generalizing best bestE bestA i k with
  | nil => simpa [chooseChildAux] using hbest
  | cons c cs ih =>
    simp only [chooseChildAux]
    by_cases hc : (RNode.bounds c).enlargementNeeded b < bestE ∨
        ((RNode.bounds c).enlargementNeeded b = bestE ∧ (RNode.bounds c).area < bestA)
    · rw [if_pos hc]
      have := ih i ((RNode.bounds c).enlargementNeeded b) ((RNode.bounds c).area)
        (i + 1) (k + 1) (by omega) (by omega)
      simpa [Nat.add_comm, Nat.add_assoc, Nat.add_left_comm] using this
    · rw [if_neg hc]
      have := ih best bestE bestA (i + 1) (k + 1) (by omega) (by omega)
      simpa [Nat.add_comm, Nat.add_assoc, Nat.add_left_comm] using this

theorem chooseChildIdx_lt {α : Type} (b : Rect) (cs : List (RNode α)) (h : cs ≠ []) :
    chooseChildIdx b cs < cs.length := by
  cases cs with
  | nil => exact absurd rfl h
  | cons c cs =>
    have := chooseChildAux_lt b 0 ((RNode.bounds c).enlargementNeeded b)
      ((RNode.bounds c).area) 1 cs 1 (by omega) rfl
    simpa [chooseChildIdx, Nat.add_comm] using this

/-- `splitNode` restricted to one already-overflowing node: partition its
entries with the R*-style axis/index choice and recompute both halves'
bounds.  Attachment of the new node to the parent is done by the caller. -/
def splitRNode {α : Type} (minE : Nat) : RNode α → RNode α × RNode α
  | .leaf b its =>
    let p := splitEntries minE Item.bounds its
    (recompute (.leaf b p.1), recompute (.leaf b p.2))
  | .inner b cs =>
    let p := splitEntries minE RNode.bounds cs
    (recompute (.inner b p.1), recompute (.inner b p.2))

/-- Result of inserting into a subtree: either the updated subtree, or the
two halves of a split whose attachment propagates to the parent. -/
inductive InsR (α : Type) where
  | one (n : RNode α)
  | two (l r : RNode α)

/-- `Insert`'s descent: choose a child by least enlargement, insert
recursively, update bounds on the way back, and split any node that exceeds
`maxEntries` (a split sibling is appended at the end of the parent's child
list, as `append` does in the source).  An internal node with no children is
unreachable in trees built by `Insert` (the Go code would dereference nil);
the embedding returns the node unchanged there. -/
def insertAux {α : Type} (minE maxE : Nat) (it : Item α) : RNode α → InsR α
  | .leaf b its =>
    if (its ++ [it]).length > maxE then
      .two (splitRNode minE (recompute (.leaf b (its ++ [it])))).1
        (splitRNode minE (recompute (.leaf b (its ++ [it])))).2
    else .one (recompute (.leaf b (its ++ [it])))
  | .inner b cs =>
    if h : cs.isEmpty then .one (.inner b cs)
    else
      have hi : chooseChildIdx it.bounds cs < cs.length :=
        chooseChildIdx_lt it.bounds cs (by simpa using h)
      match insertAux minE maxE it (cs.get ⟨chooseChildIdx it.bounds cs, hi⟩) with
      | .one c2 => .one (recompute (.inner b (cs.set (chooseChildIdx it.bounds cs) c2)))
      | .two c1 c2 =>
        if (cs.set (chooseChildIdx it.bounds cs) c1 ++ [c2]).length > maxE then
          .two (splitRNode minE (recompute
              (.inner b (cs.set (chooseChildIdx it.bounds cs) c1 ++ [c2])))).1
            (splitRNode minE (recompute
              (.inner b (cs.set (chooseChildIdx it.bounds cs) c1 ++ [c2])))).2
        else .one (recompute (.inner b (cs.set (chooseChildIdx it.bounds cs) c1 ++ [c2])))
  termination_by n => sizeOf n
  decreasing_by
    simp only [RNode.inner.sizeOf_spec]
    exact lt_of_lt_of_le (List.sizeOf_lt_of_mem (List.get_mem _ _ hi)) (by omega)

/-- `Insert` at the tree level: descend, then handle a root split by creating
a new root with the two halves. -/
def RTree.insert {α : Type} (t : RTree α) (it : Item α) : RTree α :=
  match insertAux t.minEntries t.maxEntries it t.root with
  | .one n => { t with root := n, size := t.size + 1 }
  | .two l r =>
    { t with root := recompute (.inner ⟨0, 0, 0, 0⟩ [l, r]), size := t.size + 1 }

/-- Build a tree by a sequence of inserts from `NewRTree`. -/
def buildR (α : Type) (minE maxE : Nat) (its : List (Item α)) : RTree α :=
  its.foldl RTree.insert (newRTree α minE maxE)

/-! ## R-tree search (Search, searchNode) and the stored-item multiset -/

mutual

/-- All items stored in a subtree, in left-to-right order. -/
def nodeItems {α : Type} : RNode α → List (Item α)
  | .leaf _ its => its
  | .inner _ cs => nodeItemsL cs

def nodeItemsL {α : Type} : List (RNode α) → List (Item α)
  | [] => []
  | c :: cs => nodeItems c ++ nodeItemsL cs

end

mutual

/-- `searchNode`: prune subtrees whose cached bounds miss the window, filter
items at the leaves by exact intersection. -/
def searchNode {α : Type} (w : Rect) : RNode α → List (Item α)
  | .leaf b its =>
    if b.intersects w then its.filter (fun it => decide (it.bounds.intersects w)) else []
  | .inner b cs => if b.intersects w then searchNodeL w cs else []

def searchNodeL {α : Type} (w : Rect) : List (RNode α) → List (Item α)
  | [] => []
  | c :: cs => searchNode w c ++ searchNodeL w cs

end

/-- `Search` -/
def RTree.search {α : Type} (t : RTree α) (w : Rect) : List (Item α) :=
  searchNode w t.root

/-- `Size` -/
def RTree.sizeOp {α : Type} (t : RTree α) : Nat := t.size

/-! ## R-tree structural invariant: cached bounds are exact MBRs -/

theorem nodeItemsL_append {α : Type} (l1 l2 : List (RNode α)) :
    nodeItemsL (l1 ++ l2) = nodeItemsL l1 ++ nodeItemsL l2 := by
  induction l1 with
  | nil => simp [nodeItemsL]
  | cons c cs ih => simp [nodeItemsL, ih]

theorem mem_nodeItemsL {α : Type} {it : Item α} {cs : List (RNode α)} :
    it ∈ nodeItemsL cs ↔ ∃ c ∈ cs, it ∈ nodeItems c := by
  induction cs with
  | nil => simp [nodeItemsL]
  | cons c cs ih => simp [nodeItemsL, ih, List.mem_append, or_and_right, exists_or]

/-- The invariant maintained by `Insert` on every node of the tree: nonempty,
within the `maxEntries` capacity, and with cached bounds exactly the MBR of
the entries.  The initial empty root is the only exception and is treated
separately. -/
inductive GoodN {α : Type} (maxE : Nat) : RNode α → Prop where
  | leaf {b : Rect} {its : List (Item α)} (hne : its ≠ []) (hlen : its.length ≤ maxE)
      (hb : b = mbrOf (its.map Item.bounds)) : GoodN maxE (.leaf b its)
  | inner {b : Rect} {cs : List (RNode α)} (hne : cs ≠ []) (hlen : cs.length ≤ maxE)
      (hb : b = mbrOf (cs.map RNode.bounds)) (hcs : ∀ c ∈ cs, GoodN maxE c) :
      GoodN maxE (.inner b cs)

/-- Under the invariant, every stored item's rectangle is contained in the
cached bounds of the node storing it. -/
theorem GoodN.items_subsetR {α : Type} {maxE : Nat} {n : RNode α}
    (hg : GoodN maxE n) : ∀ it ∈ nodeItems n, it.bounds.subsetR n.bounds := by
  induction hg with
  | leaf hne hlen hb =>
    intro it hit
    rw [RNode.bounds, hb]
    exact subsetR_mbrOf (List.mem_map_of_mem _ hit)
  | inner hne hlen hb hcs ih =>
    intro it hit
    rw [nodeItems] at hit
    obtain ⟨c, hc, hitc⟩ := mem_nodeItemsL.1 hit
    refine Rect.subsetR_trans (ih c hc it hitc) ?_
    rw [RNode.bounds, hb]
    exact subsetR_mbrOf (List.mem_map_of_mem _ hc)

theorem searchNodeL_eq {α : Type} (w : Rect) (cs : List (RNode α)) (maxE : Nat)
    (hcs : ∀ c ∈ cs, GoodN maxE c)
    (hrec : ∀ c ∈ cs, searchNode w c =
      (nodeItems c).filter (fun it => decide (it.bounds.intersects w))) :
    searchNodeL w cs =
      (nodeItemsL cs).filter (fun it => decide (it.bounds.intersects w)) := by
  induction cs with
  | nil => simp [searchNodeL, nodeItemsL]
  | cons c cs ih =>
    rw [searchNodeL, nodeItemsL, List.filter_append,
      hrec c (List.mem_cons_self _ _),
      ih (fun x hx => hcs x (List.mem_cons_of_mem _ hx))
        (fun x hx => hrec x (List.mem_cons_of_mem _ hx))]

/-- Window search is exactly the filter of the stored items by closed-rectangle
intersection: the pruning test cannot drop an intersecting item because the
cached bounds contain every stored rectangle. -/
theorem searchNode_eq {α : Type} (w : Rect) {maxE : Nat} {n : RNode α}
    (hg : GoodN maxE n) :
    searchNode w n = (nodeItems n).filter (fun it => decide (it.bounds.intersects w)) := by
  induction hg with
  | leaf hne hlen hb =>
    rw [searchNode, nodeItems]
    split
    · rfl
    · next hni =>
      symm
      rw [List.filter_eq_nil_iff]
      intro it hit hint
      exact hni (Rect.intersects_of_subsetR
        ((GoodN.leaf hne hlen hb).items_subsetR it hit) (by simpa using hint))
  | inner hne hlen hb hcs ih =>
    rw [searchNode, nodeItems]
    split
    · exact searchNodeL_eq w _ _ hcs ih
    · next hni =>
      symm
      rw [List.filter_eq_nil_iff]
      intro it hit hint
      exact hni (Rect.intersects_of_subsetR
        ((GoodN.inner hne hlen hb hcs).items_subsetR it (by rw [nodeItems]; exact hit))
        (by simpa using hint))

/-! ## Preservation of the invariant by Insert -/

theorem nodeItemsL_eq_flatMap {α : Type} (cs : List (RNode α)) :
    nodeItemsL cs = cs.flatMap nodeItems := by
  induction cs with
  | nil => rfl
  | cons c cs ih => rw [nodeItemsL, ih, List.flatMap_cons]

theorem nodeItemsL_perm_of_perm {α : Type} {l1 l2 : List (RNode α)}
    (h : l1.Perm l2) : (nodeItemsL l1).Perm (nodeItemsL l2) := by
  rw [nodeItemsL_eq_flatMap, nodeItemsL_eq_flatMap]
  exact h.flatMap_right nodeItems

theorem argminLex_mem (score : Nat → ℚ × ℚ) (best : Nat) (bv : ℚ × ℚ)
    (js : List Nat) : argminLex score best bv js ∈ best :: js := by
  induction js generalizing best bv with
  | nil => simp [argminLex]
  | cons j js ih =>
    rw [argminLex]
    split
    · rcases List.mem_cons.1 (ih j (score j)) with h | h
      · rw [h]
        exact List.mem_cons_of_mem _ (List.mem_cons_self _ _)
      · exact List.mem_cons_of_mem _ (List.mem_cons_of_mem _ h)
    · rcases List.mem_cons.1 (ih best bv) with h | h
      · rw [h]
        exact List.mem_cons_self _ _
      · exact List.mem_cons_of_mem _ (List.mem_cons_of_mem _ h)

theorem chooseSplitIndexSorted_bounds {minE : Nat} {rs : List Rect}
    (hminE : 1 ≤ minE) (hcount : 2 * minE ≤ rs.length) :
    minE ≤ chooseSplitIndexSorted minE rs ∧
      chooseSplitIndexSorted minE rs ≤ rs.length - minE := by
  rw [chooseSplitIndexSorted]
  split
  · next heq => exact ⟨le_refl _, by omega⟩
  · next j js heq =>
    have hmem : argminLex (splitScore rs) j (splitScore rs j) js ∈ j :: js :=
      argminLex_mem _ _ _ _
    rw [← heq] at hmem
    have := List.mem_range'_1.1 hmem
    omega

theorem splitEntries_shape {β : Type} {minE : Nat} (bf : β → Rect) {es : List β}
    (hminE : 1 ≤ minE) (hcount : 2 * minE ≤ es.length) :
    (splitEntries minE bf es).1 ≠ [] ∧ (splitEntries minE bf es).2 ≠ [] ∧
      (splitEntries minE bf es).1.length ≤ es.length - minE ∧
      (splitEntries minE bf es).2.length ≤ es.length - minE := by
  simp only [splitEntries]
  set es2 := if chooseSplitAxis minE bf es = 0 then
      sortExch (fun e => (bf e).minX) (afterAxisSort bf es)
    else sortExch (fun e => (bf e).minY) (afterAxisSort bf es) with hes2
  have hlen2 : es2.length = es.length := by
    rw [hes2]
    split <;>
      rw [sortExch_length] <;>
      simp [afterAxisSort, sortExch_length]
  have hmap : (es2.map bf).length = es.length := by simp [hlen2]
  obtain ⟨h1, h2⟩ := @chooseSplitIndexSorted_bounds minE (es2.map bf) hminE (by omega)
  rw [hmap] at h2
  refine ⟨?_, ?_, ?_, ?_⟩
  · have : 0 < (es2.take (chooseSplitIndexSorted minE (es2.map bf))).length := by
      rw [List.length_take]
      omega
    exact List.ne_nil_of_length_pos this
  · have : 0 < (es2.drop (chooseSplitIndexSorted minE (es2.map bf))).length := by
      rw [List.length_drop]
      omega
    exact List.ne_nil_of_length_pos this
  · rw [List.length_take]; omega
  · rw [List.length_drop]; omega

theorem recompute_leaf_good {α : Type} {maxE : Nat} {b : Rect} {its : List (Item α)}
    (hne : its ≠ []) (hlen : its.length ≤ maxE) :
    GoodN maxE (recompute (.leaf b its)) := by
  rw [recompute]
  rw [if_neg (by simpa using hne)]
  exact GoodN.leaf hne hlen rfl

theorem recompute_inner_good {α : Type} {maxE : Nat} {b : Rect} {cs : List (RNode α)}
    (hne : cs ≠ []) (hlen : cs.length ≤ maxE) (hcs : ∀ c ∈ cs, GoodN maxE c) :
    GoodN maxE (recompute (.inner b cs)) := by
  rw [recompute]
  rw [if_neg (by simpa using hne)]
  exact GoodN.inner hne hlen rfl hcs

theorem nodeItems_recompute {α : Type} (n : RNode α) :
    nodeItems (recompute n) = nodeItems n := by
  cases n with
  | leaf b its => rw [recompute]; split <;> rfl
  | inner b cs => rw [recompute]; split <;> rfl

/-- Splitting an overflowing leaf yields two good halves whose items are a
permutation of the original items. -/
theorem splitRNode_leaf_good {α : Type} {minE maxE : Nat} {b : Rect}
    {its : List (Item α)} (hminE : 1 ≤ minE) (hmaxE : 2 * minE ≤ maxE)
    (hlen : its.length = maxE + 1) :
    GoodN maxE (splitRNode minE (.leaf b its)).1 ∧
      GoodN maxE (splitRNode minE (.leaf b its)).2 ∧
      (nodeItems (splitRNode minE (.leaf b its)).1 ++
        nodeItems (splitRNode minE (.leaf b its)).2).Perm its := by
  obtain ⟨hne1, hne2, hl1, hl2⟩ :=
    @splitEntries_shape _ minE Item.bounds its hminE (by omega)
  rw [splitRNode]
  refine ⟨recompute_leaf_good hne1 (by omega), recompute_leaf_good hne2 (by omega), ?_⟩
  rw [nodeItems_recompute, nodeItems_recompute, nodeItems, nodeItems]
  exact splitEntries_perm minE Item.bounds its

/-- Splitting an overflowing internal node yields two good halves whose
children are a partition (as a permutation) of the original children. -/
theorem splitRNode_inner_good {α : Type} {minE maxE : Nat} {b : Rect}
    {cs : List (RNode α)} (hminE : 1 ≤ minE) (hmaxE : 2 * minE ≤ maxE)
    (hlen : cs.length = maxE + 1) (hcs : ∀ c ∈ cs, GoodN maxE c) :
    GoodN maxE (splitRNode minE (.inner b cs)).1 ∧
      GoodN maxE (splitRNode minE (.inner b cs)).2 ∧
      (nodeItems (splitRNode minE (.inner b cs)).1 ++
        nodeItems (splitRNode minE (.inner b cs)).2).Perm (nodeItemsL cs) := by
  obtain ⟨hne1, hne2, hl1, hl2⟩ :=
    @splitEntries_shape _ minE RNode.bounds cs hminE (by omega)
  have hperm := splitEntries_perm minE RNode.bounds cs
  have hsub : ∀ c ∈ (splitEntries minE RNode.bounds cs).1 ++
      (splitEntries minE RNode.bounds cs).2, GoodN maxE c :=
    fun c hc => hcs c (hperm.mem_iff.1 hc)
  rw [splitRNode]
  refine ⟨recompute_inner_good hne1 (by omega)
      (fun c hc => hsub c (List.mem_append_left _ hc)),
    recompute_inner_good hne2 (by omega)
      (fun c hc => hsub c (List.mem_append_right _ hc)), ?_⟩
  rw [nodeItems_recompute, nodeItems_recompute, nodeItems, nodeItems,
    ← nodeItemsL_append]
  exact nodeItemsL_perm_of_perm hperm

theorem nodeItemsL_set_decomp {α : Type} {cs : List (RNode α)} {i : Nat}
    (hi : i < cs.length) (x : RNode α) :
    nodeItemsL (cs.set i x) =
      nodeItemsL (cs.take i) ++ (nodeItems x ++ nodeItemsL (cs.drop (i + 1))) := by
  rw [List.set_eq_take_cons_drop _ hi, nodeItemsL_append, nodeItemsL]

theorem nodeItemsL_get_decomp {α : Type} {cs : List (RNode α)} {i : Nat}
    (hi : i < cs.length) :
    nodeItemsL cs =
      nodeItemsL (cs.take i) ++
        (nodeItems (cs.get ⟨i, hi⟩) ++ nodeItemsL (cs.drop (i + 1))) := by
  conv_lhs => rw [← List.take_append_drop i cs]
  rw [nodeItemsL_append, ← List.getElem_cons_drop cs i hi, nodeItemsL]
  rfl

/-- Preservation of the invariant and of the stored multiset by one
insertion. -/
theorem insertAux_good {α : Type} {minE maxE : Nat} (hminE : 1 ≤ minE)
    (hmaxE : 2 * minE ≤ maxE) (it : Item α) (n : RNode α) :
    GoodN maxE n →
      (∀ n', insertAux minE maxE it n = .one n' →
        GoodN maxE n' ∧ (nodeItems n').Perm (nodeItems n ++ [it])) ∧
      (∀ l r, insertAux minE maxE it n = .two l r →
        GoodN maxE l ∧ GoodN maxE r ∧
          (nodeItems l ++ nodeItems r).Perm (nodeItems n ++ [it])) := by
  refine insertAux.induct minE maxE it
    (fun m => GoodN maxE m →
      (∀ n', insertAux minE maxE it m = .one n' →
        GoodN maxE n' ∧ (nodeItems n').Perm (nodeItems m ++ [it])) ∧
      (∀ l r, insertAux minE maxE it m = .two l r →
        GoodN maxE l ∧ GoodN maxE r ∧
          (nodeItems l ++ nodeItems r).Perm (nodeItems m ++ [it])))
    ?_ ?_ ?_ ?_ ?_ ?_ n
  · intro b its hover hg
    cases hg with
    | leaf hne hlen hb =>
      simp only [insertAux, if_pos hover]
      have hlen2 : (its ++ [it]).length = maxE + 1 := by
        simp only [List.length_append, List.length_cons, List.length_nil] at hover ⊢
        omega
      have hrec : recompute (RNode.leaf b (its ++ [it])) =
          RNode.leaf (mbrOf ((its ++ [it]).map Item.bounds)) (its ++ [it]) := by
        rw [recompute, if_neg (by simp)]
      constructor
      · intro n' h
        simp at h
      · intro l r h
        rw [InsR.two.injEq] at h
        obtain ⟨h1, h2⟩ := h
        subst h1
        subst h2
        rw [hrec]
        obtain ⟨g1, g2, hp⟩ :=
          splitRNode_leaf_good (b := mbrOf ((its ++ [it]).map Item.bounds))
            hminE hmaxE hlen2
        exact ⟨g1, g2, by simpa [nodeItems] using hp⟩
  · intro b its hover hg
    cases hg with
    | leaf hne hlen hb =>
      simp only [insertAux, if_neg hover]
      constructor
      · intro n' h
        rw [InsR.one.injEq] at h
        subst h
        have hrec : recompute (RNode.leaf b (its ++ [it])) =
            RNode.leaf (mbrOf ((its ++ [it]).map Item.bounds)) (its ++ [it]) := by
          rw [recompute, if_neg (by simp)]
        rw [hrec]
        refine ⟨GoodN.leaf (by simp) ?_ rfl, by rw [nodeItems, nodeItems]⟩
        simp only [List.length_append, List.length_cons, List.length_nil] at hover ⊢
        omega
      · intro l r h
        simp at h
  · intro b cs hemp hg
    cases hg with
    | inner hne hlen hb hcs => exact absurd (List.isEmpty_iff.1 hemp) hne
  · intro b cs hemp hi c2 heq ih hg
    cases hg with
    | inner hne hlen hb hcs =>
      have hchild := (ih (hcs _ (List.get_mem cs _ hi))).1 c2 heq
      simp only [insertAux, dif_neg hemp, heq]
      constructor
      · intro n' h
        rw [InsR.one.injEq] at h
        subst h
        constructor
        · apply recompute_inner_good
          · exact List.ne_nil_of_length_pos
              (by simpa [List.length_set] using List.length_pos.2 hne)
          · simpa [List.length_set] using hlen
          · intro c hc
            rcases List.mem_or_eq_of_mem_set hc with h | h
            · exact hcs c h
            · subst h
              exact hchild.1
        · simp only [nodeItems_recompute, nodeItems]
          rw [nodeItemsL_set_decomp hi, nodeItemsL_get_decomp hi]
          have h2 := hchild.2
          rw [← Multiset.coe_eq_coe] at h2 ⊢
          simp only [← Multiset.coe_add, List.append_assoc] at h2 ⊢
          classical
          rw [Multiset.ext]
          intro a
          have hc := congrArg (Multiset.count a) h2
          simp only [Multiset.count_add] at hc ⊢
          omega
      · intro l r h
        simp at h
  · intro b cs hemp hi c1 c2 heq hover ih hg
    cases hg with
    | inner hne hlen hb hcs =>
      have hchild := (ih (hcs _ (List.get_mem cs _ hi))).2 c1 c2 heq
      simp only [insertAux, dif_neg hemp, heq, if_pos hover]
      have hlen2 : (cs.set (chooseChildIdx it.bounds cs) c1 ++ [c2]).length = maxE + 1 := by
        simp only [List.length_append, List.length_set, List.length_cons,
          List.length_nil] at hover ⊢
        omega
      have hall : ∀ c ∈ cs.set (chooseChildIdx it.bounds cs) c1 ++ [c2], GoodN maxE c := by
        intro c hc
        rcases List.mem_append.1 hc with h | h
        · rcases List.mem_or_eq_of_mem_set h with h | h
          · exact hcs c h
          · subst h
            exact hchild.1
        · rw [List.mem_singleton] at h
          subst h
          exact hchild.2.1
      constructor
      · intro n' h
        simp at h
      · intro l r h
        rw [InsR.two.injEq] at h
        obtain ⟨h1, h2⟩ := h
        subst h1
        subst h2
        have hrec : recompute (RNode.inner b (cs.set (chooseChildIdx it.bounds cs) c1 ++ [c2])) =
            RNode.inner
              (mbrOf ((cs.set (chooseChildIdx it.bounds cs) c1 ++ [c2]).map RNode.bounds))
              (cs.set (chooseChildIdx it.bounds cs) c1 ++ [c2]) := by
          rw [recompute, if_neg (by simp)]
        rw [hrec]
        obtain ⟨g1, g2, hp⟩ := splitRNode_inner_good
          (b := mbrOf ((cs.set (chooseChildIdx it.bounds cs) c1 ++ [c2]).map RNode.bounds))
          hminE hmaxE hlen2 hall
        refine ⟨g1, g2, hp.trans ?_⟩
        simp only [nodeItems, nodeItemsL_append, nodeItemsL]
        rw [nodeItemsL_set_decomp hi, nodeItemsL_get_decomp hi]
        have h2 := hchild.2.2
        rw [← Multiset.coe_eq_coe] at h2 ⊢
        simp only [← Multiset.coe_add, List.append_assoc, List.append_nil] at h2 ⊢
        classical
        rw [Multiset.ext]
        intro a
        have hc := congrArg (Multiset.count a) h2
        simp only [Multiset.count_add] at hc ⊢
        omega
  · intro b cs hemp hi c1 c2 heq hover ih hg
    cases hg with
    | inner hne hlen hb hcs =>
      have hchild := (ih (hcs _ (List.get_mem cs _ hi))).2 c1 c2 heq
      simp only [insertAux, dif_neg hemp, heq, if_neg hover]
      have hall : ∀ c ∈ cs.set (chooseChildIdx it.bounds cs) c1 ++ [c2], GoodN maxE c := by
        intro c hc
        rcases List.mem_append.1 hc with h | h
        · rcases List.mem_or_eq_of_mem_set h with h | h
          · exact hcs c h
          · subst h
            exact hchild.1
        · rw [List.mem_singleton] at h
          subst h
          exact hchild.2.1
      constructor
      · intro n' h
        rw [InsR.one.injEq] at h
        subst h
        constructor
        · apply recompute_inner_good (by simp) ?_ hall
          simp only [List.length_append, List.length_set, List.length_cons,
            List.length_nil] at hover ⊢
          omega
        · simp only [nodeItems_recompute, nodeItems, nodeItemsL_append, nodeItemsL]
          rw [nodeItemsL_set_decomp hi, nodeItemsL_get_decomp hi]
          have h2 := hchild.2.2
          rw [← Multiset.coe_eq_coe] at h2 ⊢
          simp only [← Multiset.coe_add, List.append_assoc, List.append_nil] at h2 ⊢
          classical
          rw [Multiset.ext]
          intro a
          have hc := congrArg (Multiset.count a) h2
          simp only [Multiset.count_add] at hc ⊢
          omega
      · intro l r h
        simp at h

/-! ## Tree-level invariant and the build of a tree by repeated Insert -/

/-- The root either is still the initial empty leaf or satisfies the full
node invariant. -/
def rootGood {α : Type} (t : RTree α) : Prop :=
  t.root = RNode.leaf ⟨0, 0, 0, 0⟩ [] ∨ GoodN t.maxEntries t.root

theorem newRTree_minEntries {α : Type} {minE maxE : Nat} (hmax : 2 ≤ maxE) :
    1 ≤ (newRTree α minE maxE).minEntries ∧
      2 * (newRTree α minE maxE).minEntries ≤ maxE := by
  rw [newRTree]
  dsimp only
  split
  · constructor
    · omega
    · omega
  · next h =>
    push_neg at h
    omega

theorem insert_preserves {α : Type} (t : RTree α) (it : Item α)
    (hp1 : 1 ≤ t.minEntries) (hp2 : 2 * t.minEntries ≤ t.maxEntries)
    (hroot : rootGood t) :
    rootGood (t.insert it) ∧
      (nodeItems (t.insert it).root).Perm (nodeItems t.root ++ [it]) ∧
      (t.insert it).size = t.size + 1 ∧
      (t.insert it).minEntries = t.minEntries ∧
      (t.insert it).maxEntries = t.maxEntries := by
  have hmaxE2 : 2 ≤ t.maxEntries := by omega
  rcases hroot with hemp | hg
  · have heval : insertAux t.minEntries t.maxEntries it t.root =
        .one (RNode.leaf it.bounds [it]) := by
      rw [hemp]
      simp only [insertAux, List.nil_append, List.length_cons, List.length_nil]
      rw [if_neg (by omega)]
      rw [recompute, if_neg (by simp)]
      simp [mbrOf, mbr1]
    rw [RTree.insert, heval]
    refine ⟨Or.inr (GoodN.leaf (by simp) (by simp; omega) (by simp [mbrOf, mbr1])), ?_, rfl, rfl, rfl⟩
    rw [hemp]
    simp [nodeItems]
  · have hmain := insertAux_good hp1 hp2 it t.root hg
    rcases hres : insertAux t.minEntries t.maxEntries it t.root with n' | ⟨l, r⟩
    · obtain ⟨hgood, hperm⟩ := hmain.1 n' hres
      simp only [RTree.insert, hres]
      exact ⟨Or.inr hgood, hperm, trivial, trivial, trivial⟩
    · obtain ⟨hl, hr, hperm⟩ := hmain.2 l r hres
      simp only [RTree.insert, hres]
      have hrec : recompute (RNode.inner ⟨0, 0, 0, 0⟩ [l, r]) =
          RNode.inner (mbrOf ([l, r].map RNode.bounds)) [l, r] := by
        rw [recompute, if_neg (by simp)]
      refine ⟨Or.inr ?_, ?_, trivial, trivial, trivial⟩
      · rw [hrec]
        refine GoodN.inner (by simp) (by simp; omega) rfl ?_
        intro c hc
        rcases List.mem_cons.1 hc with rfl | hc
        · exact hl
        · rw [List.mem_singleton] at hc
          subst hc
          exact hr
      · rw [hrec]
        rw [nodeItems, nodeItemsL, nodeItemsL, nodeItemsL, List.append_nil]
        exact hperm

theorem buildR_fold {α : Type} (its : List (Item α)) :
    ∀ t : RTree α, 1 ≤ t.minEntries → 2 * t.minEntries ≤ t.maxEntries →
      rootGood t →
      rootGood (its.foldl RTree.insert t) ∧
        (nodeItems (its.foldl RTree.insert t).root).Perm (nodeItems t.root ++ its) ∧
        (its.foldl RTree.insert t).size = t.size + its.length ∧
        (its.foldl RTree.insert t).minEntries = t.minEntries ∧
        (its.foldl RTree.insert t).maxEntries = t.maxEntries := by
  induction its with
  | nil => intro t h1 h2 hroot; exact ⟨hroot, by simp, by simp, rfl, rfl⟩
  | cons it its ih =>
    intro t h1 h2 hroot
    obtain ⟨hg, hperm, hsz, hmin, hmax⟩ := insert_preserves t it h1 h2 hroot
    obtain ⟨hg2, hperm2, hsz2, hmin2, hmax2⟩ :=
      ih (t.insert it) (hmin ▸ h1) (by rw [hmin, hmax]; exact h2) hg
    rw [List.foldl_cons]
    refine ⟨hg2, ?_, by simp only [List.length_cons]; omega, by rw [hmin2, hmin],
      by rw [hmax2, hmax]⟩
    refine hperm2.trans ?_
    refine (hperm.append_right its).trans ?_
    rw [List.append_assoc, List.singleton_append]

/-- The stored items of a built tree are exactly the inserted items (as a
multiset), and the size counter counts them. -/
theorem buildR_items {α : Type} (minE maxE : Nat) (hmax : 2 ≤ maxE)
    (its : List (Item α)) :
    rootGood (buildR α minE maxE its) ∧
      (nodeItems (buildR α minE maxE its).root).Perm its ∧
      (buildR α minE maxE its).size = its.length := by
  obtain ⟨h1, h2⟩ := @newRTree_minEntries α minE maxE hmax
  obtain ⟨hg, hperm, hsz, _, _⟩ :=
    buildR_fold its (newRTree α minE maxE) h1 h2 (Or.inl rfl)
  refine ⟨hg, hperm.trans ?_, ?_⟩
  · rw [newRTree]
    simp [nodeItems]
  · rw [buildR, hsz]
    simp [newRTree]

/-! ## Claims C1 and C7 -/

/-- C1: for every R-tree built by a sequence of `Insert` operations (with a
valid capacity, `maxEntries ≥ 2`), `Search(W)` returns exactly the inserted
items whose rectangles intersect the window `W` (closed-rectangle
intersection), as a multiset: each intersecting insertion appears once and
nothing else appears. -/
theorem c1_search_window {α : Type} (minE maxE : Nat) (hmax : 2 ≤ maxE)
    (its : List (Item α)) (w : Rect) :
    ((buildR α minE maxE its).search w).Perm
      (its.filter (fun it => decide (it.bounds.intersects w))) := by
  obtain ⟨hg, hperm, _⟩ := buildR_items minE maxE hmax its
  rcases hg with hemp | hg
  · rw [RTree.search, hemp]
    have : its = [] := by
      have := hperm.symm
      rw [hemp] at this
      simpa [nodeItems] using this.eq_nil
    subst this
    rw [searchNode]
    simp
  · rw [RTree.search, searchNode_eq w hg]
    exact hperm.filter _

/-- Witness for `c1_search_window` at a concrete input. -/
theorem c1_search_window_witness :
    ((buildR Nat 2 4 [⟨⟨0, 0, 1, 1⟩, 0⟩]).search ⟨0, 0, 2, 2⟩).Perm
      ([⟨⟨0, 0, 1, 1⟩, 0⟩].filter
        (fun it => decide (it.bounds.intersects ⟨0, 0, 2, 2⟩))) :=
  c1_search_window 2 4 (by norm_num) _ _

mutual

/-- All nodes of a subtree, the subtree's own root included. -/
def subnodes {α : Type} : RNode α → List (RNode α)
  | .leaf b its => [.leaf b its]
  | .inner b cs => .inner b cs :: subnodesL cs

def subnodesL {α : Type} : List (RNode α) → List (RNode α)
  | [] => []
  | c :: cs => subnodes c ++ subnodesL cs

end

theorem mem_subnodesL {α : Type} {m : RNode α} {cs : List (RNode α)} :
    m ∈ subnodesL cs ↔ ∃ c ∈ cs, m ∈ subnodes c := by
  induction cs with
  | nil => simp [subnodesL]
  | cons c cs ih => simp [subnodesL, ih, List.mem_append, or_and_right, exists_or]

theorem GoodN.subnodes_exact {α : Type} {maxE : Nat} {n : RNode α}
    (hg : GoodN maxE n) :
    ∀ m ∈ subnodes n, m.bounds = mbrOf m.entryBounds := by
  induction hg with
  | leaf hne hlen hb =>
    intro m hm
    rw [subnodes, List.mem_singleton] at hm
    subst hm
    exact hb
  | inner hne hlen hb hcs ih =>
    intro m hm
    rw [subnodes, List.mem_cons] at hm
    rcases hm with rfl | hm
    · exact hb
    · obtain ⟨c, hc, hmc⟩ := mem_subnodesL.1 hm
      exact ih c hc m hmc

/-- C7: in every R-tree built by a sequence of `Insert` operations (with a
valid capacity), every node holding at least one entry has its cached
`bounds` exactly equal to the MBR of its entries: the items' rectangles for a
leaf, the children's cached bounds for an internal node. -/
theorem c7_bounds_exact {α : Type} (minE maxE : Nat) (hmax : 2 ≤ maxE)
    (its : List (Item α)) :
    ∀ n ∈ subnodes (buildR α minE maxE its).root,
      n.entryBounds ≠ [] → n.bounds = mbrOf n.entryBounds := by
  obtain ⟨hg, _, _⟩ := buildR_items minE maxE hmax its
  rcases hg with hemp | hg
  · intro n hn hne
    rw [hemp, subnodes, List.mem_singleton] at hn
    subst hn
    exact absurd (by rw [RNode.entryBounds]; rfl) hne
  · intro n hn _
    exact hg.subnodes_exact n hn

theorem self_mem_subnodes {α : Type} (n : RNode α) : n ∈ subnodes n := by
  cases n <;> simp [subnodes]

/-- Witness for `c7_bounds_exact` at a concrete input: the root of a
one-item tree. -/
theorem c7_bounds_exact_witness :
    2 ≤ 4 ∧
    (buildR Nat 2 4 [⟨⟨0, 0, 1, 1⟩, 0⟩]).root.bounds =
      mbrOf (buildR Nat 2 4 [⟨⟨0, 0, 1, 1⟩, 0⟩]).root.entryBounds :=
  ⟨by norm_num,
    c7_bounds_exact 2 4 (by norm_num) _ _ (self_mem_subnodes _)
      (by simp [buildR, newRTree, RTree.insert, insertAux, recompute,
        RNode.entryBounds])⟩

/-! ## Nearest-neighbor search (NearestNeighbor)

The Go queue holds records `{node, item, distance}` where exactly one of
`node`/`item` is set; `QE` mirrors this with two constructors.  Distances are
the squared point-to-rectangle distances (order-isomorphic to the `math.Sqrt`
values compared by the source). -/

inductive QE (α : Type) where
  | nd (n : RNode α) (d : ℚ)
  | itm (it : Item α) (d : ℚ)

def QE.dist {α : Type} : QE α → ℚ
  | .nd _ d => d
  | .itm _ d => d

/-- The linear scan for the minimum-distance queue element (strict `<`, so
the first occurrence of the minimum wins), as in the source loop. -/
def minIdxAux {α : Type} : Nat → ℚ → Nat → List (QE α) → Nat
  | best, _, _, [] => best
  | best, bd, i, e :: es =>
    if e.dist < bd then minIdxAux i e.dist (i + 1) es else minIdxAux best bd (i + 1) es

def minIdx {α : Type} : List (QE α) → Nat
  | [] => 0
  | e :: es => minIdxAux 0 e.dist 1 es

theorem minIdxAux_lt {α : Type} (best : Nat) (bd : ℚ) (i : Nat)
    (es : List (QE α)) (k : Nat) (hbest : best < k) (hi : i = k) :
    minIdxAux best bd i es < k + es.length := by
  induction es generalizing best bd i k with
  | nil => simpa [minIdxAux] using hbest
  | cons e es ih =>
    simp only [minIdxAux]
    split
    · have := ih i e.dist (i + 1) (k + 1) (by omega) (by omega)
      simpa [Nat.add_comm, Nat.add_assoc, Nat.add_left_comm] using this
    · have := ih best bd (i + 1) (k + 1) (by omega) (by omega)
      simpa [Nat.add_comm, Nat.add_assoc, Nat.add_left_comm] using this

theorem minIdx_lt {α : Type} (q : List (QE α)) (h : q ≠ []) :
    minIdx q < q.length := by
  cases q with
  | nil => exact absurd rfl h
  | cons e es =>
    have := minIdxAux_lt 0 e.dist 1 es 1 (by omega) rfl
    simpa [minIdx, Nat.add_comm] using this

mutual

/-- Weight of a subtree: one per node plus one per stored item.  This is the
termination measure of the best-first loop. -/
def wN {α : Type} : RNode α → Nat
  | .leaf _ its => 1 + its.length
  | .inner _ cs => 1 + wL cs

def wL {α : Type} : List (RNode α) → Nat
  | [] => 0
  | c :: cs => wN c + wL cs

end

def QE.weight {α : Type} : QE α → Nat
  | .nd n _ => wN n
  | .itm _ _ => 1

def qW {α : Type} (q : List (QE α)) : Nat := (q.map QE.weight).sum

theorem wN_pos {α : Type} (n : RNode α) : 1 ≤ wN n := by
  cases n <;> simp [wN]

theorem qW_append {α : Type} (q1 q2 : List (QE α)) :
    qW (q1 ++ q2) = qW q1 + qW q2 := by
  simp [qW]

theorem qW_eraseIdx {α : Type} (q : List (QE α)) (i : Nat) (hi : i < q.length) :
    qW (q.eraseIdx i) + (q.get ⟨i, hi⟩).weight = qW q := by
  induction q generalizing i with
  | nil => cases hi
  | cons e es ih =>
    cases i with
    | zero => simp [qW, List.eraseIdx, Nat.add_comm]
    | succ j =>
      have hj : j < es.length := by simpa using hi
      have := ih j hj
      simp only [List.eraseIdx, qW, List.map_cons, List.sum_cons, List.get] at this ⊢
      omega

theorem qW_map_itm {α : Type} (p : Pt) (its : List (Item α)) :
    qW (its.map fun it => QE.itm it (it.bounds.distSq p)) = its.length := by
  induction its with
  | nil => rfl
  | cons it its ih =>
    simp only [qW, List.map_cons, List.sum_cons, QE.weight, List.length_cons] at ih ⊢
    omega

theorem qW_map_nd {α : Type} (p : Pt) (cs : List (RNode α)) :
    qW (cs.map fun c => QE.nd c ((RNode.bounds c).distSq p)) = wL cs := by
  induction cs with
  | nil => rfl
  | cons c cs ih =>
    simp only [qW, List.map_cons, List.sum_cons, QE.weight, wL, List.length_cons] at ih ⊢
    omega

/-- One step of the best-first loop on the popped minimum element `cur`:
an item is appended to the results, a leaf is expanded into its items, an
internal node into its children (each with its computed distance, appended at
the end of the queue as the source does). -/
def nnExpand {α : Type} (p : Pt) (cur : QE α) (q2 : List (QE α))
    (res : List (Item α)) : List (QE α) × List (Item α) :=
  match cur with
  | .itm it _ => (q2, res ++ [it])
  | .nd (.leaf _ its) _ =>
    (q2 ++ its.map fun it => QE.itm it (it.bounds.distSq p), res)
  | .nd (.inner _ cs) _ =>
    (q2 ++ cs.map fun c => QE.nd c ((RNode.bounds c).distSq p), res)

theorem QE.weight_pos {α : Type} (e : QE α) : 1 ≤ e.weight := by
  cases e with
  | itm it d => exact le_refl _
  | nd n d => exact wN_pos n

theorem nnExpand_qW {α : Type} (p : Pt) (cur : QE α) (q2 : List (QE α))
    (res : List (Item α)) :
    qW (nnExpand p cur q2 res).1 + 1 = qW q2 + cur.weight := by
  cases cur with
  | itm it d => simp [nnExpand, QE.weight]
  | nd n d =>
    cases n with
    | leaf b its =>
      rw [nnExpand]
      rw [qW_append, qW_map_itm]
      rw [QE.weight, wN]
      omega
    | inner b cs =>
      rw [nnExpand]
      rw [qW_append, qW_map_nd]
      rw [QE.weight, wN]
      omega

/-- The best-first loop of `NearestNeighbor`: while the queue is nonempty and
fewer than `k` results have been emitted, pop the minimum-distance element
and apply `nnExpand` to it. -/
def nnLoop {α : Type} (p : Pt) (k : Int) : List (QE α) → List (Item α) → List (Item α)
  | [], res => res
  | e :: es, res =>
    if (res.length : Int) < k then
      have hi : minIdx (e :: es) < (e :: es).length := minIdx_lt _ (by simp)
      nnLoop p k
        (nnExpand p ((e :: es).get ⟨minIdx (e :: es), hi⟩)
          ((e :: es).eraseIdx (minIdx (e :: es))) res).1
        (nnExpand p ((e :: es).get ⟨minIdx (e :: es), hi⟩)
          ((e :: es).eraseIdx (minIdx (e :: es))) res).2
    else res
  termination_by q _ => qW q
  decreasing_by
    have h1 := qW_eraseIdx (e :: es) (minIdx (e :: es)) hi
    have h2 := nnExpand_qW p ((e :: es).get ⟨minIdx (e :: es), hi⟩)
      ((e :: es).eraseIdx (minIdx (e :: es))) res
    omega

/-- `NearestNeighbor` -/
def RTree.nearestNeighbor {α : Type} (t : RTree α) (p : Pt) (k : Int) :
    List (Item α) :=
  nnLoop p k [QE.nd t.root ((RNode.bounds t.root).distSq p)] []

/-- C10: `NearestNeighbor(p, k)` with `k ≤ 0` returns the empty sequence:
the loop guard `len(result) < k` fails at once. -/
theorem c10_nn_nonpositive_k {α : Type} (t : RTree α) (p : Pt) (k : Int)
    (hk : k ≤ 0) : t.nearestNeighbor p k = [] := by
  rw [RTree.nearestNeighbor, nnLoop]
  rw [if_neg (by simp; omega)]

/-- Witness for `c10_nn_nonpositive_k` at a concrete tree and `k = -1`. -/
theorem c10_nn_nonpositive_k_witness :
    (buildR Nat 2 4 [⟨⟨0, 0, 1, 1⟩, 7⟩]).nearestNeighbor ⟨3, 3⟩ (-1) = [] :=
  c10_nn_nonpositive_k _ _ _ (by norm_num)

/-! ## Correctness of the best-first loop (claim C2) -/

/-- The items represented by one queue entry. -/
def qeItems {α : Type} : QE α → List (Item α)
  | .nd n _ => nodeItems n
  | .itm it _ => [it]

/-- All items represented in the queue. -/
def qItems {α : Type} (q : List (QE α)) : List (Item α) := q.flatMap qeItems

theorem qItems_append {α : Type} (q1 q2 : List (QE α)) :
    qItems (q1 ++ q2) = qItems q1 ++ qItems q2 := by
  simp [qItems]

theorem qItems_map_itm {α : Type} (p : Pt) (its : List (Item α)) :
    qItems (its.map fun it => QE.itm it (it.bounds.distSq p)) = its := by
  induction its with
  | nil => rfl
  | cons it its ih => simp only [List.map_cons, qItems, List.flatMap_cons] at ih ⊢; rw [ih]; rfl

theorem qItems_map_nd {α : Type} (p : Pt) (cs : List (RNode α)) :
    qItems (cs.map fun c => QE.nd c ((RNode.bounds c).distSq p)) = nodeItemsL cs := by
  induction cs with
  | nil => rfl
  | cons c cs ih =>
    simp only [List.map_cons, qItems, List.flatMap_cons, nodeItemsL] at ih ⊢
    rw [ih]
    rfl

/-- Queue-entry soundness: the recorded distance is the squared distance of
the entry's own bounds, and node entries satisfy the structural invariant. -/
def QEok {α : Type} (maxE : Nat) (p : Pt) : QE α → Prop
  | .nd n d => d = (RNode.bounds n).distSq p ∧ GoodN maxE n
  | .itm it d => d = it.bounds.distSq p

/-- The recorded distance of a sound queue entry lower-bounds the distance of
every item it represents. -/
theorem QEok.dist_le {α : Type} {maxE : Nat} {p : Pt} {e : QE α}
    (he : QEok maxE p e) : ∀ it ∈ qeItems e, e.dist ≤ it.bounds.distSq p := by
  cases e with
  | itm it d =>
    intro x hx
    rw [qeItems, List.mem_singleton] at hx
    subst hx
    rw [QE.dist, he]
  | nd n d =>
    intro x hx
    rw [qeItems] at hx
    rw [QE.dist, he.1]
    exact Rect.distSq_le_of_subsetR p (he.2.items_subsetR x hx)

theorem minIdxAux_spec {α : Type} (es : List (QE α)) :
    ∀ (q : List (QE α)) (best : Nat) (bd : ℚ) (i : Nat) (hbest : best < q.length),
      (q.get ⟨best, hbest⟩).dist = bd → es = q.drop i →
      ∃ h : minIdxAux best bd i es < q.length,
        (q.get ⟨minIdxAux best bd i es, h⟩).dist ≤ bd ∧
          ∀ e ∈ es, (q.get ⟨minIdxAux best bd i es, h⟩).dist ≤ e.dist := by
  induction es with
  | nil =>
    intro q best bd i hbest hbd hdrop
    exact ⟨hbest, by simp only [minIdxAux]; exact le_of_eq hbd, by simp⟩
  | cons e es ih =>
    intro q best bd i hbest hbd hdrop
    have hi : i < q.length := by
      by_contra hcon
      rw [List.drop_eq_nil_of_le (by omega)] at hdrop
      exact List.noConfusion hdrop
    have h0 : q[i] :: q.drop (i + 1) = e :: es := by
      rw [List.getElem_cons_drop]
      exact hdrop.symm
    have h1 := h0
    injection h1 with hg hd
    have hget : q.get ⟨i, hi⟩ = e := by simpa [List.get_eq_getElem] using hg
    have hdrop2 : es = q.drop (i + 1) := hd.symm
    rw [minIdxAux]
    by_cases hlt : e.dist < bd
    · rw [if_pos hlt]
      obtain ⟨h, h1, h2⟩ := ih q i e.dist (i + 1) hi (by rw [hget]) hdrop2
      refine ⟨h, le_of_lt (lt_of_le_of_lt h1 hlt), ?_⟩
      intro x hx
      rcases List.mem_cons.1 hx with rfl | hx
      · exact h1
      · exact h2 x hx
    · rw [if_neg hlt]
      obtain ⟨h, h1, h2⟩ := ih q best bd (i + 1) hbest hbd hdrop2
      refine ⟨h, h1, ?_⟩
      intro x hx
      rcases List.mem_cons.1 hx with rfl | hx
      · exact le_trans h1 (not_lt.1 hlt)
      · exact h2 x hx

/-- The popped queue element has minimal distance among all queue elements. -/
theorem minIdx_min {α : Type} (q : List (QE α)) (hne : q ≠ [])
    (hlt : minIdx q < q.length) :
    ∀ e ∈ q, (q.get ⟨minIdx q, hlt⟩).dist ≤ e.dist := by
  cases q with
  | nil => exact absurd rfl hne
  | cons e0 es =>
    obtain ⟨h, h1, h2⟩ := minIdxAux_spec es (e0 :: es) 0 e0.dist 1 (by simp) rfl rfl
    intro x hx
    rcases List.mem_cons.1 hx with rfl | hx
    · exact h1
    · exact h2 x hx

theorem perm_get_cons_eraseIdx {α : Type} (q : List (QE α)) (i : Nat)
    (hi : i < q.length) : q.Perm (q.get ⟨i, hi⟩ :: q.eraseIdx i) := by
  induction q generalizing i with
  | nil => cases hi
  | cons e es ih =>
    cases i with
    | zero => simp [List.eraseIdx]
    | succ j =>
      have hj : j < es.length := by simpa using hi
      have := ih j hj
      exact (this.cons e).trans (List.Perm.swap _ _ _)

theorem chain'_append_singleton {γ : Type} {R : γ → γ → Prop} {l : List γ} {a : γ}
    (hl : List.Chain' R l) (ha : ∀ x ∈ l, R x a) :
    List.Chain' R (l ++ [a]) := by
  rw [List.chain'_append]
  refine ⟨hl, List.chain'_singleton a, ?_⟩
  intro x hx y hy
  rw [List.head?_cons, Option.mem_some_iff] at hy
  subst hy
  exact ha x (List.mem_of_mem_getLast? hx)

theorem qItems_perm {α : Type} {q1 q2 : List (QE α)} (h : q1.Perm q2) :
    (qItems q1).Perm (qItems q2) := h.flatMap_right qeItems

/-- Master invariant of the best-first loop: starting from a sound queue and
an already-sorted result that lower-bounds the queue, the loop emits a
prefix-extension of the result whose items come from the queue, in
nondecreasing squared distance; everything left unemitted is at least as far
as everything emitted, and the final length is `min k (emitted + stored)`. -/
theorem nnLoop_spec {α : Type} (maxE : Nat) (p : Pt) (k : Int)
    (q : List (QE α)) (res : List (Item α)) :
    (∀ e ∈ q, QEok maxE p e) →
    (∀ r ∈ res, ∀ e ∈ q, r.bounds.distSq p ≤ e.dist) →
    List.Chain' (fun a b => a.bounds.distSq p ≤ b.bounds.distSq p) res →
    (res.length : Int) ≤ k →
    ∃ extra rest,
      nnLoop p k q res = res ++ extra ∧
      (extra ++ rest).Perm (qItems q) ∧
      List.Chain' (fun a b => a.bounds.distSq p ≤ b.bounds.distSq p) (res ++ extra) ∧
      (∀ r ∈ res ++ extra, ∀ s ∈ rest, r.bounds.distSq p ≤ s.bounds.distSq p) ∧
      (res ++ extra).length = min k.toNat (res.length + (qItems q).length) := by
  refine nnLoop.induct p k
    (fun q res =>
      (∀ e ∈ q, QEok maxE p e) →
      (∀ r ∈ res, ∀ e ∈ q, r.bounds.distSq p ≤ e.dist) →
      List.Chain' (fun a b : Item α => a.bounds.distSq p ≤ b.bounds.distSq p) res →
      (res.length : Int) ≤ k →
      ∃ extra rest,
        nnLoop p k q res = res ++ extra ∧
        (extra ++ rest).Perm (qItems q) ∧
        List.Chain' (fun a b : Item α => a.bounds.distSq p ≤ b.bounds.distSq p)
          (res ++ extra) ∧
        (∀ r ∈ res ++ extra, ∀ s ∈ rest, r.bounds.distSq p ≤ s.bounds.distSq p) ∧
        (res ++ extra).length = min k.toNat (res.length + (qItems q).length))
    ?_ ?_ ?_ q res
  · intro res hok hb hch hlen
    refine ⟨[], [], by rw [nnLoop, List.append_nil], by simp [qItems], ?_, by simp, ?_⟩
    · rw [List.append_nil]
      exact hch
    · simp only [qItems, List.flatMap_nil, List.length_nil, List.append_nil]
      omega
  · intro e es res hguard hi ih hok hb hch hlen
    have hcur_mem : (e :: es).get ⟨minIdx (e :: es), hi⟩ ∈ e :: es :=
      (e :: es).get_mem _ _
    have hmin := minIdx_min (e :: es) (by simp) hi
    have hcurok := hok _ hcur_mem
    have hqperm0 : (qItems (e :: es)).Perm
        (qeItems ((e :: es).get ⟨minIdx (e :: es), hi⟩) ++
          qItems ((e :: es).eraseIdx (minIdx (e :: es)))) := by
      refine (qItems_perm (perm_get_cons_eraseIdx _ _ hi)).trans ?_
      rw [qItems, List.flatMap_cons]
      exact List.Perm.refl _
    have heval : nnLoop p k (e :: es) res =
        nnLoop p k
          (nnExpand p ((e :: es).get ⟨minIdx (e :: es), hi⟩)
            ((e :: es).eraseIdx (minIdx (e :: es))) res).1
          (nnExpand p ((e :: es).get ⟨minIdx (e :: es), hi⟩)
            ((e :: es).eraseIdx (minIdx (e :: es))) res).2 := by
      rw [nnLoop, if_pos hguard]
    rcases hcur : (e :: es).get ⟨minIdx (e :: es), hi⟩ with ⟨n, d⟩ | ⟨it, d⟩
    · rw [hcur] at hcurok hqperm0 hmin heval ih
      have hcd : d = (RNode.bounds n).distSq p := hcurok.1
      have hgood : GoodN maxE n := hcurok.2
      cases n with
      | leaf b its =>
        simp only [nnExpand] at heval ih
        have hexp : ∀ x ∈ its.map (fun it => QE.itm it (it.bounds.distSq p)),
            QEok maxE p x ∧ (QE.nd (RNode.leaf b its) d).dist ≤ x.dist := by
          intro x hx
          obtain ⟨it, hit, rfl⟩ := List.mem_map.1 hx
          refine ⟨rfl, ?_⟩
          rw [QE.dist, QE.dist, hcd]
          exact Rect.distSq_le_of_subsetR p
            (hgood.items_subsetR it (by rw [nodeItems]; exact hit))
        have hok2 : ∀ x ∈ (e :: es).eraseIdx (minIdx (e :: es)) ++
            its.map (fun it => QE.itm it (it.bounds.distSq p)), QEok maxE p x := by
          intro x hx
          rcases List.mem_append.1 hx with hx | hx
          · exact hok x (List.mem_of_mem_eraseIdx hx)
          · exact (hexp x hx).1
        have hb2 : ∀ r ∈ res, ∀ x ∈ (e :: es).eraseIdx (minIdx (e :: es)) ++
            its.map (fun it => QE.itm it (it.bounds.distSq p)),
            r.bounds.distSq p ≤ x.dist := by
          intro r hr x hx
          rcases List.mem_append.1 hx with hx | hx
          · exact hb r hr x (List.mem_of_mem_eraseIdx hx)
          · refine le_trans ?_ (hexp x hx).2
            have := hb r hr _ hcur_mem
            rw [hcur] at this
            exact this
        obtain ⟨extra2, rest2, he1, he2, he3, he4, he5⟩ :=
          ih hok2 hb2 hch (le_of_lt hguard)
        have hqperm : (qItems (e :: es)).Perm
            (qItems ((e :: es).eraseIdx (minIdx (e :: es)) ++
              its.map (fun it => QE.itm it (it.bounds.distSq p)))) := by
          refine hqperm0.trans ?_
          rw [qItems_append, qItems_map_itm, qeItems, nodeItems]
          exact List.perm_append_comm
        refine ⟨extra2, rest2, by rw [heval, he1], he2.trans hqperm.symm, he3, he4, ?_⟩
        rw [he5, hqperm.length_eq]
      | inner b cs =>
        simp only [nnExpand] at heval ih
        have hexp : ∀ x ∈ cs.map (fun c => QE.nd c ((RNode.bounds c).distSq p)),
            QEok maxE p x ∧ (QE.nd (RNode.inner b cs) d).dist ≤ x.dist := by
          intro x hx
          obtain ⟨c, hc, rfl⟩ := List.mem_map.1 hx
          cases hgood with
          | inner hne hlenc hbb hcs =>
            refine ⟨⟨rfl, hcs c hc⟩, ?_⟩
            rw [QE.dist, QE.dist, hcd, RNode.bounds, hbb]
            exact Rect.distSq_le_of_subsetR p
              (subsetR_mbrOf (List.mem_map_of_mem _ hc))
        have hok2 : ∀ x ∈ (e :: es).eraseIdx (minIdx (e :: es)) ++
            cs.map (fun c => QE.nd c ((RNode.bounds c).distSq p)), QEok maxE p x := by
          intro x hx
          rcases List.mem_append.1 hx with hx | hx
          · exact hok x (List.mem_of_mem_eraseIdx hx)
          · exact (hexp x hx).1
        have hb2 : ∀ r ∈ res, ∀ x ∈ (e :: es).eraseIdx (minIdx (e :: es)) ++
            cs.map (fun c => QE.nd c ((RNode.bounds c).distSq p)),
            r.bounds.distSq p ≤ x.dist := by
          intro r hr x hx
          rcases List.mem_append.1 hx with hx | hx
          · exact hb r hr x (List.mem_of_mem_eraseIdx hx)
          · refine le_trans ?_ (hexp x hx).2
            have := hb r hr _ hcur_mem
            rw [hcur] at this
            exact this
        obtain ⟨extra2, rest2, he1, he2, he3, he4, he5⟩ :=
          ih hok2 hb2 hch hlen
        have hqperm : (qItems (e :: es)).Perm
            (qItems ((e :: es).eraseIdx (minIdx (e :: es)) ++
              cs.map (fun c => QE.nd c ((RNode.bounds c).distSq p)))) := by
          refine hqperm0.trans ?_
          rw [qItems_append, qItems_map_nd, qeItems, nodeItems]
          exact List.perm_append_comm
        refine ⟨extra2, rest2, by rw [heval, he1], he2.trans hqperm.symm, he3, he4, ?_⟩
        rw [he5, hqperm.length_eq]
    · rw [hcur] at hcurok hqperm0 hmin heval ih
      simp only [nnExpand] at heval ih
      have hital : it.bounds.distSq p = (QE.itm it d).dist := by
        rw [QE.dist, hcurok]
      have hok2 : ∀ x ∈ (e :: es).eraseIdx (minIdx (e :: es)), QEok maxE p x :=
        fun x hx => hok x (List.mem_of_mem_eraseIdx hx)
      have hb2 : ∀ r ∈ res ++ [it], ∀ x ∈ (e :: es).eraseIdx (minIdx (e :: es)),
          r.bounds.distSq p ≤ x.dist := by
        intro r hr x hx
        rcases List.mem_append.1 hr with hr | hr
        · exact hb r hr x (List.mem_of_mem_eraseIdx hx)
        · rw [List.mem_singleton] at hr
          subst hr
          rw [hital]
          exact hmin x (List.mem_of_mem_eraseIdx hx)
      have hch2 : List.Chain' (fun a b : Item α => a.bounds.distSq p ≤ b.bounds.distSq p)
          (res ++ [it]) := by
        refine chain'_append_singleton hch ?_
        intro x hx
        rw [hital]
        have := hb x hx _ hcur_mem
        rw [hcur] at this
        exact this
      have hlen2 : ((res ++ [it]).length : Int) ≤ k := by
        rw [List.length_append, List.length_cons, List.length_nil]
        push_cast
        omega
      obtain ⟨extra2, rest2, he1, he2, he3, he4, he5⟩ := ih hok2 hb2 hch2 hlen2
      have hqperm : (qItems (e :: es)).Perm
          (it :: qItems ((e :: es).eraseIdx (minIdx (e :: es)))) := by
        refine hqperm0.trans ?_
        rw [qeItems]
        exact List.Perm.refl _
      refine ⟨it :: extra2, rest2, ?_, ?_, ?_, ?_, ?_⟩
      · rw [heval, he1, List.append_assoc, List.singleton_append]
      · refine List.Perm.trans ?_ hqperm.symm
        rw [List.cons_append]
        exact he2.cons it
      · rw [show res ++ it :: extra2 = (res ++ [it]) ++ extra2 by
          rw [List.append_assoc, List.singleton_append]]
        exact he3
      · intro r hr s hs
        refine he4 r ?_ s hs
        rw [List.append_assoc, List.singleton_append]
        exact hr
      · have hlq : (qItems (e :: es)).length =
            1 + (qItems ((e :: es).eraseIdx (minIdx (e :: es)))).length := by
          rw [hqperm.length_eq]
          simp [Nat.add_comm]
        rw [show res ++ it :: extra2 = (res ++ [it]) ++ extra2 by
          rw [List.append_assoc, List.singleton_append]]
        rw [he5, hlq]
        simp only [List.length_append, List.length_cons, List.length_nil]
        omega
  · intro e es res hguard hok hb hch hlen
    refine ⟨[], qItems (e :: es), ?_, by rw [List.nil_append], ?_, ?_, ?_⟩
    · rw [nnLoop, if_neg hguard, List.append_nil]
    · rw [List.append_nil]
      exact hch
    · intro r hr s hs
      rw [List.append_nil] at hr
      obtain ⟨x, hx, hsx⟩ := List.mem_flatMap.1 hs
      exact le_trans (hb r hr x hx) ((hok x hx).dist_le s hsx)
    · rw [List.append_nil]
      omega

/-- C2: on every R-tree built by `Insert` operations (valid capacity), and
for every `k ≥ 0`, `NearestNeighbor(p, k)` returns exactly
`min(k, Size())` items, in nondecreasing point-to-rectangle distance from `p`
(stated both for the squared distance compared by the algorithm and for the
square-root distance the source computes), and no returned item is farther
from `p` than any stored item that is not returned. -/
theorem c2_nearest_neighbor {α : Type} (minE maxE : Nat) (hmax : 2 ≤ maxE)
    (its : List (Item α)) (p : Pt) (k : Int) (hk : 0 ≤ k) :
    ((buildR α minE maxE its).nearestNeighbor p k).length =
        min k.toNat (buildR α minE maxE its).size ∧
      List.Chain' (fun a b => a.bounds.distSq p ≤ b.bounds.distSq p)
        ((buildR α minE maxE its).nearestNeighbor p k) ∧
      List.Chain' (fun a b =>
          Real.sqrt ((a.bounds.distSq p : ℚ) : ℝ) ≤
            Real.sqrt ((b.bounds.distSq p : ℚ) : ℝ))
        ((buildR α minE maxE its).nearestNeighbor p k) ∧
      ∃ rest, ((buildR α minE maxE its).nearestNeighbor p k ++ rest).Perm its ∧
        ∀ r ∈ (buildR α minE maxE its).nearestNeighbor p k, ∀ s ∈ rest,
          r.bounds.distSq p ≤ s.bounds.distSq p := by
  obtain ⟨hg, hperm, hsz⟩ := buildR_items minE maxE hmax its
  rcases hg with hemp | hg
  · have hits : its = [] := by
      have := hperm.symm
      rw [hemp] at this
      simpa [nodeItems] using this.eq_nil
    subst hits
    have hR : (buildR α minE maxE []).nearestNeighbor p k = [] := by
      rw [RTree.nearestNeighbor, hemp]
      by_cases h0 : (0 : Int) < k
      · rw [nnLoop]
        rw [if_pos (by simpa using h0)]
        simp only [minIdx, minIdxAux, nnExpand, List.eraseIdx, List.map_nil,
          List.append_nil, List.get]
        rw [nnLoop]
      · rw [nnLoop]
        rw [if_neg (by simpa using h0)]
    rw [hR]
    refine ⟨?_, List.chain'_nil, List.chain'_nil, [], by simp, by simp⟩
    rw [hsz]
    simp
  · have hok : ∀ e ∈ [QE.nd (buildR α minE maxE its).root
        ((RNode.bounds (buildR α minE maxE its).root).distSq p)],
        QEok (buildR α minE maxE its).maxEntries p e := by
      intro e he
      rw [List.mem_singleton] at he
      subst he
      exact ⟨rfl, hg⟩
    obtain ⟨extra, rest, he1, he2, he3, he4, he5⟩ :=
      nnLoop_spec (buildR α minE maxE its).maxEntries p k
        [QE.nd (buildR α minE maxE its).root
          ((RNode.bounds (buildR α minE maxE its).root).distSq p)] []
        hok (by simp) List.chain'_nil (by simpa using hk)
    have hqe : qItems [QE.nd (buildR α minE maxE its).root
        ((RNode.bounds (buildR α minE maxE its).root).distSq p)] =
        nodeItems (buildR α minE maxE its).root := by
      simp [qItems, qeItems]
    rw [List.nil_append] at he1 he3 he4
    rw [List.nil_append] at he5
    have hR : (buildR α minE maxE its).nearestNeighbor p k = extra := by
      rw [RTree.nearestNeighbor, he1]
    rw [hR]
    refine ⟨?_, he3, ?_, rest, ?_, ?_⟩
    · rw [he5, hqe]
      rw [List.length_nil, Nat.zero_add, hperm.length_eq, hsz]
    · exact he3.imp fun a b h => Real.sqrt_le_sqrt (by exact_mod_cast h)
    · rw [hqe] at he2
      exact he2.trans hperm
    · exact he4

/-- Witness for `c2_nearest_neighbor` at a concrete input. -/
theorem c2_nearest_neighbor_witness :
    ((buildR Nat 2 4 [⟨⟨0, 0, 1, 1⟩, 0⟩, ⟨⟨5, 5, 6, 6⟩, 1⟩]).nearestNeighbor
          ⟨0, 0⟩ 1).length =
        min (1 : Int).toNat (buildR Nat 2 4 [⟨⟨0, 0, 1, 1⟩, 0⟩, ⟨⟨5, 5, 6, 6⟩, 1⟩]).size ∧
      List.Chain' (fun a b => a.bounds.distSq ⟨0, 0⟩ ≤ b.bounds.distSq ⟨0, 0⟩)
        ((buildR Nat 2 4 [⟨⟨0, 0, 1, 1⟩, 0⟩, ⟨⟨5, 5, 6, 6⟩, 1⟩]).nearestNeighbor ⟨0, 0⟩ 1) ∧
      List.Chain' (fun a b =>
          Real.sqrt ((a.bounds.distSq ⟨0, 0⟩ : ℚ) : ℝ) ≤
            Real.sqrt ((b.bounds.distSq ⟨0, 0⟩ : ℚ) : ℝ))
        ((buildR Nat 2 4 [⟨⟨0, 0, 1, 1⟩, 0⟩, ⟨⟨5, 5, 6, 6⟩, 1⟩]).nearestNeighbor ⟨0, 0⟩ 1) ∧
      ∃ rest, ((buildR Nat 2 4 [⟨⟨0, 0, 1, 1⟩, 0⟩, ⟨⟨5, 5, 6, 6⟩, 1⟩]).nearestNeighbor
            ⟨0, 0⟩ 1 ++ rest).Perm [⟨⟨0, 0, 1, 1⟩, 0⟩, ⟨⟨5, 5, 6, 6⟩, 1⟩] ∧
        ∀ r ∈ (buildR Nat 2 4 [⟨⟨0, 0, 1, 1⟩, 0⟩, ⟨⟨5, 5, 6, 6⟩, 1⟩]).nearestNeighbor
            ⟨0, 0⟩ 1, ∀ s ∈ rest,
          r.bounds.distSq ⟨0, 0⟩ ≤ s.bounds.distSq ⟨0, 0⟩ :=
  c2_nearest_neighbor 2 4 (by norm_num) _ _ 1 (by norm_num)

/-! ## Claim C9: split-axis tie-breaking -/

/-- Five diagonal unit squares: a configuration that is symmetric in x and y,
so both axes have the same margin sum. -/
def c9Items : List (Item Nat) :=
  [⟨⟨0, 0, 5, 5⟩, 0⟩, ⟨⟨10, 10, 15, 15⟩, 1⟩, ⟨⟨20, 20, 25, 25⟩, 2⟩,
    ⟨⟨30, 30, 35, 35⟩, 3⟩, ⟨⟨40, 40, 45, 45⟩, 4⟩]

/-- C9 counterexample: an overflowing leaf (5 items, `minEntries = 2`,
`maxEntries = 4`) whose X margin sum equals its Y margin sum, yet
`chooseSplitAxis` does not pick the X axis (it returns 1, the Y axis),
refuting the claim that X is chosen on a tie. -/
theorem c9_x_on_tie_counterexample :
    marginSumX 2 Item.bounds c9Items = marginSumY 2 Item.bounds c9Items ∧
      chooseSplitAxis 2 Item.bounds c9Items ≠ 0 := by
  constructor
  · norm_num [marginSumX, marginSumY, marginSumList, sortExch, sortExchAux,
      exchPass, mbrOf, mbr1, Rect.margin, Rect.union, c9Items, List.range']
  · norm_num [chooseSplitAxis, marginSumX, marginSumY, marginSumList, sortExch,
      sortExchAux, exchPass, mbrOf, mbr1, Rect.margin, Rect.union, c9Items, List.range']

/-- C9 (amended): when the margin sums along the two axes are equal, the
split axis chosen is the Y axis (the source tests `xMargin < yMargin` and
otherwise returns 1). -/
theorem c9_tie_chooses_y {β : Type} (minE : Nat) (bf : β → Rect) (es : List β)
    (h : marginSumX minE bf es = marginSumY minE bf es) :
    chooseSplitAxis minE bf es = 1 := by
  unfold chooseSplitAxis
  rw [if_neg (by rw [h]; exact lt_irrefl _)]

/-- Witness for `c9_tie_chooses_y` at the concrete symmetric configuration. -/
theorem c9_tie_chooses_y_witness : chooseSplitAxis 2 Item.bounds c9Items = 1 :=
  c9_tie_chooses_y 2 Item.bounds c9Items
    (by norm_num [marginSumX, marginSumY, marginSumList, sortExch, sortExchAux,
      exchPass, mbrOf, mbr1, Rect.margin, Rect.union, c9Items, List.range'])

/-! ## B+ tree data model (bplustree.go)

Keys come with a linear order (`cmp.Ordered`); values are arbitrary.  The
`next` leaf links and parent back-links of the source are represented
implicitly: in this functional embedding the leaf chain is the left-to-right
sequence of leaves, which is exactly the chain the source maintains
(`splitLeaf` links the new right half after the split leaf, and the two merge
cases of `rebalanceLeaf` bypass the removed leaf). -/

section BPlus

variable {K V : Type} [LinearOrder K]

inductive BNode (K V : Type) where
  | leaf (entries : List (K × V))
  | inner (keys : List K) (children : List (BNode K V))

/-- `BPlusTree`: a possibly-nil root plus the degree. -/
structure BPT (K V : Type) where
  root : Option (BNode K V)
  degree : Nat

/-- `New` with its clamping of degrees below 2. -/
def bptNew (K V : Type) (degree : Nat) : BPT K V :=
  ⟨none, if degree < 2 then 2 else degree⟩

def maxLeafEntries (deg : Nat) : Nat := deg * 2 - 1
def minLeafEntries (deg : Nat) : Nat := deg - 1
def maxInternalKeys (deg : Nat) : Nat := deg * 2 - 1
def minInternalKeys (deg : Nat) : Nat := deg - 1

/-- The scan `for i < len(keys) && key >= keys[i] { i++ }` of `findLeaf`. -/
def routeIdx (key : K) : List K → Nat
  | [] => 0
  | k :: ks => if k ≤ key then routeIdx key ks + 1 else 0

theorem routeIdx_le (key : K) (ks : List K) : routeIdx key ks ≤ ks.length := by
  induction ks with
  | nil => exact le_refl _
  | cons k ks ih =>
    rw [routeIdx]
    split
    · simpa using ih
    · simp

/-- The entries of the leaf reached by `findLeaf` (descending out of range is
impossible on well-formed trees; the embedding returns `[]` there). -/
def findLeafEntries (key : K) : BNode K V → List (K × V)
  | .leaf es => es
  | .inner ks cs =>
    if h : routeIdx key ks < cs.length then
      findLeafEntries key (cs.get ⟨routeIdx key ks, h⟩)
    else []
  termination_by n => sizeOf n
  decreasing_by
    simp only [BNode.inner.sizeOf_spec]
    exact lt_of_lt_of_le (List.sizeOf_lt_of_mem (List.get_mem cs _ h)) (by omega)

/-- The linear scan of a leaf performed by `Search` (first match wins). -/
def lookupEntry (key : K) : List (K × V) → Option V
  | [] => none
  | e :: es => if e.1 = key then some e.2 else lookupEntry key es

/-- `Search` (`(zero value, false)` is rendered as `none`). -/
def BPT.searchB (t : BPT K V) (key : K) : Option V :=
  match t.root with
  | none => none
  | some n => lookupEntry key (findLeafEntries key n)

/-- `insertIntoLeaf`: insert at the sorted position (the key is known to be
absent when this runs). -/
def insertIntoLeaf (key : K) (v : V) : List (K × V) → List (K × V)
  | [] => [(key, v)]
  | e :: es => if e.1 < key then e :: insertIntoLeaf key v es else (key, v) :: e :: es

/-- The overwrite branch of `Insert`: replace the value at the first entry
whose key matches. -/
def replaceVal (key : K) (v : V) : List (K × V) → List (K × V)
  | [] => []
  | e :: es => if e.1 = key then (e.1, v) :: es else e :: replaceVal key v es

/-- Result of inserting into a subtree: the updated subtree, or two subtrees
plus the separator promoted to the parent. -/
inductive InsB (K V : Type) where
  | one (n : BNode K V)
  | two (l : BNode K V) (sep : K) (r : BNode K V)

/-- `splitLeaf` on the entry list: right half becomes a new leaf, its first
key is the promoted separator. -/
def splitLeafList (es : List (K × V)) : InsB K V :=
  match h : es.drop (es.length / 2) with
  | [] => .one (.leaf es)
  | e :: rest => .two (.leaf (es.take (es.length / 2))) e.1 (.leaf (e :: rest))

/-- `splitInternal`: the median key is promoted and removed from both
halves. -/
def splitInternalList (ks : List K) (cs : List (BNode K V)) : InsB K V :=
  match h : ks.drop (ks.length / 2) with
  | [] => .one (.inner ks cs)
  | pk :: rest =>
    .two (.inner (ks.take (ks.length / 2)) (cs.take (ks.length / 2 + 1))) pk
      (.inner rest (cs.drop (ks.length / 2 + 1)))

/-- `Insert`'s recursive descent: route by separators, handle the leaf
(overwrite, or sorted insert and split on overflow), and on a child split
insert the separator and the new right child into this node, splitting it in
turn on overflow.  (`insertIntoParent` locates the split child by pointer
identity; here that position is the routed index.) -/
def insertAuxB (deg : Nat) (key : K) (v : V) : BNode K V → InsB K V
  | .leaf es =>
    if es.any (fun e => e.1 = key) then .one (.leaf (replaceVal key v es))
    else
      if (insertIntoLeaf key v es).length > maxLeafEntries deg then
        splitLeafList (insertIntoLeaf key v es)
      else .one (.leaf (insertIntoLeaf key v es))
  | .inner ks cs =>
    if h : routeIdx key ks < cs.length then
      match insertAuxB deg key v (cs.get ⟨routeIdx key ks, h⟩) with
      | .one c => .one (.inner ks (cs.set (routeIdx key ks) c))
      | .two l sep r =>
        if (ks.take (routeIdx key ks) ++ sep :: ks.drop (routeIdx key ks)).length >
            maxInternalKeys deg then
          splitInternalList
            (ks.take (routeIdx key ks) ++ sep :: ks.drop (routeIdx key ks))
            (cs.take (routeIdx key ks) ++ l :: r :: cs.drop (routeIdx key ks + 1))
        else
          .one (.inner
            (ks.take (routeIdx key ks) ++ sep :: ks.drop (routeIdx key ks))
            (cs.take (routeIdx key ks) ++ l :: r :: cs.drop (routeIdx key ks + 1)))
    else .one (.inner ks cs)
  termination_by n => sizeOf n
  decreasing_by
    simp only [BNode.inner.sizeOf_spec]
    exact lt_of_lt_of_le (List.sizeOf_lt_of_mem (List.get_mem cs _ h)) (by omega)

/-- `Insert` at the tree level. -/
def BPT.insertB (t : BPT K V) (key : K) (v : V) : BPT K V :=
  match t.root with
  | none => { t with root := some (.leaf [(key, v)]) }
  | some n =>
    match insertAuxB t.degree key v n with
    | .one n' => { t with root := some n' }
    | .two l sep r => { t with root := some (.inner [sep] [l, r]) }

/-! ## B+ tree deletion (Delete, rebalanceLeaf, rebalanceInternal,
deleteFromParent)

The bottom-up cascade of the source (child pointers back to the parent) is
rendered as recursion: after deleting in the routed child, the parent repairs
the child if it fell below its minimum, exactly in the source's order of
cases (borrow from the left sibling, borrow from the right sibling, merge
into the left sibling, merge with the right sibling); a repair that removes
one of this node's keys may leave it deficient in turn, which its own caller
repairs.  The root cases of `Delete` and `deleteFromParent` (empty root
leaf, root collapse) are applied at the top level. -/

/-- Remove the first entry with the given key. -/
def eraseKeyList (key : K) : List (K × V) → List (K × V)
  | [] => []
  | e :: es => if e.1 = key then es else e :: eraseKeyList key es

def isDeficient (deg : Nat) : BNode K V → Bool
  | .leaf es => es.length < minLeafEntries deg
  | .inner ks _ => ks.length < minInternalKeys deg

/-- Entries of a node known to be a leaf (shape mismatches are unreachable on
balanced trees; they yield `[]`, making every guard fail, a no-op). -/
def leafEntriesOf : BNode K V → List (K × V)
  | .leaf es => es
  | .inner _ _ => []

def innerKeysOf : BNode K V → List K
  | .leaf _ => []
  | .inner ks _ => ks

def innerChildrenOf : BNode K V → List (BNode K V)
  | .leaf _ => []
  | .inner _ cs => cs

/-- `rebalanceLeaf` for the deficient leaf child at `idx` of a parent with
keys `ks` and children `cs` (the leaf's entries are `es`). -/
def rebalanceLeafAt (deg : Nat) (ks : List K) (cs : List (BNode K V)) (idx : Nat)
    (es : List (K × V)) : List K × List (BNode K V) :=
  if 0 < idx ∧ minLeafEntries deg < (leafEntriesOf (cs.getD (idx - 1) (.leaf []))).length then
    match (leafEntriesOf (cs.getD (idx - 1) (.leaf []))).getLast? with
    | some borrowed =>
      (ks.set (idx - 1) borrowed.1,
        (cs.set (idx - 1)
          (.leaf (leafEntriesOf (cs.getD (idx - 1) (.leaf []))).dropLast)).set idx
            (.leaf (borrowed :: es)))
    | none => (ks, cs)
  else if idx < cs.length - 1 ∧
      minLeafEntries deg < (leafEntriesOf (cs.getD (idx + 1) (.leaf []))).length then
    match leafEntriesOf (cs.getD (idx + 1) (.leaf [])) with
    | b :: r1 :: rs =>
      (ks.set idx r1.1,
        (cs.set idx (.leaf (es ++ [b]))).set (idx + 1) (.leaf (r1 :: rs)))
    | _ => (ks, cs)
  else if 0 < idx then
    (ks.eraseIdx (idx - 1),
      ((cs.set (idx - 1)
        (.leaf (leafEntriesOf (cs.getD (idx - 1) (.leaf [])) ++ es))).eraseIdx idx))
  else if idx < cs.length - 1 then
    (ks.eraseIdx idx,
      ((cs.set idx
        (.leaf (es ++ leafEntriesOf (cs.getD (idx + 1) (.leaf []))))).eraseIdx (idx + 1)))
  else (ks, cs)

/-- `rebalanceInternal` for the deficient internal child at `idx` (whose keys
and children are `nks`, `ncs`). -/
def rebalanceInnerAt (deg : Nat) (ks : List K) (cs : List (BNode K V)) (idx : Nat)
    (nks : List K) (ncs : List (BNode K V)) : List K × List (BNode K V) :=
  if 0 < idx ∧ minInternalKeys deg < (innerKeysOf (cs.getD (idx - 1) (.leaf []))).length then
    match (innerKeysOf (cs.getD (idx - 1) (.leaf []))).getLast?,
        (innerChildrenOf (cs.getD (idx - 1) (.leaf []))).getLast?, ks.get? (idx - 1) with
    | some bk, some bc, some sep =>
      (ks.set (idx - 1) bk,
        (cs.set (idx - 1)
          (.inner (innerKeysOf (cs.getD (idx - 1) (.leaf []))).dropLast
            (innerChildrenOf (cs.getD (idx - 1) (.leaf []))).dropLast)).set idx
              (.inner (sep :: nks) (bc :: ncs)))
    | _, _, _ => (ks, cs)
  else if idx < cs.length - 1 ∧
      minInternalKeys deg < (innerKeysOf (cs.getD (idx + 1) (.leaf []))).length then
    match innerKeysOf (cs.getD (idx + 1) (.leaf [])),
        innerChildrenOf (cs.getD (idx + 1) (.leaf [])), ks.get? idx with
    | bk :: rks, bc :: rcs, some sep =>
      (ks.set idx bk,
        (cs.set idx (.inner (nks ++ [sep]) (ncs ++ [bc]))).set (idx + 1)
          (.inner rks rcs))
    | _, _, _ => (ks, cs)
  else if 0 < idx then
    match ks.get? (idx - 1) with
    | some sep =>
      (ks.eraseIdx (idx - 1),
        ((cs.set (idx - 1)
          (.inner (innerKeysOf (cs.getD (idx - 1) (.leaf [])) ++ sep :: nks)
            (innerChildrenOf (cs.getD (idx - 1) (.leaf [])) ++ ncs))).eraseIdx idx))
    | none => (ks, cs)
  else if idx < cs.length - 1 then
    match ks.get? idx with
    | some sep =>
      (ks.eraseIdx idx,
        ((cs.set idx
          (.inner (nks ++ sep :: innerKeysOf (cs.getD (idx + 1) (.leaf [])))
            (ncs ++ innerChildrenOf (cs.getD (idx + 1) (.leaf []))))).eraseIdx (idx + 1)))
    | none => (ks, cs)
  else (ks, cs)

/-- Repair the deficient child at `idx`, dispatching on its shape. -/
def rebalanceAt (deg : Nat) (ks : List K) (cs : List (BNode K V)) (idx : Nat) :
    List K × List (BNode K V) :=
  match cs.getD idx (.leaf []) with
  | .leaf es => rebalanceLeafAt deg ks cs idx es
  | .inner nks ncs => rebalanceInnerAt deg ks cs idx nks ncs

/-- `Delete`'s recursive descent: route to the child, delete there, and
repair the child if it became deficient.  When the key is absent the tree is
returned unchanged (the source mutates nothing on that path). -/
def delAux (deg : Nat) (key : K) : BNode K V → BNode K V × Bool
  | .leaf es =>
    if es.any (fun e => e.1 = key) then (.leaf (eraseKeyList key es), true)
    else (.leaf es, false)
  | .inner ks cs =>
    if h : routeIdx key ks < cs.length then
      match delAux deg key (cs.get ⟨routeIdx key ks, h⟩) with
      | (c', true) =>
        if isDeficient deg c' then
          (.inner (rebalanceAt deg ks (cs.set (routeIdx key ks) c') (routeIdx key ks)).1
            (rebalanceAt deg ks (cs.set (routeIdx key ks) c') (routeIdx key ks)).2, true)
        else (.inner ks (cs.set (routeIdx key ks) c'), true)
      | (_, false) => (.inner ks cs, false)
    else (.inner ks cs, false)
  termination_by n => sizeOf n
  decreasing_by
    simp only [BNode.inner.sizeOf_spec]
    exact lt_of_lt_of_le (List.sizeOf_lt_of_mem (List.get_mem cs _ h)) (by omega)

/-- `Delete` at the tree level: empty-root leaf becomes a nil root, a root
internal node left with zero keys collapses to its only child. -/
def BPT.deleteB (t : BPT K V) (key : K) : BPT K V × Bool :=
  match t.root with
  | none => (t, false)
  | some n =>
    match delAux t.degree key n with
    | (_, false) => (t, false)
    | (n', true) =>
      match n' with
      | .leaf [] => ({ t with root := none }, true)
      | .inner [] (c :: _) => ({ t with root := some c }, true)
      | m => ({ t with root := some m }, true)

/-! ## B+ tree queries (Range, All, Len) -/

mutual

/-- The leaves of a subtree in left-to-right order: this is the portion of
the `next`-chain below the subtree. -/
def leavesList : BNode K V → List (List (K × V))
  | .leaf es => [es]
  | .inner _ cs => leavesListL cs

def leavesListL : List (BNode K V) → List (List (K × V))
  | [] => []
  | c :: cs => leavesList c ++ leavesListL cs

end

/-- The suffix of the leaf chain starting at the leaf `findLeaf` locates:
that leaf followed (via `next`) by every leaf to its right. -/
def leavesFrom (key : K) : BNode K V → List (List (K × V))
  | .leaf es => [es]
  | .inner ks cs =>
    if h : routeIdx key ks < cs.length then
      leavesFrom key (cs.get ⟨routeIdx key ks, h⟩) ++
        leavesListL (cs.drop (routeIdx key ks + 1))
    else []
  termination_by n => sizeOf n
  decreasing_by
    simp only [BNode.inner.sizeOf_spec]
    exact lt_of_lt_of_le (List.sizeOf_lt_of_mem (List.get_mem cs _ h)) (by omega)

/-- The inner loop of `Range` over one leaf: collect entries in `[lo, hi]`,
and signal the early return as soon as a key exceeds `hi`. -/
def rangeScan (lo hi : K) : List (K × V) → List (K × V) × Bool
  | [] => ([], false)
  | e :: es =>
    if lo ≤ e.1 ∧ e.1 ≤ hi then
      ((e :: (rangeScan lo hi es).1), (rangeScan lo hi es).2)
    else if hi < e.1 then ([], true)
    else rangeScan lo hi es

/-- The walk of `Range` along the leaf chain. -/
def rangeLoop (lo hi : K) : List (List (K × V)) → List (K × V)
  | [] => []
  | es :: rest =>
    if (rangeScan lo hi es).2 then (rangeScan lo hi es).1
    else (rangeScan lo hi es).1 ++ rangeLoop lo hi rest

/-- `Range` -/
def BPT.rangeB (t : BPT K V) (lo hi : K) : List (K × V) :=
  match t.root with
  | none => []
  | some n => rangeLoop lo hi (leavesFrom lo n)

/-- `All`: concatenate the leaf chain. -/
def BPT.allB (t : BPT K V) : List (K × V) :=
  match t.root with
  | none => []
  | some n => (leavesList n).flatten

/-- `Len`: count entries along the leaf chain. -/
def BPT.lenB (t : BPT K V) : Nat :=
  match t.root with
  | none => 0
  | some n => ((leavesList n).map List.length).sum

/-! ## B+ tree abstraction and invariants -/

mutual

/-- All entries stored below a node, in key order (the abstract sorted
association list the tree represents). -/
def absN : BNode K V → List (K × V)
  | .leaf es => es
  | .inner _ cs => absL cs

def absL : List (BNode K V) → List (K × V)
  | [] => []
  | c :: cs => absN c ++ absL cs

end

/-- Lower window bound (inclusive). -/
def loLe : Option K → K → Prop
  | none, _ => True
  | some a, k => a ≤ k

/-- Upper window bound (exclusive). -/
def ltHi : K → Option K → Prop
  | _, none => True
  | k, some b => k < b

mutual

/-- Well-formedness of a subtree within a half-open key window: leaf entries
are strictly sorted and inside the window; an internal node's separators cut
the window into the children's windows (right-biased: keys equal to a
separator route to its right child, matching `findLeaf`). -/
inductive WFN : Option K → Option K → BNode K V → Prop where
  | leaf {lo hi : Option K} {es : List (K × V)}
      (hs : List.Pairwise (fun a b => a.1 < b.1) es)
      (hw : ∀ e ∈ es, loLe lo e.1 ∧ ltHi e.1 hi) : WFN lo hi (.leaf es)
  | inner {lo hi : Option K} {ks : List K} {cs : List (BNode K V)}
      (hc : WFC lo hi ks cs) : WFN lo hi (.inner ks cs)

/-- Aligned well-formedness of separator keys and children. -/
inductive WFC : Option K → Option K → List K → List (BNode K V) → Prop where
  | single {lo hi : Option K} {c : BNode K V} (h : WFN lo hi c) : WFC lo hi [] [c]
  | cons {lo hi : Option K} {k : K} {ks : List K} {c : BNode K V}
      {cs : List (BNode K V)} (h : WFN lo (some k) c) (hlo : loLe lo k)
      (hhi : ltHi k hi) (ht : WFC (some k) hi ks cs) : WFC lo hi (k :: ks) (c :: cs)

end

mutual

/-- Nonemptiness of every node: leaves hold at least one entry, internal
nodes at least one key (maintained between operations; transient states
inside a deletion may violate it at the repaired level). -/
inductive NEok : BNode K V → Prop where
  | leaf {es : List (K × V)} (h : es ≠ []) : NEok (.leaf es)
  | inner {ks : List K} {cs : List (BNode K V)} (hk : ks ≠ []) (hc : NEokL cs) :
      NEok (.inner ks cs)

inductive NEokL : List (BNode K V) → Prop where
  | nil : NEokL []
  | cons {c : BNode K V} {cs : List (BNode K V)} (h : NEok c) (ht : NEokL cs) :
      NEokL (c :: cs)

end

mutual

/-- Perfect height balance: all leaves at the same depth. -/
inductive Bal : Nat → BNode K V → Prop where
  | leaf {es : List (K × V)} : Bal 0 (.leaf es)
  | inner {h : Nat} {ks : List K} {cs : List (BNode K V)} (hc : BalL h cs) :
      Bal (h + 1) (.inner ks cs)

inductive BalL : Nat → List (BNode K V) → Prop where
  | nil {h : Nat} : BalL h []
  | cons {h : Nat} {c : BNode K V} {cs : List (BNode K V)} (hc : Bal h c)
      (ht : BalL h cs) : BalL h (c :: cs)

end

/-- The state invariant of a reachable tree. -/
def WFT (t : BPT K V) : Prop :=
  2 ≤ t.degree ∧
    match t.root with
    | none => True
    | some n => WFN none none n ∧ NEok n ∧ ∃ h, Bal h n

theorem absL_append (l1 l2 : List (BNode K V)) :
    absL (l1 ++ l2) = absL l1 ++ absL l2 := by
  induction l1 with
  | nil => simp [absL]
  | cons c cs ih => simp [absL, ih]

theorem NEokL_append {l1 l2 : List (BNode K V)} (h1 : NEokL l1) (h2 : NEokL l2) :
    NEokL (l1 ++ l2) := by
  induction l1 with
  | nil => exact h2
  | cons c cs ih =>
    cases h1 with
    | cons hc ht => exact NEokL.cons hc (ih ht)

theorem NEokL_mem {cs : List (BNode K V)} (h : NEokL cs) : ∀ c ∈ cs, NEok c := by
  induction cs with
  | nil => intro c hc; cases hc
  | cons x cs ih =>
    cases h with
    | cons hc ht =>
      intro c hcm
      rcases List.mem_cons.1 hcm with rfl | hcm
      · exact hc
      · exact ih ht c hcm

theorem NEokL_of_mem {cs : List (BNode K V)} (h : ∀ c ∈ cs, NEok c) : NEokL cs := by
  induction cs with
  | nil => exact NEokL.nil
  | cons x cs ih =>
    exact NEokL.cons (h x (List.mem_cons_self _ _))
      (ih fun c hc => h c (List.mem_cons_of_mem _ hc))

theorem BalL_mem {h : Nat} {cs : List (BNode K V)} (hb : BalL h cs) :
    ∀ c ∈ cs, Bal h c := by
  induction cs with
  | nil => intro c hc; cases hc
  | cons x cs ih =>
    cases hb with
    | cons hc ht =>
      intro c hcm
      rcases List.mem_cons.1 hcm with rfl | hcm
      · exact hc
      · exact ih ht c hcm

theorem BalL_of_mem {h : Nat} {cs : List (BNode K V)} (hb : ∀ c ∈ cs, Bal h c) :
    BalL h cs := by
  induction cs with
  | nil => exact BalL.nil
  | cons x cs ih =>
    exact BalL.cons (hb x (List.mem_cons_self _ _))
      (ih fun c hc => hb c (List.mem_cons_of_mem _ hc))

theorem WFC_length {lo hi : Option K} {ks : List K} {cs : List (BNode K V)}
    (h : WFC lo hi ks cs) : cs.length = ks.length + 1 := by
  induction ks generalizing lo cs with
  | nil => cases h with | single h => rfl
  | cons k ks ih =>
    cases h with
    | cons h hlo hhi ht => simpa using ih ht

theorem loLe_trans {lo : Option K} {a b : K} (h1 : loLe lo a) (h2 : a ≤ b) :
    loLe lo b := by
  cases lo with
  | none => trivial
  | some x => exact le_trans h1 h2

theorem ltHi_trans {hi : Option K} {a b : K} (h1 : a ≤ b) (h2 : ltHi b hi) :
    ltHi a hi := by
  cases hi with
  | none => trivial
  | some x => exact lt_of_le_of_lt h1 h2

theorem ltHi_trans_lt {hi : Option K} {a b : K} (h1 : a < b) (h2 : ltHi b hi) :
    ltHi a hi := ltHi_trans (le_of_lt h1) h2

theorem loLe_of_lt {lo : Option K} {a b : K} (h1 : loLe lo a) (h2 : a < b) :
    loLe lo b := loLe_trans h1 (le_of_lt h2)

mutual

/-- Entries below a well-formed node are strictly sorted and lie in the
node's window. -/
theorem absN_windows : ∀ (lo hi : Option K) (n : BNode K V), WFN lo hi n →
    List.Pairwise (fun a b : K × V => a.1 < b.1) (absN n) ∧
      ∀ e ∈ absN n, loLe lo e.1 ∧ ltHi e.1 hi
  | lo, hi, .leaf es, h => by
    cases h with
    | leaf hs hw => exact ⟨hs, hw⟩
  | lo, hi, .inner ks cs, h => by
    cases h with
    | inner hc => exact absC_windows lo hi ks cs hc

theorem absC_windows : ∀ (lo hi : Option K) (ks : List K) (cs : List (BNode K V)),
    WFC lo hi ks cs →
    List.Pairwise (fun a b : K × V => a.1 < b.1) (absL cs) ∧
      ∀ e ∈ absL cs, loLe lo e.1 ∧ ltHi e.1 hi
  | lo, hi, [], cs, h => by
    cases h with
    | single h2 =>
      have := absN_windows lo hi _ h2
      simpa [absL] using this
  | lo, hi, k :: ks, cs, h => by
    cases h with
    | cons h2 hlo hhi ht =>
      obtain ⟨s1, w1⟩ := absN_windows lo (some k) _ h2
      obtain ⟨s2, w2⟩ := absC_windows (some k) hi ks _ ht
      rw [absL]
      constructor
      · rw [List.pairwise_append]
        refine ⟨s1, s2, ?_⟩
        intro a ha b hb
        exact lt_of_lt_of_le (w1 a ha).2 (w2 b hb).1
      · intro e he
        rcases List.mem_append.1 he with he | he
        · exact ⟨(w1 e he).1, ltHi_trans_lt (w1 e he).2 hhi⟩
        · exact ⟨loLe_trans hlo (w2 e he).1, (w2 e he).2⟩

end

/-- The routing lemma: descending by `routeIdx` reaches a child whose window
contains the key; the other subtrees' entries are strictly on the far sides
of the key; and the node can be rebuilt well-formed either with a replacement
for that child or with a split pair plus its separator. -/
theorem routeSplitIns (key : K) :
    ∀ (lo hi : Option K) (ks : List K) (cs : List (BNode K V)),
      WFC lo hi ks cs → loLe lo key → ltHi key hi →
      ∃ (h : routeIdx key ks < cs.length) (loI hiI : Option K),
        WFN loI hiI (cs.get ⟨routeIdx key ks, h⟩) ∧
        loLe loI key ∧ ltHi key hiI ∧
        absL cs = absL (cs.take (routeIdx key ks)) ++
          absN (cs.get ⟨routeIdx key ks, h⟩) ++ absL (cs.drop (routeIdx key ks + 1)) ∧
        (∀ e ∈ absL (cs.take (routeIdx key ks)), e.1 < key) ∧
        (∀ e ∈ absL (cs.drop (routeIdx key ks + 1)), key < e.1) ∧
        (∀ c', WFN loI hiI c' → WFC lo hi ks (cs.set (routeIdx key ks) c')) ∧
        (∀ l sep r, WFN loI (some sep) l → WFN (some sep) hiI r →
          loLe loI sep → ltHi sep hiI →
          WFC lo hi (ks.take (routeIdx key ks) ++ sep :: ks.drop (routeIdx key ks))
            (cs.take (routeIdx key ks) ++ l :: r :: cs.drop (routeIdx key ks + 1))) := by
  intro lo hi ks
  induction ks generalizing lo with
  | nil =>
    intro cs hc hlo hhi
    cases hc with
    | single h2 =>
      refine ⟨by simp [routeIdx], lo, hi, h2, hlo, hhi, by simp [absL], ?_, ?_, ?_, ?_⟩
      · intro e he
        simp [routeIdx, absL] at he
      · intro e he
        simp [routeIdx, absL] at he
      · intro c' hc'
        simpa [routeIdx] using WFC.single hc'
      · intro l sep r hl hr hlos hhis
        simp only [routeIdx, List.take_nil, List.drop_nil, List.nil_append,
          List.take_cons, List.take_zero, List.drop_succ_cons, List.drop_zero]
        exact WFC.cons hl hlos hhis (WFC.single hr)
  | cons k ks ih =>
    intro cs hc hlo hhi
    cases hc with
    | cons h2 hlok hhik ht =>
      rename_i c cs'
      by_cases hk : k ≤ key
      · obtain ⟨hlt, loI, hiI, hwf, hloI, hhiI, habs, htake, hdrop, hset, hins⟩ :=
          ih (some k) cs' ht hk hhi
        have hr : routeIdx key (k :: ks) = routeIdx key ks + 1 := by
          rw [routeIdx, if_pos hk]
        refine ⟨by simpa [hr] using Nat.succ_lt_succ hlt, loI, hiI, ?_, hloI, hhiI,
          ?_, ?_, ?_, ?_, ?_⟩
        · simpa [hr] using hwf
        · simp only [hr, List.take_succ_cons, List.drop_succ_cons]
          rw [absL, habs]
          simp [absL, List.append_assoc]
        · intro e he
          simp only [hr, List.take_succ_cons] at he
          rw [absL] at he
          rcases List.mem_append.1 he with he | he
          · exact lt_of_lt_of_le ((absN_windows lo (some k) c h2).2 e he).2 hk
          · exact htake e he
        · intro e he
          simp only [hr, List.drop_succ_cons] at he
          exact hdrop e he
        · intro c' hc'
          simp only [hr, List.set_cons_succ]
          exact WFC.cons h2 hlok hhik (hset c' hc')
        · intro l sep r hl hrr hlos hhis
          simp only [hr, List.take_succ_cons, List.drop_succ_cons, List.cons_append]
          exact WFC.cons h2 hlok hhik (hins l sep r hl hrr hlos hhis)
      · have hr : routeIdx key (k :: ks) = 0 := by
          rw [routeIdx, if_neg hk]
        have hklt : key < k := lt_of_not_le hk
        refine ⟨by simp [hr], lo, some k, ?_, hlo, hklt, ?_, ?_, ?_, ?_, ?_⟩
        · simpa [hr] using h2
        · simp only [hr, List.take_zero, List.drop_succ_cons, List.drop_zero]
          rw [absL]
          simp [absL]
        · intro e he
          simp [hr, absL] at he
        · intro e he
          simp only [hr, List.drop_succ_cons, List.drop_zero] at he
          exact lt_of_lt_of_le hklt ((absC_windows (some k) hi ks cs' ht).2 e he).1
        · intro c' hc'
          simp only [hr, List.set_cons_zero]
          exact WFC.cons hc' hlok hhik ht
        · intro l sep r hl hrr hlos hhis
          simp only [hr, List.take_zero, List.take_cons, List.drop_zero,
            List.drop_succ_cons, List.nil_append]
          exact WFC.cons hl hlos (ltHi_trans_lt hhis hhik)
            (WFC.cons hrr (le_of_lt hhis) hhik ht)

/-! ## Abstract sorted-map operations and their relation to the leaf code -/

/-- Insert-or-replace in a sorted association list: the abstract effect of
`Insert`. -/
def absIns (key : K) (v : V) : List (K × V) → List (K × V)
  | [] => [(key, v)]
  | e :: es =>
    if e.1 < key then e :: absIns key v es
    else if e.1 = key then (key, v) :: es
    else (key, v) :: e :: es

theorem replaceVal_eq_absIns {key : K} {v : V} {es : List (K × V)}
    (hs : List.Pairwise (fun a b : K × V => a.1 < b.1) es)
    (hmem : es.any (fun e => e.1 = key)) : replaceVal key v es = absIns key v es := by
  induction es with
  | nil => simp at hmem
  | cons e es ih =>
    by_cases h1 : e.1 = key
    · rw [replaceVal, if_pos h1, absIns, if_neg (by rw [h1]; exact lt_irrefl _),
        if_pos h1, h1]
    · have h2 : e.1 < key := by
        rcases List.any_eq_true.1 hmem with ⟨x, hx, hxk⟩
        rcases List.mem_cons.1 hx with rfl | hx
        · exact absurd (by simpa using hxk) h1
        · have := (List.pairwise_cons.1 hs).1 x hx
          rw [of_decide_eq_true hxk] at this
          exact this
      rw [replaceVal, if_neg h1, absIns, if_pos h2]
      have hmem2 : es.any (fun e => e.1 = key) := by
        rcases List.any_eq_true.1 hmem with ⟨x, hx, hxk⟩
        rcases List.mem_cons.1 hx with rfl | hx
        · exact absurd (by simpa using hxk) h1
        · exact List.any_eq_true.2 ⟨x, hx, hxk⟩
      rw [ih (List.pairwise_cons.1 hs).2 hmem2]

theorem insertIntoLeaf_eq_absIns {key : K} {v : V} {es : List (K × V)}
    (hmem : ¬ es.any (fun e => e.1 = key)) :
    insertIntoLeaf key v es = absIns key v es := by
  induction es with
  | nil => rfl
  | cons e es ih =>
    have h1 : e.1 ≠ key := by
      intro h
      exact hmem (List.any_eq_true.2 ⟨e, List.mem_cons_self _ _, by simpa using h⟩)
    by_cases h2 : e.1 < key
    · rw [insertIntoLeaf, if_pos h2, absIns, if_pos h2]
      rw [ih fun hc => hmem ?_]
      rcases List.any_eq_true.1 hc with ⟨x, hx, hxk⟩
      exact List.any_eq_true.2 ⟨x, List.mem_cons_of_mem _ hx, hxk⟩
    · rw [insertIntoLeaf, if_neg h2, absIns, if_neg h2, if_neg h1]

theorem absIns_sorted {key : K} {v : V} {es : List (K × V)}
    (hs : List.Pairwise (fun a b : K × V => a.1 < b.1) es) :
    List.Pairwise (fun a b : K × V => a.1 < b.1) (absIns key v es) ∧
      ∀ e ∈ absIns key v es, e.1 = key ∨ e ∈ es := by
  induction es with
  | nil =>
    refine ⟨List.pairwise_singleton _ _, ?_⟩
    intro e he
    rw [absIns, List.mem_singleton] at he
    subst he
    exact Or.inl rfl
  | cons e es ih =>
    obtain ⟨hse, hw⟩ := List.pairwise_cons.1 hs
    by_cases h1 : e.1 < key
    · obtain ⟨ihs, ihm⟩ := ih hw
      rw [absIns, if_pos h1]
      constructor
      · rw [List.pairwise_cons]
        refine ⟨?_, ihs⟩
        intro b hb
        rcases ihm b hb with hb | hb
        · rw [hb]; exact h1
        · exact hse b hb
      · intro x hx
        rcases List.mem_cons.1 hx with rfl | hx
        · exact Or.inr (List.mem_cons_self _ _)
        · rcases ihm x hx with hx | hx
          · exact Or.inl hx
          · exact Or.inr (List.mem_cons_of_mem _ hx)
    · by_cases h2 : e.1 = key
      · rw [absIns, if_neg h1, if_pos h2]
        constructor
        · rw [List.pairwise_cons]
          refine ⟨?_, hw⟩
          intro b hb
          have := hse b hb
          rw [h2] at this
          exact this
        · intro x hx
          rcases List.mem_cons.1 hx with rfl | hx
          · exact Or.inl rfl
          · exact Or.inr (List.mem_cons_of_mem _ hx)
      · rw [absIns, if_neg h1, if_neg h2]
        have hk : key < e.1 := lt_of_le_of_ne (not_lt.1 h1) (fun h => h2 h.symm)
        constructor
        · rw [List.pairwise_cons]
          refine ⟨?_, hs⟩
          intro b hb
          rcases List.mem_cons.1 hb with rfl | hb
          · exact hk
          · exact lt_trans hk (hse b hb)
        · intro x hx
          rcases List.mem_cons.1 hx with rfl | hx
          · exact Or.inl rfl
          · exact Or.inr hx

theorem absIns_ne_nil (key : K) (v : V) (es : List (K × V)) :
    absIns key v es ≠ [] := by
  cases es with
  | nil => simp [absIns]
  | cons e es =>
    rw [absIns]
    split
    · simp
    · split <;> simp

theorem absIns_length {key : K} {v : V} {es : List (K × V)}
    (hs : List.Pairwise (fun a b : K × V => a.1 < b.1) es) :
    (absIns key v es).length =
      if es.any (fun e => e.1 = key) then es.length else es.length + 1 := by
  induction es with
  | nil => simp [absIns]
  | cons e es ih =>
    obtain ⟨hse, hw⟩ := List.pairwise_cons.1 hs
    rw [absIns]
    by_cases h1 : e.1 < key
    · rw [if_pos h1]
      have h2 : ¬ e.1 = key := ne_of_lt h1
      simp only [List.any_cons, List.length_cons, ih hw]
      rw [decide_eq_false h2]
      simp only [Bool.false_or]
      split <;> simp
    · by_cases h2 : e.1 = key
      · rw [if_neg h1, if_pos h2]
        simp [h2]
      · rw [if_neg h1, if_neg h2]
        have hk : key < e.1 := lt_of_le_of_ne (not_lt.1 h1) (fun h => h2 h.symm)
        have hnone : ¬ (e :: es).any (fun x => x.1 = key) := by
          simp only [List.any_cons, Bool.or_eq_true, decide_eq_true_eq, not_or]
          refine ⟨h2, ?_⟩
          intro hc
          rcases List.any_eq_true.1 hc with ⟨x, hx, hxk⟩
          have hlt := hse x hx
          rw [of_decide_eq_true hxk] at hlt
          exact absurd (lt_trans hk hlt) (lt_irrefl key)
        rw [if_neg hnone]
        simp

mutual

/-- A well-formed nonempty node stores at least one entry. -/
theorem absN_ne : ∀ (lo hi : Option K) (n : BNode K V), WFN lo hi n → NEok n →
    absN n ≠ []
  | lo, hi, .leaf es, _, hne => by
    cases hne with
    | leaf h2 => simpa [absN] using h2
  | lo, hi, .inner ks cs, h, hne => by
    cases h with
    | inner hc =>
      cases hne with
      | inner hk hcne => simpa [absN] using absC_ne lo hi ks cs hc hcne

theorem absC_ne : ∀ (lo hi : Option K) (ks : List K) (cs : List (BNode K V)),
    WFC lo hi ks cs → NEokL cs → absL cs ≠ []
  | lo, hi, [], cs, h, hne => by
    cases h with
    | single h2 =>
      cases hne with
      | cons hc ht =>
        have := absN_ne lo hi _ h2 hc
        simpa [absL] using this
  | lo, hi, k :: ks, cs, h, hne => by
    cases h with
    | cons h2 hlo hhi ht =>
      cases hne with
      | cons hc hct =>
        have := absN_ne lo (some k) _ h2 hc
        simp only [absL, ne_eq, List.append_eq_nil]
        intro hcon
        exact this hcon.1

end

/-- Strictness of a bounded window around nonempty well-formed children: the
separator chain cannot stall. -/
theorem WFC_lt {a b : K} {ks : List K} {cs : List (BNode K V)}
    (h : WFC (some a) (some b) ks cs) (hne : NEokL cs) : a < b := by
  have habs := absC_ne _ _ _ _ h hne
  obtain ⟨w, hw⟩ := List.exists_mem_of_ne_nil _ habs
  have := (absC_windows _ _ _ _ h).2 w hw
  exact lt_of_le_of_lt this.1 this.2

theorem NEokL_sublist {cs cs' : List (BNode K V)} (hsub : cs'.Sublist cs)
    (h : NEokL cs) : NEokL cs' :=
  NEokL_of_mem fun c hc => NEokL_mem h c (hsub.mem hc)

theorem BalL_sublist {h : Nat} {cs cs' : List (BNode K V)} (hsub : cs'.Sublist cs)
    (hb : BalL h cs) : BalL h cs' :=
  BalL_of_mem fun c hc => BalL_mem hb c (hsub.mem hc)

/-- Splitting a well-formed child frame at any valid separator position:
both halves are well-formed with the split key as the shared bound. -/
theorem WFC_splitKey :
    ∀ (m : Nat) (lo hi : Option K) (ks : List K) (cs : List (BNode K V)),
      WFC lo hi ks cs → NEokL cs → ∀ (hm : m < ks.length),
      WFC lo (some (ks.get ⟨m, hm⟩)) (ks.take m) (cs.take (m + 1)) ∧
      WFC (some (ks.get ⟨m, hm⟩)) hi (ks.drop (m + 1)) (cs.drop (m + 1)) ∧
      loLe lo (ks.get ⟨m, hm⟩) ∧ ltHi (ks.get ⟨m, hm⟩) hi := by
  intro m
  induction m with
  | zero =>
    intro lo hi ks cs h hne hm
    cases ks with
    | nil => simp at hm
    | cons k ks =>
      cases h with
      | cons h2 hlo hhi ht =>
        have hlen := WFC_length ht
        refine ⟨?_, ?_, hlo, hhi⟩
        · simpa using WFC.single h2
        · simpa using ht
  | succ m ih =>
    intro lo hi ks cs h hne hm
    cases ks with
    | nil => simp at hm
    | cons k ks =>
      cases h with
      | cons h2 hlo hhi ht =>
        cases hne with
        | cons hcne hctne =>
          have hm2 : m < ks.length := by simpa using hm
          obtain ⟨ihl, ihr, ihlo, ihhi⟩ := ih (some k) hi ks _ ht hctne hm2
          have hget : (k :: ks).get ⟨m + 1, hm⟩ = ks.get ⟨m, hm2⟩ := rfl
          rw [hget]
          have hklt : k < ks.get ⟨m, hm2⟩ :=
            WFC_lt ihl (NEokL_sublist (List.take_sublist _ _) hctne)
          refine ⟨?_, ?_, loLe_of_lt hlo hklt, ihhi⟩
          · simpa [List.take_succ_cons] using
              WFC.cons h2 hlo (show ltHi k (some (ks.get ⟨m, hm2⟩)) from hklt) ihl
          · simpa using ihr

/-- `splitLeaf` on a sorted window-respecting entry list of length at least 2:
both halves are well-formed nonempty leaves separated by the promoted key (the
right half's first key), and no entry is lost. -/
theorem splitLeaf_spec {lo hi : Option K} {es : List (K × V)}
    (hs : List.Pairwise (fun a b : K × V => a.1 < b.1) es)
    (hw : ∀ e ∈ es, loLe lo e.1 ∧ ltHi e.1 hi)
    (hlen : 2 ≤ es.length) :
    ∃ sep,
      splitLeafList es = InsB.two (BNode.leaf (es.take (es.length / 2))) sep
        (BNode.leaf (es.drop (es.length / 2))) ∧
      WFN lo (some sep) (BNode.leaf (es.take (es.length / 2))) ∧
      WFN (some sep) hi (BNode.leaf (es.drop (es.length / 2))) ∧
      loLe lo sep ∧ ltHi sep hi ∧
      (es.take (es.length / 2)) ≠ [] ∧ (es.drop (es.length / 2)) ≠ [] ∧
      es.take (es.length / 2) ++ es.drop (es.length / 2) = es := by
  have hm : es.length / 2 < es.length := Nat.div_lt_self (by omega) (by omega)
  have hdrop := List.drop_eq_get_cons hm
  have hcross : ∀ a ∈ es.take (es.length / 2), ∀ b ∈ es.drop (es.length / 2),
      a.1 < b.1 := by
    have := hs
    rw [← List.take_append_drop (es.length / 2) es, List.pairwise_append] at this
    exact this.2.2
  have hgmem : es.get ⟨es.length / 2, hm⟩ ∈ es.drop (es.length / 2) := by
    rw [hdrop]; exact List.mem_cons_self _ _
  have hgw := hw _ (List.mem_of_mem_drop hgmem)
  refine ⟨(es.get ⟨es.length / 2, hm⟩).1, ?_, ?_, ?_, hgw.1, hgw.2, ?_, ?_,
    List.take_append_drop _ _⟩
  · rw [splitLeafList.eq_def]
    split
    · next heq => rw [hdrop] at heq; cases heq
    · next e rest heq =>
      rw [hdrop] at heq
      injection heq with h1 h2
      rw [hdrop, ← h1, ← h2]
  · refine WFN.leaf (hs.sublist (List.take_sublist _ _)) ?_
    intro e he
    exact ⟨(hw e (List.mem_of_mem_take he)).1, hcross e he _ hgmem⟩
  · refine WFN.leaf (hs.sublist (List.drop_sublist _ _)) ?_
    intro e he
    refine ⟨?_, (hw e (List.mem_of_mem_drop he)).2⟩
    rw [hdrop] at he
    rcases List.mem_cons.1 he with rfl | he
    · exact le_refl _
    · have hpw : List.Pairwise (fun a b : K × V => a.1 < b.1)
          (es.get ⟨es.length / 2, hm⟩ :: es.drop (es.length / 2 + 1)) := by
        rw [← hdrop]; exact hs.sublist (List.drop_sublist _ _)
      exact le_of_lt ((List.pairwise_cons.1 hpw).1 e he)
  · have : (es.take (es.length / 2)).length = es.length / 2 := by
      rw [List.length_take]; omega
    intro hc
    rw [hc] at this
    simp at this
    omega
  · intro hc
    rw [hc] at hdrop
    exact List.cons_ne_nil _ _ hdrop.symm

/-- `splitInternal` on a well-formed overfull frame (at least 3 separators):
the median is promoted, both halves are well-formed, nonempty, balanced
internal nodes, and the stored entries are preserved. -/
theorem splitInternal_spec {lo hi : Option K} {ks : List K}
    {cs : List (BNode K V)} {hb : Nat}
    (h : WFC lo hi ks cs) (hne : NEokL cs) (hbal : BalL hb cs)
    (hlen : 3 ≤ ks.length) :
    ∃ pk,
      splitInternalList ks cs = InsB.two
        (BNode.inner (ks.take (ks.length / 2)) (cs.take (ks.length / 2 + 1))) pk
        (BNode.inner (ks.drop (ks.length / 2 + 1)) (cs.drop (ks.length / 2 + 1))) ∧
      WFN lo (some pk)
        (BNode.inner (ks.take (ks.length / 2)) (cs.take (ks.length / 2 + 1))) ∧
      WFN (some pk) hi
        (BNode.inner (ks.drop (ks.length / 2 + 1)) (cs.drop (ks.length / 2 + 1))) ∧
      loLe lo pk ∧ ltHi pk hi ∧
      NEok (BNode.inner (ks.take (ks.length / 2)) (cs.take (ks.length / 2 + 1))) ∧
      NEok (BNode.inner (ks.drop (ks.length / 2 + 1)) (cs.drop (ks.length / 2 + 1))) ∧
      Bal (hb + 1)
        (BNode.inner (ks.take (ks.length / 2)) (cs.take (ks.length / 2 + 1))) ∧
      Bal (hb + 1)
        (BNode.inner (ks.drop (ks.length / 2 + 1)) (cs.drop (ks.length / 2 + 1))) ∧
      absL (cs.take (ks.length / 2 + 1)) ++ absL (cs.drop (ks.length / 2 + 1)) =
        absL cs := by
  have hm : ks.length / 2 < ks.length := Nat.div_lt_self (by omega) (by omega)
  have hdrop := List.drop_eq_get_cons hm
  obtain ⟨hl, hr, hplo, hphi⟩ := WFC_splitKey (ks.length / 2) lo hi ks cs h hne hm
  refine ⟨ks.get ⟨ks.length / 2, hm⟩, ?_, WFN.inner hl, WFN.inner hr, hplo, hphi,
    ?_, ?_, ?_, ?_, ?_⟩
  · rw [splitInternalList.eq_def]
    split
    · next heq => rw [hdrop] at heq; cases heq
    · next pk rest heq =>
      rw [hdrop] at heq
      injection heq with h1 h2
      rw [h1, h2]
  · refine NEok.inner ?_ (NEokL_sublist (List.take_sublist _ _) hne)
    have h2 : 1 ≤ ks.length / 2 := by omega
    have : (ks.take (ks.length / 2)).length = ks.length / 2 := by
      rw [List.length_take]; omega
    intro hc
    rw [hc] at this
    simp at this
    omega
  · refine NEok.inner ?_ (NEokL_sublist (List.drop_sublist _ _) hne)
    have : (ks.drop (ks.length / 2 + 1)).length = ks.length - (ks.length / 2 + 1) := by
      rw [List.length_drop]
    intro hc
    rw [hc] at this
    simp at this
    omega
  · exact Bal.inner (BalL_sublist (List.take_sublist _ _) hbal)
  · exact Bal.inner (BalL_sublist (List.drop_sublist _ _) hbal)
  · rw [← absL_append, List.take_append_drop]

theorem absIns_append_left {key : K} {v : V} {P R : List (K × V)}
    (hP : ∀ p ∈ P, p.1 < key) :
    absIns key v (P ++ R) = P ++ absIns key v R := by
  induction P with
  | nil => rfl
  | cons p P ih =>
    rw [List.cons_append, absIns, if_pos (hP p (List.mem_cons_self _ _))]
    rw [ih fun q hq => hP q (List.mem_cons_of_mem _ hq)]
    rfl

theorem absIns_append_right {key : K} {v : V} {M S : List (K × V)}
    (hS : ∀ s ∈ S, key < s.1) :
    absIns key v (M ++ S) = absIns key v M ++ S := by
  induction M with
  | nil =>
    cases S with
    | nil => rfl
    | cons s S =>
      have hks := hS s (List.mem_cons_self _ _)
      have h1 : absIns key v (s :: S) = (key, v) :: s :: S := by
        rw [absIns, if_neg (not_lt.2 (le_of_lt hks)), if_neg (ne_of_gt hks)]
      rw [List.nil_append, h1]
      rfl
  | cons e M ih =>
    rw [List.cons_append, absIns, absIns]
    by_cases h1 : e.1 < key
    · rw [if_pos h1, if_pos h1, ih, List.cons_append]
    · by_cases h2 : e.1 = key
      · rw [if_neg h1, if_neg h1, if_pos h2, if_pos h2]
        rfl
      · rw [if_neg h1, if_neg h1, if_neg h2, if_neg h2]
        rfl

theorem absIns_decomp {key : K} {v : V} {P M S : List (K × V)}
    (hP : ∀ p ∈ P, p.1 < key) (hS : ∀ s ∈ S, key < s.1) :
    absIns key v (P ++ M ++ S) = P ++ absIns key v M ++ S := by
  rw [List.append_assoc, absIns_append_left hP, absIns_append_right hS,
    List.append_assoc]

theorem NEokL_set {cs : List (BNode K V)} {i : Nat} {c : BNode K V}
    (h : NEokL cs) (hc : NEok c) : NEokL (cs.set i c) := by
  refine NEokL_of_mem fun x hx => ?_
  rcases List.mem_or_eq_of_mem_set hx with hx | rfl
  · exact NEokL_mem h x hx
  · exact hc

theorem BalL_set {h : Nat} {cs : List (BNode K V)} {i : Nat} {c : BNode K V}
    (hb : BalL h cs) (hc : Bal h c) : BalL h (cs.set i c) := by
  refine BalL_of_mem fun x hx => ?_
  rcases List.mem_or_eq_of_mem_set hx with hx | rfl
  · exact BalL_mem hb x hx
  · exact hc

theorem absL_set {cs : List (BNode K V)} {i : Nat} {c : BNode K V}
    (h : i < cs.length) :
    absL (cs.set i c) = absL (cs.take i) ++ absN c ++ absL (cs.drop (i + 1)) := by
  rw [List.set_eq_take_cons_drop c h, absL_append, List.append_assoc]
  rfl

theorem BalL_append {h : Nat} {l1 l2 : List (BNode K V)} (h1 : BalL h l1)
    (h2 : BalL h l2) : BalL h (l1 ++ l2) := by
  induction l1 with
  | nil => exact h2
  | cons c cs ih =>
    cases h1 with
    | cons hc ht => exact BalL.cons hc (ih ht)

/-- The master insert lemma: on a well-formed, nonempty, balanced subtree whose
window contains the key, `insertAuxB` preserves well-formedness, nonemptiness
and height (a split raises nothing: both halves keep the height, the caller
adds the level), and the stored entries change exactly by the abstract sorted
insert-or-replace. -/
theorem insertAuxB_spec {deg : Nat} (hdeg : 2 ≤ deg) (key : K) (v : V)
    (n : BNode K V) :
    ∀ (lo hi : Option K) (hb : Nat),
      WFN lo hi n → NEok n → Bal hb n → loLe lo key → ltHi key hi →
      (∀ n', insertAuxB deg key v n = InsB.one n' →
          WFN lo hi n' ∧ NEok n' ∧ Bal hb n' ∧
            absN n' = absIns key v (absN n)) ∧
      (∀ l sep r, insertAuxB deg key v n = InsB.two l sep r →
          WFN lo (some sep) l ∧ WFN (some sep) hi r ∧ loLe lo sep ∧
            ltHi sep hi ∧ NEok l ∧ NEok r ∧ Bal hb l ∧ Bal hb r ∧
            absN l ++ absN r = absIns key v (absN n)) := by
  refine insertAuxB.induct deg key v
    (fun m => ∀ (lo hi : Option K) (hb : Nat),
      WFN lo hi m → NEok m → Bal hb m → loLe lo key → ltHi key hi →
      (∀ n', insertAuxB deg key v m = InsB.one n' →
          WFN lo hi n' ∧ NEok n' ∧ Bal hb n' ∧
            absN n' = absIns key v (absN m)) ∧
      (∀ l sep r, insertAuxB deg key v m = InsB.two l sep r →
          WFN lo (some sep) l ∧ WFN (some sep) hi r ∧ loLe lo sep ∧
            ltHi sep hi ∧ NEok l ∧ NEok r ∧ Bal hb l ∧ Bal hb r ∧
            absN l ++ absN r = absIns key v (absN m)))
    ?_ ?_ ?_ ?_ ?_ ?_ ?_ n
  · -- leaf, key present: overwrite in place
    intro es hmatch lo hi hb hwf hne hbal hklo hkhi
    cases hwf with
    | leaf hs hw =>
      cases hbal
      have hrepl : replaceVal key v es = absIns key v es :=
        replaceVal_eq_absIns hs hmatch
      have hwind : ∀ e ∈ absIns key v es, loLe lo e.1 ∧ ltHi e.1 hi := by
        intro e he
        rcases (absIns_sorted hs).2 e he with h1 | h1
        · rw [h1]; exact ⟨hklo, hkhi⟩
        · exact hw e h1
      simp only [insertAuxB, if_pos hmatch]
      constructor
      · intro n' h
        rw [InsB.one.injEq] at h
        subst h
        refine ⟨?_, ?_, Bal.leaf, ?_⟩
        · rw [hrepl]
          exact WFN.leaf (absIns_sorted hs).1 hwind
        · rw [hrepl]
          exact NEok.leaf (absIns_ne_nil _ _ _)
        · simp only [absN]
          exact hrepl
      · intro l sep r h
        simp at h
  · -- leaf, key absent, overflow: sorted insert then split
    intro es hmatch hover lo hi hb hwf hne hbal hklo hkhi
    cases hwf with
    | leaf hs hw =>
      cases hbal
      have hins : insertIntoLeaf key v es = absIns key v es :=
        insertIntoLeaf_eq_absIns hmatch
      have hwind : ∀ e ∈ absIns key v es, loLe lo e.1 ∧ ltHi e.1 hi := by
        intro e he
        rcases (absIns_sorted hs).2 e he with h1 | h1
        · rw [h1]; exact ⟨hklo, hkhi⟩
        · exact hw e h1
      rw [hins] at hover
      have hlen : 2 ≤ (absIns key v es).length := by
        simp only [maxLeafEntries] at hover
        omega
      obtain ⟨sep, hspl, hwl, hwr, hslo, hshi, hlne, hrne, happ⟩ :=
        splitLeaf_spec (absIns_sorted hs).1 hwind hlen
      simp only [insertAuxB, if_neg hmatch, hins, if_pos hover, hspl]
      constructor
      · intro n' h
        simp at h
      · intro l sep' r h
        rw [InsB.two.injEq] at h
        obtain ⟨h1, h2, h3⟩ := h
        subst h1
        subst h2
        subst h3
        refine ⟨hwl, hwr, hslo, hshi, NEok.leaf hlne, NEok.leaf hrne,
          Bal.leaf, Bal.leaf, ?_⟩
        simp only [absN]
        exact happ
  · -- leaf, key absent, no overflow
    intro es hmatch hover lo hi hb hwf hne hbal hklo hkhi
    cases hwf with
    | leaf hs hw =>
      cases hbal
      have hins : insertIntoLeaf key v es = absIns key v es :=
        insertIntoLeaf_eq_absIns hmatch
      have hwind : ∀ e ∈ absIns key v es, loLe lo e.1 ∧ ltHi e.1 hi := by
        intro e he
        rcases (absIns_sorted hs).2 e he with h1 | h1
        · rw [h1]; exact ⟨hklo, hkhi⟩
        · exact hw e h1
      simp only [insertAuxB, if_neg hmatch, if_neg hover]
      constructor
      · intro n' h
        rw [InsB.one.injEq] at h
        subst h
        refine ⟨?_, ?_, Bal.leaf, ?_⟩
        · rw [hins]
          exact WFN.leaf (absIns_sorted hs).1 hwind
        · rw [hins]
          exact NEok.leaf (absIns_ne_nil _ _ _)
        · simp only [absN]
          exact hins
      · intro l sep r h
        simp at h
  · -- inner, child insert returned a single node
    intro ks cs h c hrec ih lo hi hb hwf hne hbal hklo hkhi
    cases hwf with
    | inner hc =>
      cases hne with
      | inner hk hcne =>
        cases hbal with
        | inner hbc =>
          obtain ⟨hlt, loI, hiI, hWc, hloI, hhiI, habs, hP, hS, hset, hsplit⟩ :=
            routeSplitIns key lo hi ks cs hc hklo hkhi
          have hchild := (ih loI hiI _ hWc
            (NEokL_mem hcne _ (List.get_mem cs _ h))
            (BalL_mem hbc _ (List.get_mem cs _ h)) hloI hhiI).1 c hrec
          simp only [insertAuxB, dif_pos h, hrec]
          constructor
          · intro n' hres
            rw [InsB.one.injEq] at hres
            subst hres
            refine ⟨WFN.inner (hset c hchild.1), NEok.inner hk
              (NEokL_set hcne hchild.2.1),
              Bal.inner (BalL_set hbc hchild.2.2.1), ?_⟩
            simp only [absN]
            rw [absL_set h, hchild.2.2.2, habs]
            exact (absIns_decomp hP hS).symm
          · intro l sep r hres
            simp at hres
  · -- inner, child split, this node overflows: split it in turn
    intro ks cs h l sep r hrec hover ih lo hi hb hwf hne hbal hklo hkhi
    cases hwf with
    | inner hc =>
      cases hne with
      | inner hk hcne =>
        cases hbal with
        | inner hbc =>
          obtain ⟨hlt, loI, hiI, hWc, hloI, hhiI, habs, hP, hS, hset, hsplit⟩ :=
            routeSplitIns key lo hi ks cs hc hklo hkhi
          have hchild := (ih loI hiI _ hWc
            (NEokL_mem hcne _ (List.get_mem cs _ h))
            (BalL_mem hbc _ (List.get_mem cs _ h)) hloI hhiI).2 l sep r hrec
          obtain ⟨hWl, hWr, hseplo, hsephi, hNl, hNr, hBl, hBr, habs2⟩ := hchild
          have hWC2 := hsplit l sep r hWl hWr hseplo hsephi
          have hne2 : NEokL (cs.take (routeIdx key ks) ++
              l :: r :: cs.drop (routeIdx key ks + 1)) :=
            NEokL_append (NEokL_sublist (List.take_sublist _ _) hcne)
              (NEokL.cons hNl (NEokL.cons hNr
                (NEokL_sublist (List.drop_sublist _ _) hcne)))
          have hbal2 : BalL _ (cs.take (routeIdx key ks) ++
              l :: r :: cs.drop (routeIdx key ks + 1)) :=
            BalL_append (BalL_sublist (List.take_sublist _ _) hbc)
              (BalL.cons hBl (BalL.cons hBr
                (BalL_sublist (List.drop_sublist _ _) hbc)))
          have hlen3 : 3 ≤ (ks.take (routeIdx key ks) ++
              sep :: ks.drop (routeIdx key ks)).length := by
            simp only [maxInternalKeys] at hover
            omega
          obtain ⟨pk, hspl, hwl2, hwr2, hpklo, hpkhi, hnel2, hner2, hball2,
            hbalr2, habs3⟩ := splitInternal_spec hWC2 hne2 hbal2 hlen3
          have habs_cs2 : absL (cs.take (routeIdx key ks) ++
              l :: r :: cs.drop (routeIdx key ks + 1)) =
              absL (cs.take (routeIdx key ks)) ++ (absN l ++ absN r) ++
                absL (cs.drop (routeIdx key ks + 1)) := by
            rw [absL_append]
            simp only [absL]
            simp [List.append_assoc]
          simp only [insertAuxB, dif_pos h, hrec, if_pos hover, hspl]
          constructor
          · intro n' hres
            simp at hres
          · intro l' sep' r' hres
            rw [InsB.two.injEq] at hres
            obtain ⟨h1, h2, h3⟩ := hres
            subst h1
            subst h2
            subst h3
            refine ⟨hwl2, hwr2, hpklo, hpkhi, hnel2, hner2, hball2, hbalr2, ?_⟩
            simp only [absN]
            rw [habs3, habs_cs2, habs2, habs]
            exact (absIns_decomp hP hS).symm
  · -- inner, child split, fits: insert separator and right child
    intro ks cs h l sep r hrec hover ih lo hi hb hwf hne hbal hklo hkhi
    cases hwf with
    | inner hc =>
      cases hne with
      | inner hk hcne =>
        cases hbal with
        | inner hbc =>
          obtain ⟨hlt, loI, hiI, hWc, hloI, hhiI, habs, hP, hS, hset, hsplit⟩ :=
            routeSplitIns key lo hi ks cs hc hklo hkhi
          have hchild := (ih loI hiI _ hWc
            (NEokL_mem hcne _ (List.get_mem cs _ h))
            (BalL_mem hbc _ (List.get_mem cs _ h)) hloI hhiI).2 l sep r hrec
          obtain ⟨hWl, hWr, hseplo, hsephi, hNl, hNr, hBl, hBr, habs2⟩ := hchild
          have hWC2 := hsplit l sep r hWl hWr hseplo hsephi
          have hne2 : NEokL (cs.take (routeIdx key ks) ++
              l :: r :: cs.drop (routeIdx key ks + 1)) :=
            NEokL_append (NEokL_sublist (List.take_sublist _ _) hcne)
              (NEokL.cons hNl (NEokL.cons hNr
                (NEokL_sublist (List.drop_sublist _ _) hcne)))
          have hbal2 : BalL _ (cs.take (routeIdx key ks) ++
              l :: r :: cs.drop (routeIdx key ks + 1)) :=
            BalL_append (BalL_sublist (List.take_sublist _ _) hbc)
              (BalL.cons hBl (BalL.cons hBr
                (BalL_sublist (List.drop_sublist _ _) hbc)))
          have habs_cs2 : absL (cs.take (routeIdx key ks) ++
              l :: r :: cs.drop (routeIdx key ks + 1)) =
              absL (cs.take (routeIdx key ks)) ++ (absN l ++ absN r) ++
                absL (cs.drop (routeIdx key ks + 1)) := by
            rw [absL_append]
            simp only [absL]
            simp [List.append_assoc]
          simp only [insertAuxB, dif_pos h, hrec, if_neg hover]
          constructor
          · intro n' hres
            rw [InsB.one.injEq] at hres
            subst hres
            refine ⟨WFN.inner hWC2, NEok.inner (by simp) hne2,
              Bal.inner hbal2, ?_⟩
            simp only [absN]
            rw [habs_cs2, habs2, habs]
            exact (absIns_decomp hP hS).symm
          · intro l' sep' r' hres
            simp at hres
  · -- inner with the routed index out of range: impossible on WF frames
    intro ks cs hnroute lo hi hb hwf hne hbal hklo hkhi
    cases hwf with
    | inner hc =>
      exact absurd (show routeIdx key ks < cs.length by
        rw [WFC_length hc]
        exact Nat.lt_succ_of_le (routeIdx_le key ks)) hnroute

/-- The abstract sorted association list a tree stores. -/
def absT (t : BPT K V) : List (K × V) :=
  match t.root with
  | none => []
  | some n => absN n

/-- `Insert` at the tree level preserves the invariant and performs the
abstract sorted insert-or-replace. -/
theorem insertB_spec {t : BPT K V} (hwft : WFT t) (key : K) (v : V) :
    WFT (t.insertB key v) ∧ absT (t.insertB key v) = absIns key v (absT t) := by
  obtain ⟨hdeg, hroot⟩ := hwft
  match hr : t.root with
  | none =>
    refine ⟨?_, ?_⟩
    · simp only [WFT, BPT.insertB, hr]
      refine ⟨hdeg, WFN.leaf (List.pairwise_singleton _ _) ?_,
        NEok.leaf (by simp), 0, Bal.leaf⟩
      intro e he
      exact ⟨trivial, trivial⟩
    · simp only [BPT.insertB, hr, absT, absIns, absN]
  | some n =>
    rw [hr] at hroot
    obtain ⟨hwf, hne, hb, hbal⟩ := hroot
    have hspec := insertAuxB_spec hdeg key v n none none hb hwf hne hbal
      trivial trivial
    match hres : insertAuxB t.degree key v n with
    | InsB.one n' =>
      obtain ⟨hwf', hne', hbal', habs'⟩ := hspec.1 n' hres
      refine ⟨?_, ?_⟩
      · simp only [WFT, BPT.insertB, hr, hres]
        exact ⟨hdeg, hwf', hne', hb, hbal'⟩
      · simp only [BPT.insertB, hr, hres, absT]
        exact habs'
    | InsB.two l sep r =>
      obtain ⟨hWl, hWr, _, _, hNl, hNr, hBl, hBr, habs'⟩ := hspec.2 l sep r hres
      refine ⟨?_, ?_⟩
      · simp only [WFT, BPT.insertB, hr, hres]
        refine ⟨hdeg, WFN.inner (WFC.cons hWl trivial trivial (WFC.single hWr)),
          NEok.inner (by simp) (NEokL.cons hNl (NEokL.cons hNr NEokL.nil)),
          hb + 1, Bal.inner (BalL.cons hBl (BalL.cons hBr BalL.nil))⟩
      · simp only [BPT.insertB, hr, hres, absT, absN, absL, List.append_nil]
        exact habs'

/-- The leaf reached by `findLeaf` carries exactly the stored entries that are
not strictly on either side of the key: the abstraction splits around it. -/
theorem findLeaf_abs (key : K) (n : BNode K V) :
    ∀ (lo hi : Option K), WFN lo hi n → loLe lo key → ltHi key hi →
    ∃ P S, absN n = P ++ findLeafEntries key n ++ S ∧
      (∀ e ∈ P, e.1 < key) ∧ (∀ e ∈ S, key < e.1) := by
  refine findLeafEntries.induct key
    (fun m => ∀ (lo hi : Option K), WFN lo hi m → loLe lo key → ltHi key hi →
      ∃ P S, absN m = P ++ findLeafEntries key m ++ S ∧
        (∀ e ∈ P, e.1 < key) ∧ (∀ e ∈ S, key < e.1))
    ?_ ?_ ?_ n
  · intro es lo hi hwf hklo hkhi
    exact ⟨[], [], by simp [absN, findLeafEntries], by simp, by simp⟩
  · intro ks cs h ih lo hi hwf hklo hkhi
    cases hwf with
    | inner hc =>
      obtain ⟨hlt, loI, hiI, hWc, hloI, hhiI, habs, hP, hS, hset, hsplit⟩ :=
        routeSplitIns key lo hi ks cs hc hklo hkhi
      obtain ⟨P', S', heq, hP', hS'⟩ := ih loI hiI hWc hloI hhiI
      refine ⟨absL (cs.take (routeIdx key ks)) ++ P',
        S' ++ absL (cs.drop (routeIdx key ks + 1)), ?_, ?_, ?_⟩
      · simp only [absN, findLeafEntries, dif_pos h]
        rw [habs, heq]
        simp [List.append_assoc]
      · intro e he
        rcases List.mem_append.1 he with he | he
        · exact hP e he
        · exact hP' e he
      · intro e he
        rcases List.mem_append.1 he with he | he
        · exact hS' e he
        · exact hS e he
  · intro ks cs hnroute lo hi hwf hklo hkhi
    cases hwf with
    | inner hc =>
      exact absurd (show routeIdx key ks < cs.length by
        rw [WFC_length hc]
        exact Nat.lt_succ_of_le (routeIdx_le key ks)) hnroute

theorem lookupEntry_eq_none {key : K} {l : List (K × V)}
    (h : ∀ e ∈ l, e.1 ≠ key) : lookupEntry key l = none := by
  induction l with
  | nil => rfl
  | cons e es ih =>
    rw [lookupEntry, if_neg (h e (List.mem_cons_self _ _))]
    exact ih fun x hx => h x (List.mem_cons_of_mem _ hx)

theorem lookupEntry_append_left {key : K} {P R : List (K × V)}
    (hP : ∀ e ∈ P, e.1 ≠ key) :
    lookupEntry key (P ++ R) = lookupEntry key R := by
  induction P with
  | nil => rfl
  | cons e es ih =>
    rw [List.cons_append, lookupEntry, if_neg (hP e (List.mem_cons_self _ _))]
    exact ih fun x hx => hP x (List.mem_cons_of_mem _ hx)

theorem lookupEntry_append_right {key : K} {M S : List (K × V)}
    (hS : ∀ e ∈ S, e.1 ≠ key) :
    lookupEntry key (M ++ S) = lookupEntry key M := by
  induction M with
  | nil => exact lookupEntry_eq_none hS
  | cons e es ih =>
    rw [List.cons_append, lookupEntry, lookupEntry]
    split
    · rfl
    · exact ih

/-- `Search` agrees with association-list lookup on the abstraction. -/
theorem searchB_eq {t : BPT K V} (hwft : WFT t) (key : K) :
    t.searchB key = lookupEntry key (absT t) := by
  obtain ⟨hdeg, hroot⟩ := hwft
  match hr : t.root with
  | none => simp only [BPT.searchB, absT, hr, lookupEntry]
  | some n =>
    rw [hr] at hroot
    obtain ⟨P, S, heq, hP, hS⟩ :=
      findLeaf_abs key n none none hroot.1 trivial trivial
    simp only [BPT.searchB, absT, hr, heq]
    rw [lookupEntry_append_right fun e he => ne_of_gt (hS e he),
      lookupEntry_append_left fun e he => ne_of_lt (hP e he)]

theorem lookupEntry_absIns_same {key : K} {v : V} {l : List (K × V)} :
    lookupEntry key (absIns key v l) = some v := by
  induction l with
  | nil => simp [absIns, lookupEntry]
  | cons e es ih =>
    rw [absIns]
    by_cases h1 : e.1 < key
    · rw [if_pos h1, lookupEntry, if_neg (ne_of_lt h1)]
      exact ih
    · by_cases h2 : e.1 = key
      · rw [if_neg h1, if_pos h2, lookupEntry, if_pos rfl]
      · rw [if_neg h1, if_neg h2, lookupEntry, if_pos rfl]

theorem lookupEntry_absIns_other {key key' : K} {v : V} {l : List (K × V)}
    (hne : key ≠ key') :
    lookupEntry key (absIns key' v l) = lookupEntry key l := by
  induction l with
  | nil =>
    simp only [absIns, lookupEntry]
    rw [if_neg (fun h : key' = key => hne h.symm)]
  | cons e es ih =>
    rw [absIns]
    by_cases h1 : e.1 < key'
    · rw [if_pos h1, lookupEntry, lookupEntry]
      split
      · rfl
      · exact ih
    · by_cases h2 : e.1 = key'
      · rw [if_neg h1, if_pos h2, lookupEntry, lookupEntry,
          if_neg (fun h : key' = key => hne h.symm),
          if_neg (show ¬ e.1 = key by rw [h2]; exact fun h => hne h.symm)]
      · rw [if_neg h1, if_neg h2, lookupEntry,
          if_neg (fun h : key' = key => hne h.symm)]

mutual

/-- Concatenating the leaf chain of a subtree yields its abstraction: the
`next` links enumerate every stored entry once, in storage order. -/
theorem leavesList_flatten : ∀ (n : BNode K V), (leavesList n).flatten = absN n
  | .leaf es => by simp [leavesList, absN]
  | .inner ks cs => by
    simp only [leavesList, absN]
    exact leavesListL_flatten cs

theorem leavesListL_flatten : ∀ (cs : List (BNode K V)),
    (leavesListL cs).flatten = absL cs
  | [] => by simp [leavesListL, absL]
  | c :: cs => by
    simp only [leavesListL, absL, List.flatten_append]
    rw [leavesList_flatten c, leavesListL_flatten cs]

end

theorem leavesListL_append (l1 l2 : List (BNode K V)) :
    leavesListL (l1 ++ l2) = leavesListL l1 ++ leavesListL l2 := by
  induction l1 with
  | nil => simp [leavesListL]
  | cons c cs ih => simp [leavesListL, ih]

/-- `All` returns exactly the abstraction (no well-formedness needed: the
chain is the left-to-right leaf order by construction). -/
theorem allB_eq (t : BPT K V) : t.allB = absT t := by
  match hr : t.root with
  | none => simp [BPT.allB, absT, hr]
  | some n => simp only [BPT.allB, absT, hr, leavesList_flatten]

/-- `Len` counts the stored entries. -/
theorem lenB_eq (t : BPT K V) : t.lenB = (absT t).length := by
  match hr : t.root with
  | none => simp [BPT.lenB, absT, hr]
  | some n =>
    simp only [BPT.lenB, absT, hr, ← leavesList_flatten, List.length_flatten]

/-- The leaf chain splits at the leaf `findLeaf` reaches: the leaves before it
hold only keys strictly below the search key. -/
theorem leavesFrom_decomp (key : K) (n : BNode K V) :
    ∀ (lo hi : Option K), WFN lo hi n → loLe lo key → ltHi key hi →
    ∃ PL, leavesList n = PL ++ leavesFrom key n ∧
      ∀ es ∈ PL, ∀ e ∈ es, e.1 < key := by
  refine leavesFrom.induct key
    (fun m => ∀ (lo hi : Option K), WFN lo hi m → loLe lo key → ltHi key hi →
      ∃ PL, leavesList m = PL ++ leavesFrom key m ∧
        ∀ es ∈ PL, ∀ e ∈ es, e.1 < key)
    ?_ ?_ ?_ n
  · intro es lo hi hwf hklo hkhi
    exact ⟨[], by simp [leavesList, leavesFrom], by simp⟩
  · intro ks cs h ih lo hi hwf hklo hkhi
    cases hwf with
    | inner hc =>
      obtain ⟨hlt, loI, hiI, hWc, hloI, hhiI, habs, hP, hS, hset, hsplit⟩ :=
        routeSplitIns key lo hi ks cs hc hklo hkhi
      obtain ⟨PL', heq, hPL'⟩ := ih loI hiI hWc hloI hhiI
      refine ⟨leavesListL (cs.take (routeIdx key ks)) ++ PL', ?_, ?_⟩
      · have hsplit_cs : cs = cs.take (routeIdx key ks) ++
            cs.get ⟨routeIdx key ks, h⟩ :: cs.drop (routeIdx key ks + 1) := by
          conv_lhs => rw [← List.take_append_drop (routeIdx key ks) cs]
          rw [List.drop_eq_get_cons h]
        simp only [leavesList, leavesFrom, dif_pos h]
        conv_lhs => rw [hsplit_cs]
        rw [leavesListL_append]
        simp only [leavesListL]
        rw [heq]
        simp [List.append_assoc]
      · intro es hes e he
        rcases List.mem_append.1 hes with hes | hes
        · have hmem : e ∈ absL (cs.take (routeIdx key ks)) := by
            rw [← leavesListL_flatten]
            exact List.mem_flatten.2 ⟨es, hes, he⟩
          exact hP e hmem
        · exact hPL' es hes e he
  · intro ks cs hnroute lo hi hwf hklo hkhi
    cases hwf with
    | inner hc =>
      exact absurd (show routeIdx key ks < cs.length by
        rw [WFC_length hc]
        exact Nat.lt_succ_of_le (routeIdx_le key ks)) hnroute

theorem rangeScan_spec {lo hi : K} {es : List (K × V)}
    (hs : List.Pairwise (fun a b : K × V => a.1 < b.1) es) :
    (rangeScan lo hi es).1 =
      es.filter (fun e => decide (lo ≤ e.1 ∧ e.1 ≤ hi)) ∧
    ((rangeScan lo hi es).2 = true → ∃ e ∈ es, hi < e.1) := by
  induction es with
  | nil => exact ⟨rfl, by simp [rangeScan]⟩
  | cons e es ih =>
    obtain ⟨hse, hw⟩ := List.pairwise_cons.1 hs
    obtain ⟨ih1, ih2⟩ := ih hw
    by_cases h1 : lo ≤ e.1 ∧ e.1 ≤ hi
    · rw [rangeScan, if_pos h1]
      refine ⟨?_, ?_⟩
      · rw [List.filter_cons, if_pos (by simpa using h1), ih1]
      · intro hf
        obtain ⟨x, hx, hxh⟩ := ih2 hf
        exact ⟨x, List.mem_cons_of_mem _ hx, hxh⟩
    · by_cases h2 : hi < e.1
      · rw [rangeScan, if_neg h1, if_pos h2]
        refine ⟨?_, fun _ => ⟨e, List.mem_cons_self _ _, h2⟩⟩
        rw [List.filter_cons, if_neg (by
          simp only [decide_eq_true_eq, not_and]
          intro _
          exact not_le.2 h2)]
        symm
        rw [List.filter_eq_nil_iff]
        intro x hx
        have := hse x hx
        simp only [decide_eq_true_eq, not_and]
        intro _
        exact not_le.2 (lt_trans h2 this)
      · rw [rangeScan, if_neg h1, if_neg h2]
        refine ⟨?_, ?_⟩
        · rw [List.filter_cons, if_neg (by simpa using h1), ih1]
        · intro hf
          obtain ⟨x, hx, hxh⟩ := ih2 hf
          exact ⟨x, List.mem_cons_of_mem _ hx, hxh⟩

theorem rangeLoop_eq {lo hi : K} (chain : List (List (K × V)))
    (hs : List.Pairwise (fun a b : K × V => a.1 < b.1) chain.flatten) :
    rangeLoop lo hi chain =
      chain.flatten.filter (fun e => decide (lo ≤ e.1 ∧ e.1 ≤ hi)) := by
  induction chain with
  | nil => simp [rangeLoop]
  | cons es rest ih =>
    rw [List.flatten_cons] at hs
    rw [List.pairwise_append] at hs
    obtain ⟨hs1, hs2, hcross⟩ := hs
    obtain ⟨hscan1, hscan2⟩ :
        (rangeScan lo hi es).1 =
          es.filter (fun e => decide (lo ≤ e.1 ∧ e.1 ≤ hi)) ∧
        ((rangeScan lo hi es).2 = true → ∃ e ∈ es, hi < e.1) :=
      rangeScan_spec hs1
    rw [rangeLoop, List.flatten_cons, List.filter_append]
    by_cases hf : (rangeScan lo hi es).2 = true
    · rw [if_pos hf, hscan1]
      obtain ⟨w, hw, hwh⟩ := hscan2 hf
      have : rest.flatten.filter (fun e => decide (lo ≤ e.1 ∧ e.1 ≤ hi)) = [] := by
        rw [List.filter_eq_nil_iff]
        intro x hx
        simp only [decide_eq_true_eq, not_and]
        intro _
        exact not_le.2 (lt_trans hwh (hcross w hw x hx))
      rw [this, List.append_nil]
    · rw [if_neg hf, hscan1, ih hs2]

/-- `Range` on a well-formed tree returns exactly the entries whose keys lie
in the closed interval `[lo, hi]`, as the corresponding filter of the sorted
abstraction (hence in strictly ascending key order). -/
theorem rangeB_eq {t : BPT K V} (hwft : WFT t) (lo hi : K) :
    t.rangeB lo hi = (absT t).filter (fun e => decide (lo ≤ e.1 ∧ e.1 ≤ hi)) := by
  obtain ⟨hdeg, hroot⟩ := hwft
  match hr : t.root with
  | none => simp [BPT.rangeB, absT, hr]
  | some n =>
    rw [hr] at hroot
    obtain ⟨hwf, hne, hb, hbal⟩ := hroot
    obtain ⟨PL, heq, hPL⟩ := leavesFrom_decomp lo n none none hwf trivial trivial
    have habs : absN n = PL.flatten ++ (leavesFrom lo n).flatten := by
      rw [← List.flatten_append, ← heq, leavesList_flatten]
    have hsorted := (absN_windows none none n hwf).1
    rw [habs] at hsorted
    rw [List.pairwise_append] at hsorted
    simp only [BPT.rangeB, absT, hr]
    rw [rangeLoop_eq _ hsorted.2.1, habs, List.filter_append]
    have hnil : PL.flatten.filter (fun e => decide (lo ≤ e.1 ∧ e.1 ≤ hi)) = [] := by
      rw [List.filter_eq_nil_iff]
      intro x hx
      obtain ⟨es, hes, hxe⟩ := List.mem_flatten.1 hx
      simp only [decide_eq_true_eq, not_and]
      intro hlo
      exact absurd hlo (not_le.2 (hPL es hes x hxe))
    rw [hnil, List.nil_append]

/-! ## Deletion: frame surgery around a deficient child -/

theorem shape_of_bal0 {n : BNode K V} (h : Bal 0 n) : ∃ es, n = BNode.leaf es := by
  cases n with
  | leaf es => exact ⟨es, rfl⟩
  | inner ks cs => cases h

theorem shape_of_balS {h : Nat} {n : BNode K V} (hb : Bal (h + 1) n) :
    ∃ ks cs, n = BNode.inner ks cs := by
  cases n with
  | leaf es => cases hb
  | inner ks cs => exact ⟨ks, cs, rfl⟩

theorem set_set_adj {X : Type} :
    ∀ (cs : List X) (i : Nat), i + 1 < cs.length → ∀ (a b : X),
      (cs.set i a).set (i + 1) b = cs.take i ++ a :: b :: cs.drop (i + 2)
  | [], i, h, a, b => by simp at h
  | c :: cs, 0, h, a, b => by
    cases cs with
    | nil => simp at h
    | cons c1 rest => simp
  | c :: cs, i + 1, h, a, b => by
    have := set_set_adj cs i (by simpa using h) a b
    simp only [List.set_cons_succ, List.take_succ_cons, List.cons_append,
      List.drop_succ_cons]
    rw [this]

theorem set_erase_adj {X : Type} :
    ∀ (cs : List X) (i : Nat), i + 1 < cs.length → ∀ (m : X),
      (cs.set i m).eraseIdx (i + 1) = cs.take i ++ m :: cs.drop (i + 2)
  | [], i, h, m => by simp at h
  | c :: cs, 0, h, m => by
    cases cs with
    | nil => simp at h
    | cons c1 rest => simp [List.eraseIdx]
  | c :: cs, i + 1, h, m => by
    have := set_erase_adj cs i (by simpa using h) m
    simp only [List.set_cons_succ, List.take_succ_cons, List.cons_append,
      List.drop_succ_cons, List.eraseIdx_cons_succ]
    rw [this]

theorem two_view {X : Type} (cs : List X) (i : Nat) (hpos : 0 < i)
    (hi : i < cs.length) :
    ∃ (hp : i - 1 < cs.length),
      cs = cs.take (i - 1) ++ cs.get ⟨i - 1, hp⟩ :: cs.get ⟨i, hi⟩ ::
        cs.drop (i + 1) := by
  have hp : i - 1 < cs.length := by omega
  refine ⟨hp, ?_⟩
  conv_lhs => rw [← List.take_append_drop (i - 1) cs]
  rw [List.drop_eq_get_cons hp]
  congr 1
  congr 1
  have : i - 1 + 1 = i := by omega
  rw [this, List.drop_eq_get_cons hi]

/-- Frame surgery at a child with a left neighbor: the separator between
them can be replaced together with both nodes (a borrow), or removed with the
pair merged into one node. -/
theorem WFC_holeL :
    ∀ (ks : List K) (idx : Nat) (lo hi : Option K) (cs : List (BNode K V)),
      WFC lo hi ks cs → 0 < idx → ∀ (hidx : idx < cs.length),
      ∃ (hk1 : idx - 1 < ks.length) (hp : idx - 1 < cs.length)
        (lo' hi' : Option K),
        WFN lo' (some (ks.get ⟨idx - 1, hk1⟩)) (cs.get ⟨idx - 1, hp⟩) ∧
        WFN (some (ks.get ⟨idx - 1, hk1⟩)) hi' (cs.get ⟨idx, hidx⟩) ∧
        loLe lo' (ks.get ⟨idx - 1, hk1⟩) ∧
        (∀ x : K, x < ks.get ⟨idx - 1, hk1⟩ → ltHi x hi') ∧
        (∀ ls' c' k', WFN lo' (some k') ls' → WFN (some k') hi' c' →
            loLe lo' k' → ltHi k' hi' →
            WFC lo hi (ks.set (idx - 1) k') ((cs.set (idx - 1) ls').set idx c')) ∧
        (∀ m', WFN lo' hi' m' →
            WFC lo hi (ks.eraseIdx (idx - 1)) ((cs.set (idx - 1) m').eraseIdx idx)) := by
  intro ks
  induction ks with
  | nil =>
    intro idx lo hi cs h hpos hidx
    cases h with
    | single h1 =>
      simp only [List.length_cons, List.length_nil] at hidx
      omega
  | cons k krest ih =>
    intro idx lo hi cs h hpos hidx
    cases h with
    | @cons _ _ _ _ c0 crest hWc0 hlok hkhi ht =>
      match idx, hpos with
      | 1, _ =>
        cases crest with
        | nil => simp at hidx
        | cons c1 rest =>
          cases ht with
          | single h1 =>
            refine ⟨by simp, by simp, lo, hi, hWc0, h1, hlok,
              fun x hx => ltHi_trans_lt hx hkhi, ?_, ?_⟩
            · intro ls' c' k' hls' hc' hlok' hk'hi
              exact WFC.cons hls' hlok' hk'hi (WFC.single hc')
            · intro m' hm'
              exact WFC.single hm'
          | @cons _ _ _ _ _ _ h1 hlo1 hhi1 ht1 =>
            refine ⟨by simp, by simp, lo, _, hWc0, h1, hlok,
              fun x hx => lt_of_lt_of_le hx hlo1, ?_, ?_⟩
            · intro ls' c' k' hls' hc' hlok' hk'hi
              exact WFC.cons hls' hlok' (ltHi_trans_lt hk'hi hhi1)
                (WFC.cons hc' (le_of_lt hk'hi) hhi1 ht1)
            · intro m' hm'
              exact WFC.cons hm' (loLe_trans hlok hlo1) hhi1 ht1
      | (j+2), _ =>
        have hidx' : j + 1 < crest.length := by
          simp only [List.length_cons] at hidx
          omega
        obtain ⟨hk1, hp, lo', hi', hL, hC, hlo', hhi', hrepl, hmerge⟩ :=
          ih (j + 1) (some k) hi crest ht (by omega) hidx'
        refine ⟨by simp only [List.length_cons]; omega,
          by simp only [List.length_cons]; omega, lo', hi', hL, hC, hlo',
          hhi', ?_, ?_⟩
        · intro ls' c' k' hls' hc' hlok' hk'hi
          exact WFC.cons hWc0 hlok hkhi (hrepl ls' c' k' hls' hc' hlok' hk'hi)
        · intro m' hm'
          exact WFC.cons hWc0 hlok hkhi (hmerge m' hm')

/-- Frame surgery at a child with a right neighbor: the separator between
them can be replaced together with both nodes (a borrow), or removed with the
pair merged into one node. -/
theorem WFC_holeR :
    ∀ (ks : List K) (idx : Nat) (lo hi : Option K) (cs : List (BNode K V)),
      WFC lo hi ks cs → ∀ (hidx1 : idx + 1 < cs.length),
      ∃ (hki : idx < ks.length) (hp : idx < cs.length) (lo' hi' : Option K),
        WFN lo' (some (ks.get ⟨idx, hki⟩)) (cs.get ⟨idx, hp⟩) ∧
        WFN (some (ks.get ⟨idx, hki⟩)) hi' (cs.get ⟨idx + 1, hidx1⟩) ∧
        loLe lo' (ks.get ⟨idx, hki⟩) ∧
        (∀ c' rs' k', WFN lo' (some k') c' → WFN (some k') hi' rs' →
            loLe lo' k' → ltHi k' hi' →
            WFC lo hi (ks.set idx k') ((cs.set idx c').set (idx + 1) rs')) ∧
        (∀ m', WFN lo' hi' m' →
            WFC lo hi (ks.eraseIdx idx) ((cs.set idx m').eraseIdx (idx + 1))) := by
  intro ks
  induction ks with
  | nil =>
    intro idx lo hi cs h hidx1
    cases h with
    | single h1 =>
      simp only [List.length_cons, List.length_nil] at hidx1
      omega
  | cons k krest ih =>
    intro idx lo hi cs h hidx1
    cases h with
    | @cons _ _ _ _ c0 crest hWc0 hlok hkhi ht =>
      match idx with
      | 0 =>
        cases crest with
        | nil => simp at hidx1
        | cons c1 rest =>
          cases ht with
          | single h1 =>
            refine ⟨by simp, by simp, lo, hi, hWc0, h1, hlok, ?_, ?_⟩
            · intro c' rs' k' hc' hrs' hlok' hk'hi
              exact WFC.cons hc' hlok' hk'hi (WFC.single hrs')
            · intro m' hm'
              exact WFC.single hm'
          | @cons _ _ _ _ _ _ h1 hlo1 hhi1 ht1 =>
            refine ⟨by simp, by simp, lo, _, hWc0, h1, hlok, ?_, ?_⟩
            · intro c' rs' k' hc' hrs' hlok' hk'hi
              exact WFC.cons hc' hlok' (ltHi_trans_lt hk'hi hhi1)
                (WFC.cons hrs' (le_of_lt hk'hi) hhi1 ht1)
            · intro m' hm'
              exact WFC.cons hm' (loLe_trans hlok hlo1) hhi1 ht1
      | (j+1) =>
        have hidx' : j + 1 < crest.length := by
          simp only [List.length_cons] at hidx1
          omega
        obtain ⟨hki, hp, lo', hi', hC, hR, hlo', hrepl, hmerge⟩ :=
          ih j (some k) hi crest ht hidx'
        refine ⟨by simp only [List.length_cons]; omega,
          by simp only [List.length_cons]; omega, lo', hi', hC, hR, hlo',
          ?_, ?_⟩
        · intro c' rs' k' hc' hrs' hlok' hk'hi
          exact WFC.cons hWc0 hlok hkhi (hrepl c' rs' k' hc' hrs' hlok' hk'hi)
        · intro m' hm'
          exact WFC.cons hWc0 hlok hkhi (hmerge m' hm')

/-- The relaxed nonemptiness a deficient node still satisfies after a delete:
every strict subnode is intact (only the node's own occupancy dropped). -/
def NEsub : BNode K V → Prop
  | .leaf _ => True
  | .inner _ cs => NEokL cs

theorem get_mem_take {X : Type} (l : List X) (j m : Nat) (hj : j < l.length)
    (hjm : j < m) : l.get ⟨j, hj⟩ ∈ l.take m := by
  have h2 : j < (l.take m).length := by simp; omega
  have h3 : (l.take m).get ⟨j, h2⟩ = l.get ⟨j, hj⟩ := by simp [List.get_take]
  rw [← h3]
  exact List.get_mem _ _ _

/-- The snoc view of a frame: the last separator cuts off the last child. -/
theorem WFC_snoc :
    ∀ (ks : List K) (lo hi : Option K) (cs : List (BNode K V)),
      WFC lo hi ks cs → NEokL cs → ∀ (hk : ks ≠ []),
      ∃ (hc : cs ≠ []),
        WFC lo (some (ks.getLast hk)) ks.dropLast cs.dropLast ∧
        WFN (some (ks.getLast hk)) hi (cs.getLast hc) ∧
        loLe lo (ks.getLast hk) ∧ ltHi (ks.getLast hk) hi := by
  intro ks
  induction ks with
  | nil => intro lo hi cs h hne hk; exact absurd rfl hk
  | cons k krest ih =>
    intro lo hi cs h hne hk
    cases h with
    | @cons _ _ _ _ c0 crest hWc0 hlok hkhi ht =>
      cases hne with
      | cons hc0 hcrest =>
        cases krest with
        | nil =>
          cases ht with
          | single h1 =>
            refine ⟨by simp, ?_, ?_, hlok, hkhi⟩
            · simpa using WFC.single hWc0
            · simpa using h1
        | cons k1 krest' =>
          obtain ⟨hc, hdrop, hlast, hlolast, hlasthi⟩ :=
            ih (some k) hi _ ht hcrest (by simp)
          have hcrne : crest ≠ [] := by
            have := WFC_length ht
            intro hcon
            rw [hcon] at this
            simp at this
          have hstrict : k < (k1 :: krest').getLast (by simp) :=
            WFC_lt hdrop (NEokL_sublist (List.dropLast_sublist _) hcrest)
          refine ⟨by simp, ?_, ?_, loLe_of_lt hlok hstrict, hlasthi⟩
          · have hgl : (k :: k1 :: krest').getLast (by simp) =
                (k1 :: krest').getLast (by simp) := by
              rw [List.getLast_cons]
            have hdl : (k :: k1 :: krest').dropLast = k :: (k1 :: krest').dropLast := rfl
            have hdlc : (c0 :: crest).dropLast = c0 :: crest.dropLast := by
              cases crest with
              | nil => exact absurd rfl hcrne
              | cons x xs => rfl
            rw [hgl, hdl, hdlc]
            exact WFC.cons hWc0 hlok (show ltHi k _ from hstrict) hdrop
          · have hgl : (k :: k1 :: krest').getLast (by simp) =
                (k1 :: krest').getLast (by simp) := by
              rw [List.getLast_cons]
            have hglc : (c0 :: crest).getLast (by simp) =
                crest.getLast hcrne := List.getLast_cons hcrne
            rw [hgl, hglc]
            exact hlast

/-- Extending a frame on the right with one separator and child. -/
theorem WFC_snocExt :
    ∀ (ks : List K) (lo : Option K) (s : K) (b' : Option K)
      (cs : List (BNode K V)) (c : BNode K V),
      WFC lo (some s) ks cs → WFN (some s) b' c → loLe lo s → ltHi s b' →
      WFC lo b' (ks ++ [s]) (cs ++ [c]) := by
  intro ks
  induction ks with
  | nil =>
    intro lo s b' cs c h hc hlos hsb
    cases h with
    | single h1 => exact WFC.cons h1 hlos hsb (WFC.single hc)
  | cons k krest ih =>
    intro lo s b' cs c h hc hlos hsb
    cases h with
    | @cons _ _ _ _ c0 crest hWc0 hlok hkhi ht =>
      exact WFC.cons hWc0 hlok (ltHi_trans_lt hkhi hsb)
        (ih (some k) s b' crest c ht hc (le_of_lt hkhi) hsb)

/-- Gluing two adjacent frames with the separator between them. -/
theorem WFC_glue :
    ∀ (lks : List K) (lo mid hi : Option K) (s : K) (lcs : List (BNode K V))
      (nks : List K) (ncs : List (BNode K V)),
      WFC lo (some s) lks lcs → WFC (some s) hi nks ncs →
      loLe lo s → ltHi s hi →
      WFC lo hi (lks ++ s :: nks) (lcs ++ ncs) := by
  intro lks
  induction lks with
  | nil =>
    intro lo mid hi s lcs nks ncs hl hr hlos hshi
    cases hl with
    | single h1 => exact WFC.cons h1 hlos hshi hr
  | cons k krest ih =>
    intro lo mid hi s lcs nks ncs hl hr hlos hshi
    cases hl with
    | @cons _ _ _ _ c0 crest hWc0 hlok hkhi ht =>
      exact WFC.cons hWc0 hlok (ltHi_trans_lt hkhi hshi)
        (ih (some k) mid hi s crest nks ncs ht hr (le_of_lt hkhi) hshi)

/-- `rebalanceLeaf` (seen from the parent frame) repairs the deficient leaf
child at `idx` without changing the stored entries and restores nonemptiness
of every child, preserving well-formedness and balance. -/
theorem rebalanceLeafAt_spec {deg : Nat} (hdeg : 2 ≤ deg) {lo hi : Option K}
    {ks : List K} {cs : List (BNode K V)} {idx : Nat} {es : List (K × V)}
    (hwfc : WFC lo hi ks cs) (hidx : idx < cs.length)
    (hchild : cs.get ⟨idx, hidx⟩ = BNode.leaf es)
    (hneL : NEokL (cs.take idx)) (hneR : NEokL (cs.drop (idx + 1)))
    (hbal : BalL 0 cs) (hk : ks ≠ []) :
    WFC lo hi (rebalanceLeafAt deg ks cs idx es).1
      (rebalanceLeafAt deg ks cs idx es).2 ∧
    absL (rebalanceLeafAt deg ks cs idx es).2 = absL cs ∧
    BalL 0 (rebalanceLeafAt deg ks cs idx es).2 ∧
    NEokL (rebalanceLeafAt deg ks cs idx es).2 := by
  have hlen := WFC_length hwfc
  have hcs2 : 2 ≤ cs.length := by
    rw [hlen]
    cases ks with
    | nil => exact absurd rfl hk
    | cons a b => simp
  unfold rebalanceLeafAt
  split
  · -- borrow from the left sibling
    next hG1 =>
    obtain ⟨hpos, hbig⟩ := hG1
    obtain ⟨j, rfl⟩ : ∃ j, idx = j + 1 := ⟨idx - 1, by omega⟩
    obtain ⟨hk1, hp, lo', hi', hL, hC, hlo', hdown, hrepl, hmerge⟩ :=
      WFC_holeL ks (j + 1) lo hi cs hwfc hpos hidx
    obtain ⟨lses, hlsf⟩ := shape_of_bal0 (BalL_mem hbal _ (List.get_mem cs _ hp))
    have hgetD : cs.getD (j + 1 - 1) (BNode.leaf []) = cs.get ⟨j + 1 - 1, hp⟩ :=
      List.getD_eq_get cs _ hp
    rw [hgetD, hlsf] at hbig
    simp only [leafEntriesOf, minLeafEntries] at hbig
    have hlsne : lses ≠ [] := by
      intro hcon
      rw [hcon] at hbig
      simp only [List.length_nil] at hbig
      omega
    rw [hchild] at hC
    rw [hlsf] at hL
    cases hL with
    | leaf hLs hLw =>
    cases hC with
    | leaf hCs hCw =>
    have hbmem : lses.getLast hlsne ∈ lses := List.getLast_mem hlsne
    have hbsep : (lses.getLast hlsne).1 < ks.get ⟨j, hk1⟩ := (hLw _ hbmem).2
    split
    · next borrowed heq =>
      rw [hgetD, hlsf] at heq
      simp only [leafEntriesOf] at heq
      rw [List.getLast?_eq_getLast lses hlsne] at heq
      injection heq with heq
      subst heq
      rw [hgetD, hlsf]
      simp only [leafEntriesOf]
      simp only [Nat.add_sub_cancel]
      have hset := set_set_adj cs j (by omega) (BNode.leaf lses.dropLast)
        (BNode.leaf (lses.getLast hlsne :: es))
      rw [show j + 2 = j + 1 + 1 from by omega] at hset
      obtain ⟨hp2, hview⟩ := two_view cs (j + 1) hpos hidx
      have hcross : ∀ a ∈ lses.dropLast, a.1 < (lses.getLast hlsne).1 := by
        have := hLs
        conv at this => rw [← List.dropLast_concat_getLast hlsne]
        rw [List.pairwise_append] at this
        intro a ha
        exact this.2.2 a ha _ (List.mem_singleton_self _)
      have hWls' : WFN lo' (some (lses.getLast hlsne).1)
          (BNode.leaf lses.dropLast) := by
        refine WFN.leaf (hLs.sublist (List.dropLast_sublist _)) ?_
        intro e he
        exact ⟨(hLw e ((List.dropLast_sublist _).mem he)).1, hcross e he⟩
      have hWc' : WFN (some (lses.getLast hlsne).1) hi'
          (BNode.leaf (lses.getLast hlsne :: es)) := by
        refine WFN.leaf ?_ ?_
        · rw [List.pairwise_cons]
          exact ⟨fun e he => lt_of_lt_of_le hbsep (hCw e he).1, hCs⟩
        · intro e he
          rcases List.mem_cons.1 he with rfl | he
          · exact ⟨le_refl _, hdown _ hbsep⟩
          · exact ⟨le_of_lt (lt_of_lt_of_le hbsep (hCw e he).1), (hCw e he).2⟩
      refine ⟨hrepl _ _ _ hWls' hWc' (hLw _ hbmem).1 (hdown _ hbsep), ?_, ?_, ?_⟩
      · rw [hset]
        conv_rhs => rw [hview, hchild, hlsf]
        simp only [absL_append, absL, absN, List.append_assoc, List.append_nil]
        rw [show j + 1 - 1 = j from by omega]
        conv_rhs => rw [← List.dropLast_concat_getLast hlsne]
        simp [List.append_assoc]
      · rw [hset]
        exact BalL_append (BalL_sublist (List.take_sublist _ _) hbal)
          (BalL.cons Bal.leaf (BalL.cons Bal.leaf
            (BalL_sublist (List.drop_sublist _ _) hbal)))
      · rw [hset]
        refine NEokL_append ?_ (NEokL.cons ?_ (NEokL.cons (NEok.leaf (by simp)) hneR))
        · refine NEokL_sublist ?_ hneL
          rw [show cs.take j = (cs.take (j + 1)).take j by
            rw [List.take_take]; congr 1; omega]
          exact List.take_sublist _ _
        · refine NEok.leaf ?_
          have : lses.dropLast.length = lses.length - 1 := List.length_dropLast _
          intro hcon
          rw [hcon] at this
          simp at this
          omega
    · next heq =>
      rw [hgetD, hlsf] at heq
      simp only [leafEntriesOf] at heq
      rw [List.getLast?_eq_getLast lses hlsne] at heq
      cases heq
  · -- no left borrow
    next hG1 =>
    split
    · -- borrow from the right sibling
      next hG2 =>
      obtain ⟨hlt1, hbig⟩ := hG2
      have hidx1 : idx + 1 < cs.length := by omega
      obtain ⟨hki, hp, lo', hi', hC, hR, hlo', hrepl, hmerge⟩ :=
        WFC_holeR ks idx lo hi cs hwfc hidx1
      obtain ⟨rses, hrsf⟩ :=
        shape_of_bal0 (BalL_mem hbal _ (List.get_mem cs _ hidx1))
      have hgetD : cs.getD (idx + 1) (BNode.leaf []) = cs.get ⟨idx + 1, hidx1⟩ :=
        List.getD_eq_get cs _ hidx1
      rw [hgetD, hrsf] at hbig
      simp only [leafEntriesOf, minLeafEntries] at hbig
      have hrs2 : 2 ≤ rses.length := by omega
      obtain ⟨b, r1, rs2, hbr⟩ : ∃ b r1 t, rses = b :: r1 :: t := by
        match rses, hrs2 with
        | a :: c :: t, _ => exact ⟨a, c, t, rfl⟩
      rw [hchild] at hC
      rw [hrsf, hbr] at hR
      cases hC with
      | leaf hCs hCw =>
      cases hR with
      | leaf hRs hRw =>
      have hsep_b : ks.get ⟨idx, hki⟩ ≤ b.1 :=
        (hRw b (List.mem_cons_self _ _)).1
      have hb_r1 : b.1 < r1.1 :=
        (List.pairwise_cons.1 hRs).1 r1 (List.mem_cons_self _ _)
      split
      · next b' r1' rs2' heq =>
        rw [hgetD, hrsf] at heq
        simp only [leafEntriesOf] at heq
        rw [hbr] at heq
        injection heq with h1 heq
        injection heq with h2 h3
        rw [← h1, ← h2, ← h3]
        have hset := set_set_adj cs idx hidx1 (BNode.leaf (es ++ [b]))
          (BNode.leaf (r1 :: rs2))
        rw [show idx + 2 = idx + 1 + 1 from by omega] at hset
        obtain ⟨hp2, hview⟩ := two_view cs (idx + 1) (by omega) hidx1
        have hchild2 : cs.get ⟨idx + 1 - 1, hp2⟩ = BNode.leaf es := hchild
        have hes_sep : ∀ e ∈ es, e.1 < ks.get ⟨idx, hki⟩ :=
          fun e he => (hCw e he).2
        have hWc' : WFN lo' (some r1.1) (BNode.leaf (es ++ [b])) := by
          refine WFN.leaf ?_ ?_
          · rw [List.pairwise_append]
            refine ⟨hCs, List.pairwise_singleton _ _, ?_⟩
            intro a ha b2 hb2
            rw [List.mem_singleton] at hb2
            subst hb2
            exact lt_of_lt_of_le (hes_sep a ha) hsep_b
          · intro e he
            rcases List.mem_append.1 he with he | he
            · exact ⟨(hCw e he).1,
                lt_trans (lt_of_lt_of_le (hes_sep e he) hsep_b) hb_r1⟩
            · rw [List.mem_singleton] at he
              subst he
              exact ⟨loLe_trans hlo' hsep_b, hb_r1⟩
        have hWrs' : WFN (some r1.1) hi' (BNode.leaf (r1 :: rs2)) := by
          refine WFN.leaf ((List.pairwise_cons.1 hRs).2) ?_
          intro e he
          rcases List.mem_cons.1 he with he1 | he
          · rw [he1]
            exact ⟨le_refl _, (hRw r1 (List.mem_cons_of_mem _
              (List.mem_cons_self _ _))).2⟩
          · refine ⟨le_of_lt ((List.pairwise_cons.1
              ((List.pairwise_cons.1 hRs).2)).1 e he), (hRw e
                (List.mem_cons_of_mem _ (List.mem_cons_of_mem _ he))).2⟩
        refine ⟨hrepl _ _ _ hWc' hWrs'
          (loLe_trans hlo' (le_of_lt (lt_of_le_of_lt hsep_b hb_r1)))
          ((hRw r1 (List.mem_cons_of_mem _ (List.mem_cons_self _ _))).2),
          ?_, ?_, ?_⟩
        · rw [hset]
          conv_rhs => rw [hview, hchild2, hrsf, hbr]
          simp only [absL_append, absL, absN, List.append_assoc,
            List.append_nil, List.cons_append, List.nil_append]
          rw [show idx + 1 - 1 = idx from by omega]
        · rw [hset]
          exact BalL_append (BalL_sublist (List.take_sublist _ _) hbal)
            (BalL.cons Bal.leaf (BalL.cons Bal.leaf
              (BalL_sublist (List.drop_sublist _ _) hbal)))
        · rw [hset]
          refine NEokL_append (NEokL_sublist ?_ hneL)
            (NEokL.cons (NEok.leaf (by simp)) (NEokL.cons (NEok.leaf (by simp))
              ?_))
          · exact List.Sublist.refl _
          · refine NEokL_sublist ?_ hneR
            have hdd : cs.drop (idx + 1 + 1) = (cs.drop (idx + 1)).drop 1 := by
              rw [List.drop_drop]
            rw [hdd]
            exact List.drop_sublist _ _
      · next hnomatch =>
        exfalso
        have h2 := hnomatch b r1 rs2
        rw [hgetD, hrsf] at h2
        simp only [leafEntriesOf] at h2
        exact h2 hbr
    · -- no right borrow
      next hG2 =>
      split
      · -- merge into the left sibling
        next hpos =>
        obtain ⟨j, rfl⟩ : ∃ j, idx = j + 1 := ⟨idx - 1, by omega⟩
        obtain ⟨hk1, hp, lo', hi', hL, hC, hlo', hdown, hrepl, hmerge⟩ :=
          WFC_holeL ks (j + 1) lo hi cs hwfc hpos hidx
        obtain ⟨lses, hlsf⟩ :=
          shape_of_bal0 (BalL_mem hbal _ (List.get_mem cs _ hp))
        have hgetD : cs.getD (j + 1 - 1) (BNode.leaf []) = cs.get ⟨j + 1 - 1, hp⟩ :=
          List.getD_eq_get cs _ hp
        rw [hchild] at hC
        rw [hlsf] at hL
        cases hL with
        | leaf hLs hLw =>
        cases hC with
        | leaf hCs hCw =>
        rw [hgetD, hlsf]
        simp only [leafEntriesOf]
        simp only [Nat.add_sub_cancel]
        have hset := set_erase_adj cs j (by omega) (BNode.leaf (lses ++ es))
        rw [show j + 2 = j + 1 + 1 from by omega] at hset
        obtain ⟨hp2, hview⟩ := two_view cs (j + 1) hpos hidx
        have hWm : WFN lo' hi' (BNode.leaf (lses ++ es)) := by
          refine WFN.leaf ?_ ?_
          · rw [List.pairwise_append]
            refine ⟨hLs, hCs, ?_⟩
            intro a ha b hb
            exact lt_of_lt_of_le (hLw a ha).2 (hCw b hb).1
          · intro e he
            rcases List.mem_append.1 he with he | he
            · exact ⟨(hLw e he).1, hdown _ (hLw e he).2⟩
            · exact ⟨loLe_trans hlo' (hCw e he).1, (hCw e he).2⟩
        have hlsne : lses ≠ [] := by
          have h3 : NEok (cs.get ⟨j + 1 - 1, hp⟩) :=
            NEokL_mem hneL _ (get_mem_take cs j (j + 1) hp (by omega))
          rw [hlsf] at h3
          cases h3 with
          | leaf h2 => exact h2
        refine ⟨hmerge _ hWm, ?_, ?_, ?_⟩
        · rw [hset]
          conv_rhs => rw [hview, hchild, hlsf]
          simp only [absL_append, absL, absN, List.append_assoc,
            List.append_nil]
          rw [show j + 1 - 1 = j from by omega]
        · rw [hset]
          exact BalL_append (BalL_sublist (List.take_sublist _ _) hbal)
            (BalL.cons Bal.leaf (BalL_sublist (List.drop_sublist _ _) hbal))
        · rw [hset]
          refine NEokL_append ?_ (NEokL.cons (NEok.leaf ?_) hneR)
          · refine NEokL_sublist ?_ hneL
            rw [show cs.take j = (cs.take (j + 1)).take j by
              rw [List.take_take]; congr 1; omega]
            exact List.take_sublist _ _
          · simp only [ne_eq, List.append_eq_nil, not_and]
            intro hcon
            exact absurd hcon hlsne
      · -- merge with the right sibling
        next hnpos =>
        split
        · next hlt1 =>
          have hidx0 : idx = 0 := by omega
          subst hidx0
          have hidx1 : 0 + 1 < cs.length := by omega
          obtain ⟨hki, hp, lo', hi', hC, hR, hlo', hrepl, hmerge⟩ :=
            WFC_holeR ks 0 lo hi cs hwfc hidx1
          obtain ⟨rses, hrsf⟩ :=
            shape_of_bal0 (BalL_mem hbal _ (List.get_mem cs _ hidx1))
          have hgetD : cs.getD (0 + 1) (BNode.leaf []) = cs.get ⟨0 + 1, hidx1⟩ :=
            List.getD_eq_get cs _ hidx1
          rw [hchild] at hC
          rw [hrsf] at hR
          cases hC with
          | leaf hCs hCw =>
          cases hR with
          | leaf hRs hRw =>
          have hrsne : rses ≠ [] := by
            have hmem : cs.get ⟨0 + 1, hidx1⟩ ∈ cs.drop (0 + 1) := by
              rw [List.drop_eq_get_cons hidx1]
              exact List.mem_cons_self _ _
            have := NEokL_mem hneR _ hmem
            rw [hrsf] at this
            cases this with
            | leaf h2 => exact h2
          rw [hgetD, hrsf]
          simp only [leafEntriesOf]
          have hset := set_erase_adj cs 0 hidx1 (BNode.leaf (es ++ rses))
          rw [show 0 + 2 = 0 + 1 + 1 from by omega] at hset
          obtain ⟨hp2, hview⟩ := two_view cs (0 + 1) (by omega) hidx1
          have hchild2 : cs.get ⟨0 + 1 - 1, hp2⟩ = BNode.leaf es := hchild
          obtain ⟨r0, rrest, hr0⟩ : ∃ r0 t, rses = r0 :: t := by
            cases rses with
            | nil => exact absurd rfl hrsne
            | cons a t => exact ⟨a, t, rfl⟩
          have hr0w := hRw r0 (by rw [hr0]; exact List.mem_cons_self _ _)
          have hWm : WFN lo' hi' (BNode.leaf (es ++ rses)) := by
            refine WFN.leaf ?_ ?_
            · rw [List.pairwise_append]
              refine ⟨hCs, hRs, ?_⟩
              intro a ha b hb
              exact lt_of_lt_of_le (hCw a ha).2 (hRw b hb).1
            · intro e he
              rcases List.mem_append.1 he with he | he
              · refine ⟨(hCw e he).1, ?_⟩
                exact ltHi_trans (le_of_lt (lt_of_lt_of_le (hCw e he).2
                  hr0w.1)) hr0w.2
              · exact ⟨loLe_trans hlo' (hRw e he).1, (hRw e he).2⟩
          refine ⟨hmerge _ hWm, ?_, ?_, ?_⟩
          · rw [hset]
            conv_rhs => rw [hview, hchild2, hrsf]
            simp only [absL_append, absL, absN, List.append_assoc,
              List.append_nil, List.take_zero, List.nil_append]
          · rw [hset]
            exact BalL_append (BalL_sublist (List.take_sublist _ _) hbal)
              (BalL.cons Bal.leaf (BalL_sublist (List.drop_sublist _ _) hbal))
          · rw [hset]
            refine NEokL_append (NEokL_sublist (List.Sublist.refl _) ?_)
              (NEokL.cons (NEok.leaf ?_) ?_)
            · simpa using NEokL.nil
            · simp only [ne_eq, List.append_eq_nil, not_and]
              intro _
              exact hrsne
            · refine NEokL_sublist ?_ hneR
              have hdd : cs.drop (0 + 1 + 1) = (cs.drop (0 + 1)).drop 1 := by
                rw [List.drop_drop]
              rw [hdd]
              exact List.drop_sublist _ _
        · next hnlt =>
          omega

/-- `rebalanceInternal` (seen from the parent frame) repairs the deficient
internal child at `idx` without changing the stored entries, restoring
nonemptiness, preserving well-formedness and balance. -/
theorem rebalanceInnerAt_spec {deg : Nat} (hdeg : 2 ≤ deg) {lo hi : Option K}
    {ks : List K} {cs : List (BNode K V)} {idx : Nat} {nks : List K}
    {ncs : List (BNode K V)} {hh : Nat}
    (hwfc : WFC lo hi ks cs) (hidx : idx < cs.length)
    (hchild : cs.get ⟨idx, hidx⟩ = BNode.inner nks ncs)
    (hneL : NEokL (cs.take idx)) (hneR : NEokL (cs.drop (idx + 1)))
    (hsub : NEokL ncs)
    (hbal : BalL (hh + 1) cs) (hk : ks ≠ []) :
    WFC lo hi (rebalanceInnerAt deg ks cs idx nks ncs).1
      (rebalanceInnerAt deg ks cs idx nks ncs).2 ∧
    absL (rebalanceInnerAt deg ks cs idx nks ncs).2 = absL cs ∧
    BalL (hh + 1) (rebalanceInnerAt deg ks cs idx nks ncs).2 ∧
    NEokL (rebalanceInnerAt deg ks cs idx nks ncs).2 := by
  have hlen := WFC_length hwfc
  have hcs2 : 2 ≤ cs.length := by
    rw [hlen]
    cases ks with
    | nil => exact absurd rfl hk
    | cons a b => simp
  have hchildBal : BalL hh ncs := by
    have h2 := BalL_mem hbal _ (List.get_mem cs _ hidx)
    rw [hchild] at h2
    cases h2 with
    | inner hc => exact hc
  unfold rebalanceInnerAt
  split
  · -- borrow from the left sibling
    next hG1 =>
    obtain ⟨hpos, hbig⟩ := hG1
    obtain ⟨j, rfl⟩ : ∃ j, idx = j + 1 := ⟨idx - 1, by omega⟩
    obtain ⟨hk1, hp, lo', hi', hL, hC, hlo', hdown, hrepl, hmerge⟩ :=
      WFC_holeL ks (j + 1) lo hi cs hwfc hpos hidx
    obtain ⟨lks, lcs, hlsf⟩ :=
      shape_of_balS (BalL_mem hbal _ (List.get_mem cs _ hp))
    have hgetD : cs.getD (j + 1 - 1) (BNode.leaf []) = cs.get ⟨j + 1 - 1, hp⟩ :=
      List.getD_eq_get cs _ hp
    rw [hgetD, hlsf] at hbig
    simp only [innerKeysOf, minInternalKeys] at hbig
    have hlkne : lks ≠ [] := by
      intro hcon
      rw [hcon] at hbig
      simp only [List.length_nil] at hbig
      omega
    have hlsNE : NEok (cs.get ⟨j + 1 - 1, hp⟩) :=
      NEokL_mem hneL _ (get_mem_take cs j (j + 1) hp (by omega))
    rw [hlsf] at hlsNE
    have hlcne : NEokL lcs := by
      cases hlsNE with
      | inner h1 h2 => exact h2
    rw [hchild] at hC
    rw [hlsf] at hL
    cases hL with
    | inner hLc =>
    cases hC with
    | inner hCc =>
    have hncs_ne : absL ncs ≠ [] := absC_ne _ _ _ _ hCc hsub
    have hsephi : ltHi (ks.get ⟨j + 1 - 1, hk1⟩) hi' := by
      obtain ⟨e, he⟩ := List.exists_mem_of_ne_nil _ hncs_ne
      have hw := (absC_windows _ _ _ _ hCc).2 e he
      exact ltHi_trans hw.1 hw.2
    obtain ⟨hlcne2, hLdrop, hLlast, hlobk, hbksep⟩ :=
      WFC_snoc lks lo' (some (ks.get ⟨j + 1 - 1, hk1⟩)) lcs hLc hlcne hlkne
    have hBalls : BalL hh lcs := by
      have h2 := BalL_mem hbal _ (List.get_mem cs _ hp)
      rw [hlsf] at h2
      cases h2 with
      | inner hc => exact hc
    split
    · next bk bc sep heqk heqc heqs =>
      rw [hgetD, hlsf] at heqk heqc
      simp only [innerKeysOf] at heqk
      simp only [innerChildrenOf] at heqc
      rw [List.getLast?_eq_getLast lks hlkne] at heqk
      rw [List.getLast?_eq_getLast lcs hlcne2] at heqc
      rw [List.get?_eq_get hk1] at heqs
      injection heqk with heqk
      injection heqc with heqc
      injection heqs with heqs
      rw [← heqk, ← heqc, ← heqs]
      rw [hgetD, hlsf]
      simp only [innerKeysOf, innerChildrenOf]
      simp only [Nat.add_sub_cancel]
      have hset := set_set_adj cs j (by omega)
        (BNode.inner lks.dropLast lcs.dropLast)
        (BNode.inner (ks.get ⟨j, by omega⟩ :: nks)
          (lcs.getLast hlcne2 :: ncs))
      rw [show j + 2 = j + 1 + 1 from by omega] at hset
      obtain ⟨hp2, hview⟩ := two_view cs (j + 1) hpos hidx
      have hWc' : WFN (some (lks.getLast hlkne)) hi'
          (BNode.inner (ks.get ⟨j + 1 - 1, hk1⟩ :: nks)
            (lcs.getLast hlcne2 :: ncs)) :=
        WFN.inner (WFC.cons hLlast (le_of_lt hbksep) hsephi hCc)
      refine ⟨hrepl _ _ _ (WFN.inner hLdrop) hWc' hlobk (hdown _ hbksep),
        ?_, ?_, ?_⟩
      · rw [hset]
        conv_rhs => rw [hview, hchild, hlsf]
        simp only [absL_append, absL, absN, List.append_assoc,
          List.append_nil]
        rw [show j + 1 - 1 = j from by omega]
        conv_rhs => rw [← List.dropLast_concat_getLast hlcne2]
        simp [absL_append, absL, List.append_assoc]
      · rw [hset]
        refine BalL_append (BalL_sublist (List.take_sublist _ _) hbal)
          (BalL.cons (Bal.inner (BalL_sublist (List.dropLast_sublist _) hBalls))
            (BalL.cons (Bal.inner (BalL.cons
              (BalL_mem hBalls _ (List.getLast_mem hlcne2)) hchildBal))
              (BalL_sublist (List.drop_sublist _ _) hbal)))
      · rw [hset]
        refine NEokL_append ?_ (NEokL.cons ?_ (NEokL.cons ?_ hneR))
        · refine NEokL_sublist ?_ hneL
          rw [show cs.take j = (cs.take (j + 1)).take j by
            rw [List.take_take]; congr 1; omega]
          exact List.take_sublist _ _
        · refine NEok.inner ?_ (NEokL_sublist (List.dropLast_sublist _) hlcne)
          have h5 : lks.dropLast.length = lks.length - 1 := List.length_dropLast _
          intro hcon
          rw [hcon] at h5
          simp only [List.length_nil] at h5
          omega
        · exact NEok.inner (by simp)
            (NEokL.cons (NEokL_mem hlcne _ (List.getLast_mem hlcne2)) hsub)
    · next hnom =>
      exfalso
      refine hnom (lks.getLast hlkne) (lcs.getLast hlcne2)
        (ks.get ⟨j + 1 - 1, hk1⟩) ?_ ?_ ?_
      · rw [hgetD, hlsf]
        simp only [innerKeysOf]
        exact List.getLast?_eq_getLast lks hlkne
      · rw [hgetD, hlsf]
        simp only [innerChildrenOf]
        exact List.getLast?_eq_getLast lcs hlcne2
      · exact List.get?_eq_get hk1
  · -- no left borrow
    next hG1 =>
    split
    · -- borrow from the right sibling
      next hG2 =>
      obtain ⟨hlt1, hbig⟩ := hG2
      have hidx1 : idx + 1 < cs.length := by omega
      obtain ⟨hki, hp, lo', hi', hC, hR, hlo', hrepl, hmerge⟩ :=
        WFC_holeR ks idx lo hi cs hwfc hidx1
      obtain ⟨rks, rcs, hrsf⟩ :=
        shape_of_balS (BalL_mem hbal _ (List.get_mem cs _ hidx1))
      have hgetD : cs.getD (idx + 1) (BNode.leaf []) = cs.get ⟨idx + 1, hidx1⟩ :=
        List.getD_eq_get cs _ hidx1
      rw [hgetD, hrsf] at hbig
      simp only [innerKeysOf, minInternalKeys] at hbig
      have hrsNE : NEok (cs.get ⟨idx + 1, hidx1⟩) := by
        refine NEokL_mem hneR _ ?_
        rw [List.drop_eq_get_cons hidx1]
        exact List.mem_cons_self _ _
      rw [hrsf] at hrsNE
      have hrcne : NEokL rcs := by
        cases hrsNE with
        | inner h1 h2 => exact h2
      rw [hchild] at hC
      rw [hrsf] at hR
      cases hC with
      | inner hCc =>
      cases hR with
      | inner hRc =>
      have hrkne : rks ≠ [] := by
        intro hcon
        rw [hcon] at hbig
        simp only [List.length_nil] at hbig
        omega
      obtain ⟨bk, rks', hbk⟩ : ∃ bk t, rks = bk :: t := by
        cases rks with
        | nil => exact absurd rfl hrkne
        | cons a t => exact ⟨a, t, rfl⟩
      obtain ⟨bc, rcs', hbc⟩ : ∃ bc t, rcs = bc :: t := by
        have h5 := WFC_length hRc
        cases rcs with
        | nil => rw [hbk] at h5; simp at h5
        | cons a t => exact ⟨a, t, rfl⟩
      rw [hbk, hbc] at hRc
      cases hRc with
      | cons hbcW hsepbk hbkhi htR =>
      have hbcNE : NEok bc := by
        rw [hbc] at hrcne
        cases hrcne with
        | cons h1 h2 => exact h1
      have hsepbk_strict : ks.get ⟨idx, hki⟩ < bk := by
        have h5 := absN_ne _ _ _ hbcW hbcNE
        obtain ⟨e, he⟩ := List.exists_mem_of_ne_nil _ h5
        have hw := (absN_windows _ _ _ hbcW).2 e he
        exact lt_of_le_of_lt hw.1 hw.2
      have hrcsBal : BalL hh (bc :: rcs') := by
        have h2 := BalL_mem hbal _ (List.get_mem cs _ hidx1)
        rw [hrsf, hbc] at h2
        cases h2 with
        | inner hc => exact hc
      split
      · next nbk nrks nbc nrcs nsep heqk2 heqc2 heqs2 =>
        rw [hgetD, hrsf] at heqk2 heqc2
        simp only [innerKeysOf] at heqk2
        simp only [innerChildrenOf] at heqc2
        rw [hbk] at heqk2
        rw [hbc] at heqc2
        injection heqk2 with h1 h2
        injection heqc2 with h3 h4
        rw [List.get?_eq_get hki] at heqs2
        injection heqs2 with h5
        rw [← h1, ← h2, ← h3, ← h4, ← h5]
        have hset := set_set_adj cs idx hidx1
          (BNode.inner (nks ++ [ks.get ⟨idx, hki⟩]) (ncs ++ [bc]))
          (BNode.inner rks' rcs')
        rw [show idx + 2 = idx + 1 + 1 from by omega] at hset
        obtain ⟨hp2, hview⟩ := two_view cs (idx + 1) (by omega) hidx1
        have hchild2 : cs.get ⟨idx + 1 - 1, hp2⟩ = BNode.inner nks ncs := hchild
        have hWc' : WFN lo' (some bk)
            (BNode.inner (nks ++ [ks.get ⟨idx, hki⟩]) (ncs ++ [bc])) :=
          WFN.inner (WFC_snocExt nks lo' _ (some bk) ncs bc hCc hbcW hlo'
            hsepbk_strict)
        have hWrs' : WFN (some bk) hi' (BNode.inner rks' rcs') :=
          WFN.inner htR
        refine ⟨hrepl _ _ _ hWc' hWrs' (loLe_trans hlo' hsepbk) hbkhi,
          ?_, ?_, ?_⟩
        · rw [hset]
          conv_rhs => rw [hview, hchild2, hrsf, hbk, hbc]
          simp only [absL_append, absL, absN, List.append_assoc,
            List.append_nil]
          rw [show idx + 1 - 1 = idx from by omega]
        · rw [hset]
          refine BalL_append (BalL_sublist (List.take_sublist _ _) hbal)
            (BalL.cons (Bal.inner (BalL_append hchildBal
              (BalL.cons (BalL_mem hrcsBal _ (List.mem_cons_self _ _))
                BalL.nil)))
              (BalL.cons (Bal.inner ?_)
                (BalL_sublist (List.drop_sublist _ _) hbal)))
          cases hrcsBal with
          | cons h1 h2 => exact h2
        · rw [hset]
          refine NEokL_append (NEokL_sublist (List.Sublist.refl _) hneL)
            (NEokL.cons ?_ (NEokL.cons ?_ ?_))
          · exact NEok.inner (by simp)
              (NEokL_append hsub (NEokL.cons hbcNE NEokL.nil))
          · refine NEok.inner ?_ ?_
            · intro hcon
              rw [hbk, hcon] at hbig
              simp only [List.length_cons, List.length_nil] at hbig
              omega
            · rw [hbc] at hrcne
              cases hrcne with
              | cons h1 h2 => exact h2
          · refine NEokL_sublist ?_ hneR
            have hdd : cs.drop (idx + 1 + 1) = (cs.drop (idx + 1)).drop 1 := by
              rw [List.drop_drop]
            rw [hdd]
            exact List.drop_sublist _ _
      · next hnom =>
        exfalso
        refine hnom bk rks' bc rcs' (ks.get ⟨idx, hki⟩) ?_ ?_ ?_
        · rw [hgetD, hrsf]
          simp only [innerKeysOf]
          exact hbk
        · rw [hgetD, hrsf]
          simp only [innerChildrenOf]
          exact hbc
        · exact List.get?_eq_get hki
    · -- no right borrow
      next hG2 =>
      split
      · -- merge into the left sibling
        next hpos =>
        obtain ⟨j, rfl⟩ : ∃ j, idx = j + 1 := ⟨idx - 1, by omega⟩
        obtain ⟨hk1, hp, lo', hi', hL, hC, hlo', hdown, hrepl, hmerge⟩ :=
          WFC_holeL ks (j + 1) lo hi cs hwfc hpos hidx
        obtain ⟨lks, lcs, hlsf⟩ :=
          shape_of_balS (BalL_mem hbal _ (List.get_mem cs _ hp))
        have hgetD : cs.getD (j + 1 - 1) (BNode.leaf []) = cs.get ⟨j + 1 - 1, hp⟩ :=
          List.getD_eq_get cs _ hp
        have hlsNE : NEok (cs.get ⟨j + 1 - 1, hp⟩) :=
          NEokL_mem hneL _ (get_mem_take cs j (j + 1) hp (by omega))
        rw [hlsf] at hlsNE
        obtain ⟨hlkne, hlcne⟩ : lks ≠ [] ∧ NEokL lcs := by
          cases hlsNE with
          | inner h1 h2 => exact ⟨h1, h2⟩
        rw [hchild] at hC
        rw [hlsf] at hL
        cases hL with
        | inner hLc =>
        cases hC with
        | inner hCc =>
        have hncs_ne : absL ncs ≠ [] := absC_ne _ _ _ _ hCc hsub
        have hsephi : ltHi (ks.get ⟨j + 1 - 1, hk1⟩) hi' := by
          obtain ⟨e, he⟩ := List.exists_mem_of_ne_nil _ hncs_ne
          have hw := (absC_windows _ _ _ _ hCc).2 e he
          exact ltHi_trans hw.1 hw.2
        have hBalls : BalL hh lcs := by
          have h2 := BalL_mem hbal _ (List.get_mem cs _ hp)
          rw [hlsf] at h2
          cases h2 with
          | inner hc => exact hc
        split
        · next sep heqs =>
          rw [List.get?_eq_get hk1] at heqs
          injection heqs with heqs
          rw [← heqs]
          rw [hgetD, hlsf]
          simp only [innerKeysOf, innerChildrenOf]
          simp only [Nat.add_sub_cancel]
          have hset := set_erase_adj cs j (by omega)
            (BNode.inner (lks ++ ks.get ⟨j, by omega⟩ :: nks) (lcs ++ ncs))
          rw [show j + 2 = j + 1 + 1 from by omega] at hset
          obtain ⟨hp2, hview⟩ := two_view cs (j + 1) hpos hidx
          have hWm : WFN lo' hi'
              (BNode.inner (lks ++ ks.get ⟨j + 1 - 1, hk1⟩ :: nks)
                (lcs ++ ncs)) :=
            WFN.inner (WFC_glue lks lo' (some (ks.get ⟨j + 1 - 1, hk1⟩)) hi' _
              lcs nks ncs hLc hCc hlo' hsephi)
          refine ⟨hmerge _ hWm, ?_, ?_, ?_⟩
          · rw [hset]
            conv_rhs => rw [hview, hchild, hlsf]
            simp only [absL_append, absL, absN, List.append_assoc,
              List.append_nil]
            rw [show j + 1 - 1 = j from by omega]
          · rw [hset]
            exact BalL_append (BalL_sublist (List.take_sublist _ _) hbal)
              (BalL.cons (Bal.inner (BalL_append hBalls hchildBal))
                (BalL_sublist (List.drop_sublist _ _) hbal))
          · rw [hset]
            refine NEokL_append ?_ (NEokL.cons
              (NEok.inner (by simp) (NEokL_append hlcne hsub)) hneR)
            refine NEokL_sublist ?_ hneL
            rw [show cs.take j = (cs.take (j + 1)).take j by
              rw [List.take_take]; congr 1; omega]
            exact List.take_sublist _ _
        · next hnom =>
          exfalso
          rw [List.get?_eq_get hk1] at hnom
          cases hnom
      · -- merge with the right sibling
        next hnpos =>
        split
        · next hlt1 =>
          have hidx0 : idx = 0 := by omega
          subst hidx0
          have hidx1 : 0 + 1 < cs.length := by omega
          obtain ⟨hki, hp, lo', hi', hC, hR, hlo', hrepl, hmerge⟩ :=
            WFC_holeR ks 0 lo hi cs hwfc hidx1
          obtain ⟨rks, rcs, hrsf⟩ :=
            shape_of_balS (BalL_mem hbal _ (List.get_mem cs _ hidx1))
          have hgetD : cs.getD (0 + 1) (BNode.leaf []) = cs.get ⟨0 + 1, hidx1⟩ :=
            List.getD_eq_get cs _ hidx1
          have hrsNE : NEok (cs.get ⟨0 + 1, hidx1⟩) := by
            refine NEokL_mem hneR _ ?_
            rw [List.drop_eq_get_cons hidx1]
            exact List.mem_cons_self _ _
          rw [hrsf] at hrsNE
          obtain ⟨hrkne, hrcne⟩ : rks ≠ [] ∧ NEokL rcs := by
            cases hrsNE with
            | inner h1 h2 => exact ⟨h1, h2⟩
          rw [hchild] at hC
          rw [hrsf] at hR
          cases hC with
          | inner hCc =>
          cases hR with
          | inner hRc =>
          have hrs_ne : absL rcs ≠ [] := absC_ne _ _ _ _ hRc hrcne
          have hsephi : ltHi (ks.get ⟨0, hki⟩) hi' := by
            obtain ⟨e, he⟩ := List.exists_mem_of_ne_nil _ hrs_ne
            have hw := (absC_windows _ _ _ _ hRc).2 e he
            exact ltHi_trans hw.1 hw.2
          have hBalrs : BalL hh rcs := by
            have h2 := BalL_mem hbal _ (List.get_mem cs _ hidx1)
            rw [hrsf] at h2
            cases h2 with
            | inner hc => exact hc
          split
          · next sep heqs =>
            rw [List.get?_eq_get hki] at heqs
            injection heqs with heqs
            rw [← heqs]
            rw [hgetD, hrsf]
            simp only [innerKeysOf, innerChildrenOf]
            have hset := set_erase_adj cs 0 hidx1
              (BNode.inner (nks ++ ks.get ⟨0, hki⟩ :: rks) (ncs ++ rcs))
            rw [show 0 + 2 = 0 + 1 + 1 from by omega] at hset
            obtain ⟨hp2, hview⟩ := two_view cs (0 + 1) (by omega) hidx1
            have hchild2 : cs.get ⟨0 + 1 - 1, hp2⟩ = BNode.inner nks ncs :=
              hchild
            have hWm : WFN lo' hi'
                (BNode.inner (nks ++ ks.get ⟨0, hki⟩ :: rks) (ncs ++ rcs)) :=
              WFN.inner (WFC_glue nks lo' (some (ks.get ⟨0, hki⟩)) hi' _
                ncs rks rcs hCc hRc hlo' hsephi)
            refine ⟨hmerge _ hWm, ?_, ?_, ?_⟩
            · rw [hset]
              conv_rhs => rw [hview, hchild2, hrsf]
              simp only [absL_append, absL, absN, List.append_assoc,
                List.append_nil, List.take_zero, List.nil_append]
            · rw [hset]
              exact BalL_append (BalL_sublist (List.take_sublist _ _) hbal)
                (BalL.cons (Bal.inner (BalL_append hchildBal hBalrs))
                  (BalL_sublist (List.drop_sublist _ _) hbal))
            · rw [hset]
              refine NEokL_append (NEokL_sublist (List.Sublist.refl _) ?_)
                (NEokL.cons (NEok.inner (by simp) (NEokL_append hsub hrcne))
                  ?_)
              · simpa using NEokL.nil
              · refine NEokL_sublist ?_ hneR
                have hdd : cs.drop (0 + 1 + 1) = (cs.drop (0 + 1)).drop 1 := by
                  rw [List.drop_drop]
                rw [hdd]
                exact List.drop_sublist _ _
          · next hnom =>
            exfalso
            rw [List.get?_eq_get hki] at hnom
            cases hnom
        · next hnlt =>
          omega

theorem take_set {X : Type} :
    ∀ (l : List X) (i : Nat) (a : X), (l.set i a).take i = l.take i
  | [], _, _ => rfl
  | x :: xs, 0, a => rfl
  | x :: xs, i + 1, a => by
    simp only [List.set_cons_succ, List.take_succ_cons]
    rw [take_set xs i a]

theorem drop_set_succ {X : Type} :
    ∀ (l : List X) (i : Nat) (a : X), (l.set i a).drop (i + 1) = l.drop (i + 1)
  | [], _, _ => rfl
  | x :: xs, 0, a => rfl
  | x :: xs, i + 1, a => by
    simp only [List.set_cons_succ, List.drop_succ_cons]
    exact drop_set_succ xs i a

theorem eraseKeyList_of_not_mem {key : K} {l : List (K × V)}
    (h : ∀ e ∈ l, e.1 ≠ key) : eraseKeyList key l = l := by
  induction l with
  | nil => rfl
  | cons e es ih =>
    rw [eraseKeyList, if_neg (h e (List.mem_cons_self _ _))]
    rw [ih fun x hx => h x (List.mem_cons_of_mem _ hx)]

theorem eraseKeyList_append_left {key : K} {P R : List (K × V)}
    (hP : ∀ p ∈ P, p.1 ≠ key) :
    eraseKeyList key (P ++ R) = P ++ eraseKeyList key R := by
  induction P with
  | nil => rfl
  | cons p ps ih =>
    rw [List.cons_append, eraseKeyList, if_neg (hP p (List.mem_cons_self _ _)),
      ih fun x hx => hP x (List.mem_cons_of_mem _ hx), List.cons_append]

theorem eraseKeyList_append_right {key : K} {M S : List (K × V)}
    (hS : ∀ s ∈ S, s.1 ≠ key) :
    eraseKeyList key (M ++ S) = eraseKeyList key M ++ S := by
  induction M with
  | nil => exact eraseKeyList_of_not_mem hS
  | cons e es ih =>
    rw [List.cons_append, eraseKeyList, eraseKeyList]
    split
    · rfl
    · rw [ih, List.cons_append]

theorem eraseKey_decomp {key : K} {P M S : List (K × V)}
    (hP : ∀ p ∈ P, p.1 < key) (hS : ∀ s ∈ S, key < s.1) :
    eraseKeyList key (P ++ M ++ S) = P ++ eraseKeyList key M ++ S := by
  rw [List.append_assoc, eraseKeyList_append_left fun p hp => ne_of_lt (hP p hp)]
  rw [show P ++ eraseKeyList key M ++ S = P ++ (eraseKeyList key M ++ S) from
    List.append_assoc _ _ _]
  congr 1
  exact eraseKeyList_append_right fun s hs => ne_of_gt (hS s hs)

theorem lookup_ne_none_of_any {key : K} {l : List (K × V)}
    (h : l.any (fun e => e.1 = key) = true) : lookupEntry key l ≠ none := by
  induction l with
  | nil => simp at h
  | cons e es ih =>
    rw [lookupEntry]
    split
    · simp
    · next hne =>
      refine ih ?_
      simp only [List.any_cons, Bool.or_eq_true, decide_eq_true_eq] at h
      rcases h with h | h
      · exact absurd h hne
      · exact List.any_eq_true.2 (by simpa using h)

theorem eraseKeyList_sublist (key : K) :
    ∀ (l : List (K × V)), (eraseKeyList key l).Sublist l
  | [] => List.Sublist.refl _
  | e :: es => by
    rw [eraseKeyList]
    split
    · exact List.sublist_cons_self _ _
    · exact List.Sublist.cons₂ _ (eraseKeyList_sublist key es)

/-- Repairing a deficient child of either shape. -/
theorem rebalanceAt_spec {deg : Nat} (hdeg : 2 ≤ deg) {lo hi : Option K}
    {ks : List K} {cs : List (BNode K V)} {idx : Nat} {h' : Nat}
    (hwfc : WFC lo hi ks cs) (hidx : idx < cs.length)
    (hneL : NEokL (cs.take idx)) (hneR : NEokL (cs.drop (idx + 1)))
    (hsub : NEsub (cs.get ⟨idx, hidx⟩))
    (hbal : BalL h' cs) (hk : ks ≠ []) :
    WFC lo hi (rebalanceAt deg ks cs idx).1 (rebalanceAt deg ks cs idx).2 ∧
    absL (rebalanceAt deg ks cs idx).2 = absL cs ∧
    BalL h' (rebalanceAt deg ks cs idx).2 ∧
    NEokL (rebalanceAt deg ks cs idx).2 := by
  have hgetD : cs.getD idx (BNode.leaf []) = cs.get ⟨idx, hidx⟩ :=
    List.getD_eq_get cs _ hidx
  have hchildBal := BalL_mem hbal _ (List.get_mem cs _ hidx)
  unfold rebalanceAt
  split
  · next es heq =>
    rw [hgetD] at heq
    rw [heq] at hchildBal
    cases hchildBal with
    | leaf =>
      exact rebalanceLeafAt_spec hdeg hwfc hidx heq hneL hneR hbal hk
  · next nks ncs heq =>
    rw [hgetD] at heq
    rw [heq] at hchildBal
    cases hchildBal with
    | inner hc =>
      rw [heq] at hsub
      exact rebalanceInnerAt_spec hdeg hwfc hidx heq hneL hneR hsub hbal hk

/-- The master delete lemma: when the key is absent the subtree is returned
untouched with `false`; when present, the result is the subtree with exactly
that entry removed, still well-formed and balanced, with every strict subnode
nonempty — and fully nonempty unless the node itself became deficient. -/
theorem delAux_spec {deg : Nat} (hdeg : 2 ≤ deg) (key : K) (n : BNode K V) :
    ∀ (lo hi : Option K) (hb : Nat),
      WFN lo hi n → NEok n → Bal hb n → loLe lo key → ltHi key hi →
      ((delAux deg key n).2 = false →
          delAux deg key n = (n, false) ∧ lookupEntry key (absN n) = none) ∧
      ((delAux deg key n).2 = true →
          WFN lo hi (delAux deg key n).1 ∧
          Bal hb (delAux deg key n).1 ∧
          NEsub (delAux deg key n).1 ∧
          (isDeficient deg (delAux deg key n).1 = false →
            NEok (delAux deg key n).1) ∧
          absN (delAux deg key n).1 = eraseKeyList key (absN n) ∧
          lookupEntry key (absN n) ≠ none) := by
  refine delAux.induct deg key
    (fun m => ∀ (lo hi : Option K) (hb : Nat),
      WFN lo hi m → NEok m → Bal hb m → loLe lo key → ltHi key hi →
      ((delAux deg key m).2 = false →
          delAux deg key m = (m, false) ∧ lookupEntry key (absN m) = none) ∧
      ((delAux deg key m).2 = true →
          WFN lo hi (delAux deg key m).1 ∧
          Bal hb (delAux deg key m).1 ∧
          NEsub (delAux deg key m).1 ∧
          (isDeficient deg (delAux deg key m).1 = false →
            NEok (delAux deg key m).1) ∧
          absN (delAux deg key m).1 = eraseKeyList key (absN m) ∧
          lookupEntry key (absN m) ≠ none))
    ?_ ?_ ?_ ?_ ?_ ?_ n
  · -- leaf, key present
    intro es hmatch lo hi hb hwf hne hbal hklo hkhi
    cases hwf with
    | leaf hs hw =>
      cases hbal
      simp only [delAux, if_pos hmatch]
      constructor
      · intro hcon
        simp at hcon
      · intro _
        refine ⟨?_, Bal.leaf, trivial, ?_, rfl, lookup_ne_none_of_any hmatch⟩
        · refine WFN.leaf (hs.sublist (eraseKeyList_sublist key es)) ?_
          intro e he
          exact hw e ((eraseKeyList_sublist key es).mem he)
        · intro hnd
          simp only [isDeficient, minLeafEntries, decide_eq_false_iff_not,
            not_lt] at hnd
          refine NEok.leaf ?_
          intro hcon
          rw [hcon] at hnd
          simp only [List.length_nil] at hnd
          omega
  · -- leaf, key absent
    intro es hmatch lo hi hb hwf hne hbal hklo hkhi
    simp only [delAux, if_neg hmatch]
    constructor
    · intro _
      refine ⟨by trivial, ?_⟩
      refine lookupEntry_eq_none ?_
      intro e he hcon
      exact hmatch (List.any_eq_true.2 ⟨e, he, by simpa using hcon⟩)
    · intro hcon
      simp at hcon
  · -- inner, deletion succeeded, child became deficient: repair it
    intro ks cs h c' hrec hdef ih lo hi hb hwf hne hbal hklo hkhi
    cases hwf with
    | inner hc =>
      cases hne with
      | inner hk hcne =>
        cases hbal with
        | @inner hh _ _ hbc =>
          obtain ⟨hlt, loI, hiI, hWc, hloI, hhiI, habs, hP, hS, hset, hsplit⟩ :=
            routeSplitIns key lo hi ks cs hc hklo hkhi
          have hchild := ((ih loI hiI _ hWc
            (NEokL_mem hcne _ (List.get_mem cs _ h))
            (BalL_mem hbc _ (List.get_mem cs _ h)) hloI hhiI).2)
          rw [hrec] at hchild
          obtain ⟨hWc', hBc', hNsub', hNif', habs', hlookc⟩ := hchild rfl
          have hlookup : lookupEntry key (absL cs) ≠ none := by
            rw [habs,
              lookupEntry_append_right fun e he => ne_of_gt (hS e he),
              lookupEntry_append_left fun e he => ne_of_lt (hP e he)]
            exact hlookc
          have hwfc2 : WFC lo hi ks (cs.set (routeIdx key ks) c') :=
            hset c' hWc'
          have hidx2 : routeIdx key ks < (cs.set (routeIdx key ks) c').length := by
            rw [List.length_set]
            exact h
          have hget2 : (cs.set (routeIdx key ks) c').get
              ⟨routeIdx key ks, hidx2⟩ = c' :=
            List.get_set_eq _
          have hneL2 : NEokL ((cs.set (routeIdx key ks) c').take
              (routeIdx key ks)) := by
            rw [take_set]
            exact NEokL_sublist (List.take_sublist _ _) hcne
          have hneR2 : NEokL ((cs.set (routeIdx key ks) c').drop
              (routeIdx key ks + 1)) := by
            rw [drop_set_succ]
            exact NEokL_sublist (List.drop_sublist _ _) hcne
          have hsub2 : NEsub ((cs.set (routeIdx key ks) c').get
              ⟨routeIdx key ks, hidx2⟩) := by
            rw [hget2]
            exact hNsub'
          have hreb := rebalanceAt_spec hdeg hwfc2 hidx2 hneL2 hneR2 hsub2
            (BalL_set hbc hBc') hk
          simp only [delAux, dif_pos h, hrec, if_pos hdef]
          constructor
          · intro hcon
            simp at hcon
          · intro _
            obtain ⟨hW2, habs2, hB2, hNE2⟩ := hreb
            refine ⟨WFN.inner hW2, Bal.inner hB2, hNE2, ?_, ?_, hlookup⟩
            · intro hnd
              simp only [isDeficient, minInternalKeys, decide_eq_false_iff_not,
                not_lt] at hnd
              refine NEok.inner ?_ hNE2
              intro hcon
              rw [hcon] at hnd
              simp only [List.length_nil] at hnd
              omega
            · simp only [absN]
              rw [habs2, absL_set h, habs', habs]
              exact (eraseKey_decomp hP hS).symm
  · -- inner, deletion succeeded, child still full enough
    intro ks cs h c' hrec hndef ih lo hi hb hwf hne hbal hklo hkhi
    cases hwf with
    | inner hc =>
      cases hne with
      | inner hk hcne =>
        cases hbal with
        | @inner hh _ _ hbc =>
          obtain ⟨hlt, loI, hiI, hWc, hloI, hhiI, habs, hP, hS, hset, hsplit⟩ :=
            routeSplitIns key lo hi ks cs hc hklo hkhi
          have hchild := ((ih loI hiI _ hWc
            (NEokL_mem hcne _ (List.get_mem cs _ h))
            (BalL_mem hbc _ (List.get_mem cs _ h)) hloI hhiI).2)
          rw [hrec] at hchild
          obtain ⟨hWc', hBc', hNsub', hNif', habs', hlookc⟩ := hchild rfl
          have hlookup : lookupEntry key (absL cs) ≠ none := by
            rw [habs,
              lookupEntry_append_right fun e he => ne_of_gt (hS e he),
              lookupEntry_append_left fun e he => ne_of_lt (hP e he)]
            exact hlookc
          have hNc' : NEok c' := hNif' (by
            cases hd : isDeficient deg c' with
            | false => rfl
            | true => exact absurd hd hndef)
          simp only [delAux, dif_pos h, hrec, if_neg hndef]
          constructor
          · intro hcon
            simp at hcon
          · intro _
            refine ⟨WFN.inner (hset c' hWc'),
              Bal.inner (BalL_set hbc hBc'),
              NEokL_set hcne hNc', fun _ => NEok.inner hk (NEokL_set hcne hNc'),
              ?_, hlookup⟩
            simp only [absN]
            rw [absL_set h, habs', habs]
            exact (eraseKey_decomp hP hS).symm
  · -- inner, key absent below
    intro ks cs h c0 hrec ih lo hi hb hwf hne hbal hklo hkhi
    cases hwf with
    | inner hc =>
      cases hne with
      | inner hk hcne =>
        cases hbal with
        | @inner hh _ _ hbc =>
          obtain ⟨hlt, loI, hiI, hWc, hloI, hhiI, habs, hP, hS, hset, hsplit⟩ :=
            routeSplitIns key lo hi ks cs hc hklo hkhi
          have hchild := ((ih loI hiI _ hWc
            (NEokL_mem hcne _ (List.get_mem cs _ h))
            (BalL_mem hbc _ (List.get_mem cs _ h)) hloI hhiI).1)
          rw [hrec] at hchild
          obtain ⟨heq0, hlook⟩ := hchild rfl
          simp only [delAux, dif_pos h, hrec]
          constructor
          · intro _
            refine ⟨by trivial, ?_⟩
            simp only [absN]
            rw [habs]
            rw [lookupEntry_append_right fun e he => ne_of_gt (hS e he),
              lookupEntry_append_left fun e he => ne_of_lt (hP e he)]
            exact hlook
          · intro hcon
            simp at hcon
  · -- inner with the routed index out of range: impossible on WF frames
    intro ks cs hnroute lo hi hb hwf hne hbal hklo hkhi
    cases hwf with
    | inner hc =>
      exact absurd (show routeIdx key ks < cs.length by
        rw [WFC_length hc]
        exact Nat.lt_succ_of_le (routeIdx_le key ks)) hnroute

/-- `Delete` at the tree level: an absent key returns `false` with the tree
untouched; a present key is removed from the abstraction, the invariant is
preserved (including the empty-root and root-collapse cases), and `true` is
returned. -/
theorem deleteB_spec {t : BPT K V} (hwft : WFT t) (key : K) :
    ((t.deleteB key).2 = false →
        t.deleteB key = (t, false) ∧ lookupEntry key (absT t) = none) ∧
    ((t.deleteB key).2 = true →
        WFT (t.deleteB key).1 ∧
        absT (t.deleteB key).1 = eraseKeyList key (absT t) ∧
        lookupEntry key (absT t) ≠ none) := by
  obtain ⟨hdeg, hroot⟩ := hwft
  match hr : t.root with
  | none =>
    constructor
    · intro _
      constructor
      · simp only [BPT.deleteB, hr]
      · simp only [absT, hr, lookupEntry]
    · intro hcon
      simp only [BPT.deleteB, hr] at hcon
      exact Bool.noConfusion hcon
  | some n =>
    rw [hr] at hroot
    obtain ⟨hwf, hne, hb, hbal⟩ := hroot
    have hspec := delAux_spec hdeg key n none none hb hwf hne hbal
      trivial trivial
    match hres : delAux t.degree key n with
    | (n0, false) =>
      obtain ⟨heq0, hlook⟩ := hspec.1 (by rw [hres])
      constructor
      · intro _
        constructor
        · simp only [BPT.deleteB, hr, hres]
        · simpa [absT, hr] using hlook
      · intro hcon
        simp only [BPT.deleteB, hr, hres] at hcon
        exact Bool.noConfusion hcon
    | (n', true) =>
      obtain ⟨hW', hB', hNs', hNif', habs', hlookp⟩ := hspec.2 (by rw [hres])
      simp only [hres] at hW' hB' hNs' hNif' habs'
      have hlookT : lookupEntry key (absT t) ≠ none := by
        simpa [absT, hr] using hlookp
      constructor
      · intro hcon
        match hn' : n' with
        | BNode.leaf [] =>
          simp only [BPT.deleteB, hr, hres] at hcon
          exact Bool.noConfusion hcon
        | BNode.leaf (e :: es) =>
          simp only [BPT.deleteB, hr, hres] at hcon
          exact Bool.noConfusion hcon
        | BNode.inner [] [] =>
          simp only [BPT.deleteB, hr, hres] at hcon
          exact Bool.noConfusion hcon
        | BNode.inner [] (c :: cs') =>
          simp only [BPT.deleteB, hr, hres] at hcon
          exact Bool.noConfusion hcon
        | BNode.inner (k :: ks') cs' =>
          simp only [BPT.deleteB, hr, hres] at hcon
          exact Bool.noConfusion hcon
      · intro _
        match hn' : n' with
        | BNode.leaf [] =>
          refine ⟨?_, ?_, hlookT⟩
          · simp only [WFT, BPT.deleteB, hr, hres]
            exact ⟨hdeg, trivial⟩
          · simp only [BPT.deleteB, hr, hres, absT]
            simp only [absN] at habs'
            rw [← habs']
        | BNode.leaf (e :: es) =>
          refine ⟨?_, ?_, hlookT⟩
          · simp only [WFT, BPT.deleteB, hr, hres]
            exact ⟨hdeg, hW', NEok.leaf (by simp), hb, hB'⟩
          · simp only [BPT.deleteB, hr, hres, absT]
            exact habs'
        | BNode.inner [] [] =>
          cases hW' with
          | inner hc =>
            have := WFC_length hc
            simp at this
        | BNode.inner [] (c :: cs') =>
          cases hW' with
          | inner hc =>
            have hlen := WFC_length hc
            simp only [List.length_cons, List.length_nil] at hlen
            have hcs' : cs' = [] := by
              cases cs' with
              | nil => rfl
              | cons x xs => simp at hlen
            subst hcs'
            cases hc with
            | single hcW =>
              cases hB' with
              | inner hbc =>
                cases hbc with
                | cons hbcH hbcT =>
                  refine ⟨?_, ?_, hlookT⟩
                  · simp only [WFT, BPT.deleteB, hr, hres]
                    refine ⟨hdeg, hcW, ?_, _, hbcH⟩
                    cases hNs' with
                    | cons hcN _ => exact hcN
                  · simp only [BPT.deleteB, hr, hres, absT]
                    simp only [absN, absL, List.append_nil] at habs'
                    exact habs'
        | BNode.inner (k :: ks') cs' =>
          refine ⟨?_, ?_, hlookT⟩
          · simp only [WFT, BPT.deleteB, hr, hres]
            exact ⟨hdeg, hW', NEok.inner (by simp) hNs', hb, hB'⟩
          · simp only [BPT.deleteB, hr, hres, absT]
            exact habs'

/-! ## Reachable trees: arbitrary interleavings of Insert and Delete -/

/-- One mutating operation. -/
inductive BOp (K V : Type) where
  | ins (key : K) (v : V)
  | del (key : K)

def applyOp (t : BPT K V) : BOp K V → BPT K V
  | .ins k v => t.insertB k v
  | .del k => (t.deleteB k).1

def applyOps (t : BPT K V) (ops : List (BOp K V)) : BPT K V :=
  ops.foldl applyOp t

/-- The abstract effect of one operation on the sorted association list. -/
def absApply (m : List (K × V)) : BOp K V → List (K × V)
  | .ins k v => absIns k v m
  | .del k => eraseKeyList k m

theorem lookupEntry_eq_none_forall {key : K} {l : List (K × V)}
    (h : lookupEntry key l = none) : ∀ e ∈ l, e.1 ≠ key := by
  induction l with
  | nil => intro e he; cases he
  | cons e es ih =>
    rw [lookupEntry] at h
    split at h
    · cases h
    · next hne =>
      intro x hx
      rcases List.mem_cons.1 hx with rfl | hx
      · exact hne
      · exact ih h x hx

theorem applyOp_spec {t : BPT K V} (hwft : WFT t) (op : BOp K V) :
    WFT (applyOp t op) ∧ absT (applyOp t op) = absApply (absT t) op := by
  cases op with
  | ins k v => exact insertB_spec hwft k v
  | del k =>
    have hspec := deleteB_spec hwft k
    cases hflag : (t.deleteB k).2 with
    | false =>
      obtain ⟨heq, hlook⟩ := hspec.1 hflag
      simp only [applyOp, absApply, heq]
      refine ⟨hwft, ?_⟩
      rw [eraseKeyList_of_not_mem (lookupEntry_eq_none_forall hlook)]
    | true =>
      obtain ⟨hwft', habs', _⟩ := hspec.2 hflag
      exact ⟨hwft', habs'⟩

theorem applyOps_spec {t : BPT K V} (hwft : WFT t) (ops : List (BOp K V)) :
    WFT (applyOps t ops) ∧
      absT (applyOps t ops) = ops.foldl absApply (absT t) := by
  induction ops generalizing t with
  | nil => exact ⟨hwft, rfl⟩
  | cons op ops ih =>
    obtain ⟨h1, h2⟩ := applyOp_spec hwft op
    obtain ⟨h3, h4⟩ := ih h1
    refine ⟨h3, ?_⟩
    simp only [applyOps, List.foldl_cons] at h4 ⊢
    rw [h4, h2]

theorem bptNew_WFT (deg : Nat) : WFT (bptNew K V deg) ∧ absT (bptNew K V deg) = [] := by
  constructor
  · refine ⟨?_, trivial⟩
    simp only [bptNew]
    split <;> omega
  · rfl

/-- Well-formedness and the abstract state of any reachable tree. -/
theorem reachable_spec (deg : Nat) (ops : List (BOp K V)) :
    WFT (applyOps (bptNew K V deg) ops) ∧
      absT (applyOps (bptNew K V deg) ops) = ops.foldl absApply [] := by
  obtain ⟨h1, h2⟩ : WFT (bptNew K V deg) ∧ absT (bptNew K V deg) = [] :=
    bptNew_WFT deg
  obtain ⟨h3, h4⟩ := applyOps_spec h1 ops
  rw [h2] at h4
  exact ⟨h3, h4⟩

/-! ## Sorted association-list facts used by the claims -/

theorem absT_sorted {t : BPT K V} (hwft : WFT t) :
    List.Pairwise (fun a b : K × V => a.1 < b.1) (absT t) := by
  obtain ⟨hdeg, hroot⟩ := hwft
  match hr : t.root with
  | none => simp [absT, hr]
  | some n =>
    rw [hr] at hroot
    simp only [absT, hr]
    exact (absN_windows none none n hroot.1).1

theorem root_none_of_absT_nil {t : BPT K V} (hwft : WFT t)
    (habs : absT t = []) : t.root = none := by
  obtain ⟨hdeg, hroot⟩ := hwft
  match hr : t.root with
  | none => rfl
  | some n =>
    rw [hr] at hroot
    simp only [absT, hr] at habs
    exact absurd habs (absN_ne none none n hroot.1 hroot.2.1)

theorem lookupEntry_some_iff_mem {key : K} {v : V} {l : List (K × V)}
    (hs : List.Pairwise (fun a b : K × V => a.1 < b.1) l) :
    lookupEntry key l = some v ↔ (key, v) ∈ l := by
  induction l with
  | nil => simp [lookupEntry]
  | cons e es ih =>
    obtain ⟨hse, hw⟩ := List.pairwise_cons.1 hs
    rw [lookupEntry]
    by_cases h1 : e.1 = key
    · rw [if_pos h1]
      constructor
      · intro h
        injection h with h
        exact List.mem_cons.2 (Or.inl (Prod.ext h1 h).symm)
      · intro h
        rcases List.mem_cons.1 h with h | h
        · rw [← h]
        · have := hse _ h
          rw [h1] at this
          exact absurd this (lt_irrefl key)
    · rw [if_neg h1, ih hw]
      constructor
      · exact fun h => List.mem_cons_of_mem _ h
      · intro h
        rcases List.mem_cons.1 h with h | h
        · exact absurd (congrArg Prod.fst h.symm) h1
        · exact h

theorem filter_point_sorted {key : K} {l : List (K × V)}
    (hs : List.Pairwise (fun a b : K × V => a.1 < b.1) l) :
    l.filter (fun e => decide (key ≤ e.1 ∧ e.1 ≤ key)) =
      (match lookupEntry key l with
       | some v => [(key, v)]
       | none => []) := by
  induction l with
  | nil => simp [lookupEntry]
  | cons e es ih =>
    obtain ⟨hse, hw⟩ := List.pairwise_cons.1 hs
    rw [List.filter_cons, lookupEntry]
    by_cases h1 : e.1 = key
    · rw [if_pos (by simp [h1]), if_pos h1]
      have hnil : es.filter (fun e => decide (key ≤ e.1 ∧ e.1 ≤ key)) = [] := by
        rw [List.filter_eq_nil_iff]
        intro x hx
        have := hse x hx
        rw [h1] at this
        simp only [decide_eq_true_eq, not_and]
        intro _
        exact not_le.2 this
      rw [hnil]
      have he : e = (key, e.2) := by
        rw [← h1]
      rw [he]
    · by_cases h2 : e.1 < key
      · rw [if_neg (by
            simp only [decide_eq_true_eq, not_and]
            exact fun hc => absurd hc (not_le.2 h2)),
          if_neg h1, ih hw]
      · have h3 : key < e.1 := lt_of_le_of_ne (not_lt.1 h2) (fun h => h1 h.symm)
        rw [if_neg (by
            simp only [decide_eq_true_eq, not_and]
            exact fun _ => not_le.2 h3),
          if_neg h1, ih hw]

theorem eraseKeyList_no_dup_key {key : K} {l : List (K × V)}
    (hnd : (l.map Prod.fst).Nodup) :
    ∀ e ∈ eraseKeyList key l, e.1 ≠ key := by
  induction l with
  | nil => intro e he; cases he
  | cons x xs ih =>
    rw [List.map_cons, List.nodup_cons] at hnd
    rw [eraseKeyList]
    split
    · next hx =>
      intro e he hcon
      refine hnd.1 ?_
      rw [hx, ← hcon]
      exact List.mem_map_of_mem _ he
    · next hx =>
      intro e he
      rcases List.mem_cons.1 he with rfl | he
      · exact hx
      · exact ih hnd.2 e he

theorem keys_nodup_of_sorted {l : List (K × V)}
    (hs : List.Pairwise (fun a b : K × V => a.1 < b.1) l) :
    (l.map Prod.fst).Nodup := by
  rw [List.Nodup, List.pairwise_map]
  exact hs.imp fun h => ne_of_lt h

theorem lookup_erase_self_sorted {key : K} {l : List (K × V)}
    (hs : List.Pairwise (fun a b : K × V => a.1 < b.1) l) :
    lookupEntry key (eraseKeyList key l) = none :=
  lookupEntry_eq_none (eraseKeyList_no_dup_key (keys_nodup_of_sorted hs))

theorem absIns_mem {key : K} {v : V} {l : List (K × V)} :
    ∀ e ∈ absIns key v l, e = (key, v) ∨ e ∈ l := by
  induction l with
  | nil =>
    intro e he
    rw [absIns, List.mem_singleton] at he
    exact Or.inl he
  | cons x xs ih =>
    intro e he
    rw [absIns] at he
    split at he
    · rcases List.mem_cons.1 he with rfl | he
      · exact Or.inr (List.mem_cons_self _ _)
      · rcases ih e he with h | h
        · exact Or.inl h
        · exact Or.inr (List.mem_cons_of_mem _ h)
    · split at he
      · rcases List.mem_cons.1 he with rfl | he
        · exact Or.inl rfl
        · exact Or.inr (List.mem_cons_of_mem _ he)
      · rcases List.mem_cons.1 he with rfl | he
        · exact Or.inl rfl
        · exact Or.inr he

theorem lookup_foldl_absIns_not_mem {key : K} {kvs : List (K × V)}
    (h : ∀ p ∈ kvs, p.1 ≠ key) :
    ∀ m, lookupEntry key (kvs.foldl (fun acc p => absIns p.1 p.2 acc) m) =
      lookupEntry key m := by
  induction kvs with
  | nil => intro m; rfl
  | cons q rest ih =>
    intro m
    rw [List.foldl_cons, ih fun p hp => h p (List.mem_cons_of_mem _ hp)]
    exact lookupEntry_absIns_other fun hc =>
      h q (List.mem_cons_self _ _) hc.symm

theorem lookup_foldl_absIns_mem {kvs : List (K × V)}
    (hnd : (kvs.map Prod.fst).Nodup) :
    ∀ p ∈ kvs, ∀ m,
      lookupEntry p.1 (kvs.foldl (fun acc p => absIns p.1 p.2 acc) m) =
        some p.2 := by
  induction kvs with
  | nil => intro p hp; cases hp
  | cons q rest ih =>
    rw [List.map_cons, List.nodup_cons] at hnd
    intro p hp m
    rcases List.mem_cons.1 hp with rfl | hp
    · rw [List.foldl_cons]
      rw [lookup_foldl_absIns_not_mem fun x hx hc => hnd.1 (by
        rw [← hc]; exact List.mem_map_of_mem _ hx)]
      exact lookupEntry_absIns_same
    · exact ih hnd.2 p hp _

theorem lookup_erase_other {key k' : K} (hne : k' ≠ key) :
    ∀ (l : List (K × V)),
      lookupEntry key (eraseKeyList k' l) = lookupEntry key l := by
  intro l
  induction l with
  | nil => rfl
  | cons e es ih =>
    rw [eraseKeyList]
    split
    · next hx =>
      rw [lookupEntry, if_neg (by rw [hx]; exact hne)]
    · rw [lookupEntry, lookupEntry]
      split
      · rfl
      · exact ih

theorem foldl_absIns_keys {kvs : List (K × V)} :
    ∀ (m : List (K × V)) (e : K × V),
      e ∈ kvs.foldl (fun acc p => absIns p.1 p.2 acc) m →
      e.1 ∈ kvs.map Prod.fst ∨ e ∈ m := by
  induction kvs with
  | nil => intro m e he; exact Or.inr he
  | cons q rest ih =>
    intro m e he
    rw [List.foldl_cons] at he
    rcases ih _ e he with h | h
    · exact Or.inl (List.mem_cons_of_mem _ h)
    · rcases absIns_mem e h with h | h
      · left
        rw [h]
        exact List.mem_cons_self _ _
      · exact Or.inr h

theorem foldl_erase_nil {ds : List K} :
    ∀ (l : List (K × V)), (l.map Prod.fst).Nodup → (∀ e ∈ l, e.1 ∈ ds) →
      ds.foldl (fun acc k => eraseKeyList k acc) l = [] := by
  induction ds with
  | nil =>
    intro l _ hcov
    cases l with
    | nil => rfl
    | cons e es => cases hcov e (List.mem_cons_self _ _)
  | cons d ds' ih =>
    intro l hnd hcov
    rw [List.foldl_cons]
    refine ih _ ?_ ?_
    · exact List.Nodup.sublist ((eraseKeyList_sublist d l).map _) hnd
    · intro e he
      have hmem : e ∈ l := (eraseKeyList_sublist d l).mem he
      have hne : e.1 ≠ d := eraseKeyList_no_dup_key hnd e he
      rcases List.mem_cons.1 (hcov e hmem) with h | h
      · exact absurd h hne
      · exact h

theorem absIns_any_key {key : K} {v : V} {l : List (K × V)} :
    (absIns key v l).any (fun e => e.1 = key) = true := by
  induction l with
  | nil => simp [absIns]
  | cons e es ih =>
    rw [absIns]
    split
    · simpa using Or.inr ih
    · split <;> simp

/-! ## The claims about the B+ tree -/

/-- C3: on every B+ tree built by any sequence of Insert and Delete
operations, for all keys `lo ≤ hi`, `Range(lo, hi)` returns exactly the
stored entries (those `All` enumerates) whose keys lie in the closed interval
`[lo, hi]`, in strictly ascending key order; and the degenerate
`Range(k, k)` is the singleton for `k` exactly when `Search` finds `k`, and
empty otherwise. -/
theorem c3_range {K V : Type} [LinearOrder K] (deg : Nat)
    (ops : List (BOp K V)) (lo hi : K) (hlh : lo ≤ hi) :
    (applyOps (bptNew K V deg) ops).rangeB lo hi =
      ((applyOps (bptNew K V deg) ops).allB).filter
        (fun e => decide (lo ≤ e.1 ∧ e.1 ≤ hi)) ∧
    List.Pairwise (fun a b : K × V => a.1 < b.1)
      ((applyOps (bptNew K V deg) ops).rangeB lo hi) ∧
    (∀ (k : K) (v : V), (applyOps (bptNew K V deg) ops).searchB k = some v →
      (applyOps (bptNew K V deg) ops).rangeB k k = [(k, v)]) ∧
    (∀ k : K, (applyOps (bptNew K V deg) ops).searchB k = none →
      (applyOps (bptNew K V deg) ops).rangeB k k = []) := by
  obtain ⟨hwft, habs⟩ := reachable_spec deg ops
  refine ⟨?_, ?_, ?_, ?_⟩
  · rw [rangeB_eq hwft, allB_eq]
  · rw [rangeB_eq hwft]
    exact (absT_sorted hwft).sublist (List.filter_sublist _)
  · intro k v hv
    rw [searchB_eq hwft] at hv
    rw [rangeB_eq hwft, filter_point_sorted (absT_sorted hwft), hv]
  · intro k hv
    rw [searchB_eq hwft] at hv
    rw [rangeB_eq hwft, filter_point_sorted (absT_sorted hwft), hv]

/-- C3 witness. -/
theorem c3_range_witness :
    (1 : Int) ≤ 2 ∧
    ((applyOps (bptNew Int Int 2) [BOp.ins 1 10]).rangeB 1 2 =
      ((applyOps (bptNew Int Int 2) [BOp.ins 1 10]).allB).filter
        (fun e => decide (1 ≤ e.1 ∧ e.1 ≤ 2)) ∧
    List.Pairwise (fun a b : Int × Int => a.1 < b.1)
      ((applyOps (bptNew Int Int 2) [BOp.ins 1 10]).rangeB 1 2) ∧
    (∀ (k : Int) (v : Int),
      (applyOps (bptNew Int Int 2) [BOp.ins 1 10]).searchB k = some v →
      (applyOps (bptNew Int Int 2) [BOp.ins 1 10]).rangeB k k = [(k, v)]) ∧
    (∀ k : Int, (applyOps (bptNew Int Int 2) [BOp.ins 1 10]).searchB k = none →
      (applyOps (bptNew Int Int 2) [BOp.ins 1 10]).rangeB k k = [])) :=
  ⟨by decide, c3_range 2 [BOp.ins 1 10] 1 2 (by decide)⟩

/-- C4: inserting any finite set of distinct keys in any order into a fresh
tree makes Search return each inserted value; subsequently deleting every
one of those keys, in any order, leaves the empty tree: nil root, zero
length, and all queries empty. -/
theorem c4_round_trip {K V : Type} [LinearOrder K] (deg : Nat)
    (kvs : List (K × V)) (ds : List K)
    (hnd : (kvs.map Prod.fst).Nodup) (hperm : ds.Perm (kvs.map Prod.fst)) :
    (∀ p ∈ kvs,
      (applyOps (bptNew K V deg)
        (kvs.map fun p => BOp.ins p.1 p.2)).searchB p.1 = some p.2) ∧
    (applyOps (bptNew K V deg)
      (kvs.map (fun p => BOp.ins p.1 p.2) ++ ds.map BOp.del)).root = none ∧
    (applyOps (bptNew K V deg)
      (kvs.map (fun p => BOp.ins p.1 p.2) ++ ds.map BOp.del)).lenB = 0 ∧
    (applyOps (bptNew K V deg)
      (kvs.map (fun p => BOp.ins p.1 p.2) ++ ds.map BOp.del)).allB = [] ∧
    (∀ lo hi : K, (applyOps (bptNew K V deg)
      (kvs.map (fun p => BOp.ins p.1 p.2) ++ ds.map BOp.del)).rangeB lo hi
        = []) ∧
    (∀ k : K, (applyOps (bptNew K V deg)
      (kvs.map (fun p => BOp.ins p.1 p.2) ++ ds.map BOp.del)).searchB k
        = none) := by
  obtain ⟨hwft1, habs1⟩ := reachable_spec deg (kvs.map fun p => BOp.ins p.1 p.2)
  have habs1' : absT (applyOps (bptNew K V deg)
      (kvs.map fun p => BOp.ins p.1 p.2)) =
      kvs.foldl (fun acc p => absIns p.1 p.2 acc) [] := by
    rw [habs1, List.foldl_map]
    rfl
  obtain ⟨hwft2, habs2⟩ := reachable_spec deg
    (kvs.map (fun p => BOp.ins p.1 p.2) ++ ds.map BOp.del)
  have habs2' : absT (applyOps (bptNew K V deg)
      (kvs.map (fun p => BOp.ins p.1 p.2) ++ ds.map BOp.del)) =
      ds.foldl (fun acc k => eraseKeyList k acc)
        (kvs.foldl (fun acc p => absIns p.1 p.2 acc) []) := by
    rw [habs2, List.foldl_append, List.foldl_map, List.foldl_map]
    rfl
  have hnil : absT (applyOps (bptNew K V deg)
      (kvs.map (fun p => BOp.ins p.1 p.2) ++ ds.map BOp.del)) = [] := by
    rw [habs2']
    refine foldl_erase_nil _ ?_ ?_
    · rw [← habs1']
      exact keys_nodup_of_sorted (absT_sorted hwft1)
    · intro e he
      rcases foldl_absIns_keys [] e he with h | h
      · exact hperm.mem_iff.2 h
      · cases h
  refine ⟨?_, ?_, ?_, ?_, ?_, ?_⟩
  · intro p hp
    rw [searchB_eq hwft1, habs1']
    exact lookup_foldl_absIns_mem hnd p hp []
  · exact root_none_of_absT_nil hwft2 hnil
  · rw [lenB_eq, hnil]
    rfl
  · rw [allB_eq, hnil]
  · intro lo hi
    rw [rangeB_eq hwft2, hnil]
    rfl
  · intro k
    rw [searchB_eq hwft2, hnil]
    rfl

/-- C4 witness. -/
theorem c4_round_trip_witness :
    ((([(1, 10), (2, 20)] : List (Int × Int)).map Prod.fst).Nodup ∧
      ([2, 1] : List Int).Perm
        (([(1, 10), (2, 20)] : List (Int × Int)).map Prod.fst)) ∧
    ((∀ p ∈ ([(1, 10), (2, 20)] : List (Int × Int)),
      (applyOps (bptNew Int Int 2)
        (([(1, 10), (2, 20)] : List (Int × Int)).map
          fun p => BOp.ins p.1 p.2)).searchB p.1 = some p.2) ∧
    (applyOps (bptNew Int Int 2)
      (([(1, 10), (2, 20)] : List (Int × Int)).map (fun p => BOp.ins p.1 p.2)
        ++ ([2, 1] : List Int).map BOp.del)).root = none ∧
    (applyOps (bptNew Int Int 2)
      (([(1, 10), (2, 20)] : List (Int × Int)).map (fun p => BOp.ins p.1 p.2)
        ++ ([2, 1] : List Int).map BOp.del)).lenB = 0 ∧
    (applyOps (bptNew Int Int 2)
      (([(1, 10), (2, 20)] : List (Int × Int)).map (fun p => BOp.ins p.1 p.2)
        ++ ([2, 1] : List Int).map BOp.del)).allB = [] ∧
    (∀ lo hi : Int, (applyOps (bptNew Int Int 2)
      (([(1, 10), (2, 20)] : List (Int × Int)).map (fun p => BOp.ins p.1 p.2)
        ++ ([2, 1] : List Int).map BOp.del)).rangeB lo hi = []) ∧
    (∀ k : Int, (applyOps (bptNew Int Int 2)
      (([(1, 10), (2, 20)] : List (Int × Int)).map (fun p => BOp.ins p.1 p.2)
        ++ ([2, 1] : List Int).map BOp.del)).searchB k = none)) :=
  ⟨⟨by decide, by decide⟩,
    c4_round_trip 2 [(1, 10), (2, 20)] [2, 1] (by decide) (by decide)⟩

/-- C5: on every reachable tree, inserting key `k` with value `v1` and then
again with value `v2` leaves Search returning `v2`, and the second insert
does not change Len: overwriting replaces in place, creating no duplicate. -/
theorem c5_overwrite {K V : Type} [LinearOrder K] (deg : Nat)
    (ops : List (BOp K V)) (k : K) (v1 v2 : V) :
    (((applyOps (bptNew K V deg) ops).insertB k v1).insertB k v2).searchB k =
      some v2 ∧
    (((applyOps (bptNew K V deg) ops).insertB k v1).insertB k v2).lenB =
      ((applyOps (bptNew K V deg) ops).insertB k v1).lenB := by
  obtain ⟨hwft, habs⟩ := reachable_spec deg ops
  obtain ⟨hwft1, habs1⟩ := insertB_spec hwft k v1
  obtain ⟨hwft2, habs2⟩ := insertB_spec hwft1 k v2
  refine ⟨?_, ?_⟩
  · rw [searchB_eq hwft2, habs2]
    exact lookupEntry_absIns_same
  · rw [lenB_eq, lenB_eq, habs2,
      absIns_length (absT_sorted hwft1)]
    rw [habs1, if_pos absIns_any_key]

/-- C6: on every reachable tree, the forward walk along the leaf chain
(`All`) lists entries in strictly ascending key order, contains exactly the
entries `Search` can find — each exactly once, since strict ascent forbids
repeats — and `Len` counts precisely the entries the walk visits. -/
theorem c6_leaf_chain {K V : Type} [LinearOrder K] (deg : Nat)
    (ops : List (BOp K V)) :
    List.Pairwise (fun a b : K × V => a.1 < b.1)
      ((applyOps (bptNew K V deg) ops).allB) ∧
    (∀ (k : K) (v : V), (applyOps (bptNew K V deg) ops).searchB k = some v ↔
      (k, v) ∈ (applyOps (bptNew K V deg) ops).allB) ∧
    (applyOps (bptNew K V deg) ops).lenB =
      ((applyOps (bptNew K V deg) ops).allB).length := by
  obtain ⟨hwft, habs⟩ := reachable_spec deg ops
  refine ⟨?_, ?_, ?_⟩
  · rw [allB_eq]
    exact absT_sorted hwft
  · intro k v
    rw [searchB_eq hwft, allB_eq]
    exact lookupEntry_some_iff_mem (absT_sorted hwft)
  · rw [lenB_eq, allB_eq]

/-- C8: on every reachable tree in which key `k` is present, `Delete(k)`
returns true; an immediately following `Delete(k)` returns false and returns
the tree completely unchanged. -/
theorem c8_delete_twice {K V : Type} [LinearOrder K] (deg : Nat)
    (ops : List (BOp K V)) (k : K)
    (hpresent : ∃ v, (applyOps (bptNew K V deg) ops).searchB k = some v) :
    ((applyOps (bptNew K V deg) ops).deleteB k).2 = true ∧
    ((((applyOps (bptNew K V deg) ops).deleteB k).1).deleteB k).2 = false ∧
    ((((applyOps (bptNew K V deg) ops).deleteB k).1).deleteB k).1 =
      ((applyOps (bptNew K V deg) ops).deleteB k).1 := by
  obtain ⟨hwft, habs⟩ := reachable_spec deg ops
  obtain ⟨v, hv⟩ := hpresent
  rw [searchB_eq hwft] at hv
  have hflag1 : ((applyOps (bptNew K V deg) ops).deleteB k).2 = true := by
    cases hf : ((applyOps (bptNew K V deg) ops).deleteB k).2 with
    | true => rfl
    | false =>
      obtain ⟨_, hlook⟩ := (deleteB_spec hwft k).1 hf
      rw [hv] at hlook
      cases hlook
  obtain ⟨hwft1, habs1, _⟩ := (deleteB_spec hwft k).2 hflag1
  have hlook1 : lookupEntry k
      (absT ((applyOps (bptNew K V deg) ops).deleteB k).1) = none := by
    rw [habs1]
    exact lookup_erase_self_sorted (absT_sorted hwft)
  have hflag2 : ((((applyOps (bptNew K V deg) ops).deleteB k).1).deleteB k).2
      = false := by
    cases hf : ((((applyOps (bptNew K V deg) ops).deleteB k).1).deleteB k).2 with
    | false => rfl
    | true =>
      obtain ⟨_, _, hne⟩ := (deleteB_spec hwft1 k).2 hf
      exact absurd hlook1 hne
  obtain ⟨heq, _⟩ := (deleteB_spec hwft1 k).1 hflag2
  refine ⟨hflag1, hflag2, ?_⟩
  rw [heq]

/-- C8 witness. -/
theorem c8_delete_twice_witness :
    (∃ v, (applyOps (bptNew Int Int 2) [BOp.ins 1 10]).searchB 1 = some v) ∧
    (((applyOps (bptNew Int Int 2) [BOp.ins 1 10]).deleteB 1).2 = true ∧
    ((((applyOps (bptNew Int Int 2) [BOp.ins 1 10]).deleteB 1).1).deleteB 1).2
      = false ∧
    ((((applyOps (bptNew Int Int 2) [BOp.ins 1 10]).deleteB 1).1).deleteB 1).1
      = ((applyOps (bptNew Int Int 2) [BOp.ins 1 10]).deleteB 1).1) :=
  ⟨⟨10, by
      simp [applyOps, applyOp, BPT.insertB, bptNew, BPT.searchB,
        findLeafEntries, lookupEntry]⟩,
    c8_delete_twice 2 [BOp.ins 1 10] 1 ⟨10, by
      simp [applyOps, applyOp, BPT.insertB, bptNew, BPT.searchB,
        findLeafEntries, lookupEntry]⟩⟩

end BPlus

end Treego
